import Mathlib

/-!
The jsgo build session: a shallow embedding of `builder/builder.go`

Go values are embedded as follows.

* A Go `string` or `[]byte` is a Lean `String`; every character of the Lean
  string stands for one byte of the Go value, so `len`, slicing and
  concatenation are the list operations on `String.data`.
* A Go `map[K]V` is a function `K → Option V` (`none` is a missing key).
* A Go function returning `(T, error)` returns an `Outcome T`, which also
  records a panic.
* The session is threaded explicitly.  Next to the archive cache the session
  carries a trace of the cache writes, callback invocations and code
  generator starts that the driver performed, so that ordering properties can
  be stated.
* Recursion between `BuildPackage`, the importer closure handed to the code
  generator and `ImportStandardArchive` is bounded by a fuel argument; the
  result `none` means that the fuel did not suffice.
* External collaborators (the `go/build` resolver, the code generator, the
  precompiled assets, the callback, the file systems, the cancellation
  signal) are fields of `World`.
-/

namespace Jsgo

/-! ## Strings -/

/-- Go `strings.HasPrefix` on byte lists. -/
def hasPrefixL (s p : List Char) : Bool := p.isPrefixOf s

/-- Go `strings.HasSuffix` on byte lists. -/
def hasSuffixL (s p : List Char) : Bool := p.isSuffixOf s

/-- Go `strings.LastIndex` on byte lists: the largest index at which `sub` starts. -/
def lastIndexL (sub : List Char) : List Char → Option Nat
  | [] => if sub.isPrefixOf [] then some 0 else none
  | c :: cs =>
    match lastIndexL sub cs with
    | some j => some (j + 1)
    | none => if sub.isPrefixOf (c :: cs) then some 0 else none

/-- Go `strings.Contains` on byte lists. -/
def containsL (s sub : List Char) : Bool := (lastIndexL sub s).isSome

/-- Go `strings.HasPrefix`. -/
def HasPrefix (s p : String) : Bool := hasPrefixL s.data p.data

/-- Go `strings.HasSuffix`. -/
def HasSuffix (s p : String) : Bool := hasSuffixL s.data p.data

/-- The literal `"/vendor/"`. -/
def slashVendorSlash : List Char := ['/', 'v', 'e', 'n', 'd', 'o', 'r', '/']

/-- The literal `"vendor/"`. -/
def vendorSlash : List Char := ['v', 'e', 'n', 'd', 'o', 'r', '/']

/-- `findVendor` on the bytes of the path (builder.go, `findVendor`). -/
def findVendorL (path : List Char) : Nat × Bool :=
  if containsL path slashVendorSlash then
    ((lastIndexL slashVendorSlash path).getD 0 + 1, true)
  else if hasPrefixL path vendorSlash then
    (0, true)
  else
    (0, false)

/-- `findVendor` looks for the last non-terminating "vendor" path element. -/
def findVendor (path : String) : Nat × Bool := findVendorL path.data

/-- `UnvendorPath` on the bytes of the path. -/
def unvendorL (path : List Char) : List Char :=
  match findVendorL path with
  | (i, true) => path.drop (i + vendorSlash.length)
  | (_, false) => path

/-- `UnvendorPath` (builder.go): `path[i+len("vendor/"):]` when `findVendor` succeeds. -/
def UnvendorPath (path : String) : String :=
  match findVendor path with
  | (i, true) => ⟨path.data.drop (i + "vendor/".length)⟩
  | (_, false) => path

/-! ## Data model -/

/-- A Go `error` value surfaced by the builder. -/
inductive BuildError where
  /-- The error `ctx.Err()` of a cancelled context. -/
  | cancelled
  /-- The error `*ImportCError` with its `pkgPath`. -/
  | importC (pkgPath : String)
  /-- An error made by `fmt.Errorf` or returned by a collaborator. -/
  | message (msg : String)
  /-- The wrapper `pathErr{error, path}`. -/
  | pathErr (err : BuildError) (path : String)
  deriving DecidableEq, Repr

/-- The method `pathErr.Path`; other errors do not have it. -/
def BuildError.Path : BuildError → Option String
  | .pathErr _ path => some path
  | _ => none

/-- The method `ImportCError.Error` and the messages of the other errors. -/
def BuildError.Error : BuildError → String
  | .cancelled => "context canceled"
  | .importC pkgPath => pkgPath ++ ": importing \"C\" is not supported by GopherJS"
  | .message msg => msg
  | .pathErr err _ => err.Error

/-- The result of a Go call that returns `(T, error)` and may panic. -/
inductive Outcome (α : Type) where
  | ok (a : α)
  | error (e : BuildError)
  | panic (msg : String)
  deriving DecidableEq, Repr

/-- The type `compiler.Archive`, as far as the builder reads and writes it. -/
structure Archive where
  ImportPath : String
  Name : String
  Imports : List String
  ExportData : String
  Declarations : List String
  IncJSCode : String
  Minified : Bool
  deriving DecidableEq, Repr

/-- The type `build.Package`, as far as the builder reads and writes it. -/
structure Package where
  ImportPath : String
  Dir : String
  Name : String
  PkgObj : String
  GoFiles : List String
  CgoFiles : List String
  TestGoFiles : List String
  Imports : List String
  deriving DecidableEq, Repr

/-- The type `PackageData`: a `build.Package` with its `.inc.js` files. -/
structure PackageData extends Package where
  JSFiles : List String
  IsTest : Bool
  deriving DecidableEq, Repr

/-- The method `build.Package.IsCommand`. -/
def PackageData.IsCommand (pkg : PackageData) : Bool := pkg.Name = "main"

/-- The type `Options`, without the file systems and the log sink. -/
structure Options where
  Unvendor : Bool
  Initializer : Bool
  Verbose : Bool
  Minify : Bool
  BuildTags : List String
  /-- The field `Standard map[string]map[bool]string`. -/
  Standard : String → Option (Bool → Option String)
  /-- The field `Source map[string]bool`; a missing key reads `false`. -/
  Source : String → Bool

/-- What the driver did to the session, in order. -/
inductive Event where
  /-- The assignment `s.Archives[key] = archive`; `std` tells that it is the one of
  `ImportStandardArchive`. -/
  | install (key : String) (archive : Archive) (std : Bool)
  /-- The call `s.Callback(archive)`. -/
  | callback (archive : Archive)
  /-- The call `compiler.Compile(importPath, ...)`. -/
  | compile (importPath : String)
  deriving DecidableEq, Repr

/-- The type `Session`: the archive cache, and the trace of what was done to it. The
types cache is left to the collaborators that read it. -/
structure Session where
  Archives : String → Option Archive
  trace : List Event

/-- The fields of `build.Context` that `importWithSrcDir` sets. -/
structure BuildContext where
  GOROOT : String
  GOPATH : String
  GOOS : String
  GOARCH : String
  InstallSuffix : String
  Compiler : String
  BuildTags : List String
  CgoEnabled : Bool
  deriving DecidableEq, Repr

/-- The receiver type expressions that `funcName` tells apart. -/
inductive RecvExpr where
  /-- An `*ast.Ident` with its `Name`. -/
  | ident (name : String)
  /-- An `*ast.StarExpr` with its `X`. -/
  | star (x : RecvExpr)
  /-- Any other expression. -/
  | other
  deriving DecidableEq, Repr

/-- A top-level declaration of a parsed file, as far as `parseAndAugment` reads and
writes it. -/
inductive Decl where
  /-- An `*ast.FuncDecl`: the types of the fields of `Recv.List` (empty when `Recv` is nil
  or has no field) and `Name.Name`. -/
  | funcDecl (recv : List RecvExpr) (name : String)
  /-- An `*ast.GenDecl` with the token `TYPE`: the names of its type specs. -/
  | typeDecl (names : List String)
  /-- An `*ast.GenDecl` with the token `VAR` or `CONST`: the names of each value spec. -/
  | valueDecl (isConst : Bool) (specs : List (List String))
  /-- Any other declaration (an import declaration, a bad declaration). -/
  | otherDecl
  deriving DecidableEq, Repr

/-- An `*ast.ImportSpec`: the local name, if any, and the literal `Path.Value`. -/
structure ImportSpec where
  Name : Option String
  Path : String
  deriving DecidableEq, Repr

/-- A parsed source file, as far as the driver reads it: the name under which the
file set knows it, its import specs and its top-level declarations. -/
structure AstFile where
  Name : String
  Imports : List ImportSpec := []
  Decls : List Decl := []
  deriving DecidableEq, Repr

/-- An external operation that is handed an importer (`compiler.Compile`,
`compiler.ImportDependencies`): it either returns, or asks the importer for a path
and goes on with the answer. -/
inductive Gen (ρ : Type) where
  | ret (r : Except BuildError ρ)
  | ask (path : String) (k : Except BuildError Archive → Gen ρ)

/-- The collaborators of a session, and its options. -/
structure World where
  options : Options
  /-- The constant `runtime.GOARCH` of the host. -/
  hostArch : String
  /-- The table `assets.Archives`, `none` when the assets are not initialised. -/
  assetsArchives : Option (String → Option (Bool → Option Archive))
  /-- The error result of `gcimporter.BImportData` on the export data of an archive. -/
  BImportData : Session → String → Archive → Option BuildError
  /-- The field `Session.Callback`, `none` when it is nil. -/
  Callback : Option (Session → Archive → Option BuildError)
  /-- The call `bctx.Import(path, srcDir, mode)` of `go/build`. -/
  bctxImport : BuildContext → String → String → Outcome Package
  /-- The names in `s.Filesystem(dir).ReadDir(dir)`. -/
  ReadDir : String → Outcome (List String)
  /-- The result of `parseAndAugment` on a package. -/
  parseAndAugment : PackageData → Outcome (List AstFile)
  /-- The code generator `compiler.Compile(importPath, files, fileSet, importContext, minify)`. -/
  Compile : String → List AstFile → Bool → Gen Archive
  /-- The call `readFile(s.Filesystem(fname), fname)` for `fname = filepath.Join(dir, jsFile)`. -/
  readJS : String → String → Outcome String
  /-- The error result of `writeLibraryPackage`. -/
  writeLibraryPackage : Session → Archive → String → Option BuildError
  /-- Whether `WithCancel` sees the cancellation signal before the operation it guards
  has had an effect. -/
  cancelled : Session → Bool
  /-- The dependency walker `compiler.ImportDependencies(archive, importer)`. -/
  ImportDependencies : Archive → Gen (List Archive)

/-- The function `NewSession`: an empty archive cache. -/
def NewSession : Session := { Archives := fun _ => none, trace := [] }

/-- The assignment `s.Archives[key] = archive`. -/
def Session.install (s : Session) (key : String) (archive : Archive) (std : Bool) : Session :=
  { Archives := fun k => if k = key then some archive else s.Archives k
    trace := s.trace ++ [Event.install key archive std] }

/-- The statement `if s.Callback != nil { if err := s.Callback(archive); ... }`. -/
def Session.fire (w : World) (s : Session) (archive : Archive) : Session × Option BuildError :=
  match w.Callback with
  | none => (s, none)
  | some cb => ({ s with trace := s.trace ++ [Event.callback archive] }, cb s archive)

/-- The method `Session.InstallSuffix`. -/
def InstallSuffix (w : World) : String := if w.options.Minify then "min" else ""

/-! ## Importing a package record -/

/-- The method `NewBuildContext`, without the file system callbacks. -/
def NewBuildContext (installSuffix : String) (buildTags : List String) : BuildContext :=
  { GOROOT := "goroot", GOPATH := "gopath", GOOS := "darwin", GOARCH := "js",
    InstallSuffix := installSuffix, Compiler := "gc", BuildTags := buildTags ++ ["netgo"],
    CgoEnabled := true }

/-- The function `excludeExecutable`. -/
def excludeExecutable (goFiles : List String) : List String :=
  goFiles.filter (fun f => !HasPrefix f "executable_")

/-- The function `exclude`. -/
def exclude (files : List String) (excluded : List String) : List String :=
  files.filter (fun f => !excluded.contains f)

/-- The method `jsFilesFromDir`. -/
def jsFilesFromDir (w : World) (dir : String) : Outcome (List String) :=
  match w.ReadDir dir with
  | .error e => .error e
  | .panic m => .panic m
  | .ok files =>
    .ok (files.filter (fun name =>
      HasSuffix name ".inc.js" && name.data.head? != some '_' && name.data.head? != some '.'))

/-- The build context of `importWithSrcDir` after the switch on the path. -/
def importBuildContext (w : World) (path installSuffix : String) (buildTags : List String) :
    BuildContext :=
  let bctx := NewBuildContext installSuffix buildTags
  if path = "syscall" then
    { bctx with
      GOARCH := w.hostArch
      InstallSuffix := if installSuffix ≠ "" then "js" ++ "_" ++ installSuffix else "js" }
  else if path = "math/big" then
    { bctx with BuildTags := bctx.BuildTags ++ ["math_big_pure_go"] }
  else if path = "crypto/x509" ∨ path = "os/user" then
    { bctx with CgoEnabled := false }
  else bctx

/-- The second switch of `importWithSrcDir`: the source files kept for some packages. -/
def fixGoFiles (bctx : BuildContext) (path : String) (pkg : Package) : Package :=
  if path = "os" then { pkg with GoFiles := excludeExecutable pkg.GoFiles }
  else if path = "runtime" then { pkg with GoFiles := ["error.go"] }
  else if path = "runtime/internal/sys" then
    { pkg with GoFiles := ["zgoos_" ++ bctx.GOOS ++ ".go", "zversion.go"] }
  else if path = "runtime/pprof" then { pkg with GoFiles := [] }
  else if path = "internal/poll" then
    { pkg with GoFiles := exclude pkg.GoFiles ["fd_poll_runtime.go"] }
  else if path = "crypto/rand" then
    { pkg with
      GoFiles := ["rand.go", "util.go"]
      TestGoFiles := exclude pkg.TestGoFiles ["rand_linux_test.go"] }
  else pkg

/-- The method `importWithSrcDir`. -/
def importWithSrcDir (w : World) (s : Session) (path srcDir installSuffix : String)
    (buildTags : List String) : Outcome PackageData :=
  let bctx := importBuildContext w path installSuffix buildTags
  if w.cancelled s then .error .cancelled
  else
    match w.bctxImport bctx path srcDir with
    | .error e => .error e
    | .panic m => .panic m
    | .ok pkg =>
      if HasSuffix pkg.ImportPath "/vendor/github.com/gopherjs/gopherjs/js" then
        .error (.message "vendoring github.com/gopherjs/gopherjs/js package is not supported, see https://github.com/gopherjs/gopherjs/issues/415")
      else
        let pkg := fixGoFiles bctx path pkg
        if pkg.CgoFiles.length > 0 then .error (.importC path)
        else
          match jsFilesFromDir w pkg.Dir with
          | .error e => .error e
          | .panic m => .panic m
          | .ok jsFiles => .ok { toPackage := pkg, JSFiles := jsFiles, IsTest := false }

/-- The method `Import`. -/
def Import (w : World) (s : Session) (path installSuffix : String) (buildTags : List String) :
    Outcome PackageData :=
  importWithSrcDir w s path "" installSuffix buildTags

/-! ## The build session -/

/-- The loop `for _, p := range archive.Imports` of `ImportStandardArchive`, over the
recursive call `rec`. -/
def stdImports (rec : String → Session → Option (Session × Outcome (Option Archive))) :
    List String → Session → Option (Session × Outcome Unit)
  | [], s => some (s, .ok ())
  | p :: ps, s =>
    if (s.Archives p).isSome then stdImports rec ps s
    else
      match rec p s with
      | none => none
      | some (s1, .ok _) => stdImports rec ps s1
      | some (s1, .error e) => some (s1, .error e)
      | some (s1, .panic m) => some (s1, .panic m)

/-- The method `ImportStandardArchive`; the result `ok none` is its `nil, nil`. -/
def ImportStandardArchive (w : World) :
    Nat → String → Session → Option (Session × Outcome (Option Archive))
  | 0, _, _ => none
  | fuel + 1, importPath, s =>
    match w.assetsArchives with
    | none => some (s, .ok none)
    | some archives =>
      match archives importPath with
      | none => some (s, .ok none)
      | some archivePair =>
        match archivePair w.options.Minify with
        | none => some (s, .panic "invalid memory address or nil pointer dereference")
        | some archive =>
          match w.BImportData s importPath archive with
          | some e => some (s, .error e)
          | none =>
            match (s.install importPath archive true).fire w archive with
            | (s2, some e) => some (s2, .error e)
            | (s2, none) =>
              match stdImports (ImportStandardArchive w fuel) archive.Imports s2 with
              | none => none
              | some (s3, .ok _) => some (s3, .ok (some archive))
              | some (s3, .error e) => some (s3, .error e)
              | some (s3, .panic m) => some (s3, .panic m)

/-- The map `localImportPathCache` of one `BuildPackage` call. -/
abbrev LocalCache := List (String × Archive)

/-- The method `buildImportPathWithSrcDir`, over the `BuildPackage` it calls. -/
def buildImportPathWithSrcDirVia (w : World)
    (build : PackageData → Session → Option (Session × Outcome Archive))
    (path srcDir : String) (s : Session) : Option (Session × Outcome (PackageData × Archive)) :=
  match importWithSrcDir w s path srcDir (InstallSuffix w) w.options.BuildTags with
  | .error e => some (s, .error e)
  | .panic m => some (s, .panic m)
  | .ok pkg =>
    match build pkg s with
    | none => none
    | some (s1, .ok archive) => some (s1, .ok (pkg, archive))
    | some (s1, .error e) => some (s1, .error e)
    | some (s1, .panic m) => some (s1, .panic m)

/-- The closure `importContext.Import` that `BuildPackage` hands to the code generator. -/
def importClosure (w : World)
    (build : PackageData → Session → Option (Session × Outcome Archive))
    (dir path : String) (s : Session) (localImportPathCache : LocalCache) :
    Option (Session × LocalCache × Outcome Archive) :=
  match localImportPathCache.lookup path with
  | some archive => some (s, localImportPathCache, .ok archive)
  | none =>
    match buildImportPathWithSrcDirVia w build path dir s with
    | none => none
    | some (s1, .ok (_, archive)) => some (s1, (path, archive) :: localImportPathCache, .ok archive)
    | some (s1, .error e) => some (s1, localImportPathCache, .error (.pathErr e path))
    | some (s1, .panic m) => some (s1, localImportPathCache, .panic m)

/-- Running an external operation against an importer. A panic of the importer
unwinds through the operation. -/
def runGen {ρ : Type}
    (imp : String → Session → LocalCache → Option (Session × LocalCache × Outcome Archive)) :
    Gen ρ → Session → LocalCache → Option (Session × Outcome ρ)
  | .ret (.ok r), s, _ => some (s, .ok r)
  | .ret (.error e), s, _ => some (s, .error e)
  | .ask path k, s, c =>
    match imp path s c with
    | none => none
    | some (s1, c1, .ok archive) => runGen imp (k (.ok archive)) s1 c1
    | some (s1, c1, .error e) => runGen imp (k (.error e)) s1 c1
    | some (s1, _, .panic m) => some (s1, .panic m)

/-- The loop `for _, jsFile := range pkg.JSFiles` of `BuildPackage`. -/
def appendJSFiles (w : World) (dir : String) : List String → Archive → Outcome Archive
  | [], archive => .ok archive
  | jsFile :: rest, archive =>
    match w.readJS dir jsFile with
    | .error e => .error e
    | .panic m => .panic m
    | .ok code =>
      appendJSFiles w dir rest
        { archive with
          IncJSCode := archive.IncJSCode ++ "\t(function() \x7b\n" ++ code ++ "\n\t\x7d).call($global);\n" }

/-- The order `sort.Slice` puts the parsed files in: descending file names. -/
def sortFiles (files : List AstFile) : List AstFile :=
  files.insertionSort (fun a b => b.Name ≤ a.Name)

/-- The effective import path of `BuildPackage`: the cache key. -/
def effectivePath (w : World) (pkg : PackageData) : String :=
  if w.options.Unvendor then UnvendorPath pkg.ImportPath else pkg.ImportPath

/-- The end of `BuildPackage`, from `s.Archives[importPath] = archive` on. -/
def installCompiled (w : World) (pkg : PackageData) (importPath : String) (archive : Archive)
    (s : Session) : Session × Outcome Archive :=
  match (s.install importPath archive false).fire w archive with
  | (s1, some e) => (s1, .error e)
  | (s1, none) =>
    if pkg.PkgObj = "" then (s1, .ok archive)
    else
      match w.writeLibraryPackage s1 archive pkg.PkgObj with
      | some e => (s1, .error e)
      | none => (s1, .ok archive)

/-- The method `BuildPackage`. The progress line that it writes to the log when `Verbose`
is set is left out. -/
def BuildPackage (w : World) : Nat → PackageData → Session → Option (Session × Outcome Archive)
  | 0, _, _ => none
  | fuel + 1, pkg, s =>
    let importPath := effectivePath w pkg
    match s.Archives importPath with
    | some archive => some (s, .ok archive)
    | none =>
      match (if !w.options.Source importPath then ImportStandardArchive w fuel importPath s
             else some (s, .ok none)) with
      | none => none
      | some (s1, .error e) => some (s1, .error e)
      | some (s1, .panic m) => some (s1, .panic m)
      | some (s1, .ok (some archive)) => some (s1, .ok archive)
      | some (s1, .ok none) =>
        match w.parseAndAugment pkg with
        | .error e => some (s1, .error e)
        | .panic m => some (s1, .panic m)
        | .ok files =>
          if w.cancelled s1 then some (s1, .error .cancelled)
          else
            let s2 : Session := { s1 with trace := s1.trace ++ [Event.compile importPath] }
            match runGen (importClosure w (BuildPackage w fuel) pkg.Dir)
                (w.Compile importPath (sortFiles files) w.options.Minify) s2 [] with
            | none => none
            | some (s3, .error e) => some (s3, .error e)
            | some (s3, .panic m) => some (s3, .panic m)
            | some (s3, .ok archive) =>
              match appendJSFiles w pkg.Dir pkg.JSFiles archive with
              | .error e => some (s3, .error e)
              | .panic m => some (s3, .panic m)
              | .ok archive => some (installCompiled w pkg importPath archive s3)

/-- The method `buildImportPathWithSrcDir`. -/
def buildImportPathWithSrcDir (w : World) (fuel : Nat) (path srcDir : String) (s : Session) :
    Option (Session × Outcome (PackageData × Archive)) :=
  buildImportPathWithSrcDirVia w (BuildPackage w fuel) path srcDir s

/-- The method `BuildImportPath`. -/
def BuildImportPath (w : World) (fuel : Nat) (path : String) (s : Session) :
    Option (Session × Outcome (PackageData × Archive)) :=
  buildImportPathWithSrcDir w fuel path "" s

/-! ## Rendering a program -/

/-- The value of a hexadecimal digit, as `encoding/hex` reads it. -/
def hexDigit (c : Char) : Option Nat :=
  if '0' ≤ c ∧ c ≤ '9' then some (c.toNat - '0'.toNat)
  else if 'a' ≤ c ∧ c ≤ 'f' then some (c.toNat - 'a'.toNat + 10)
  else if 'A' ≤ c ∧ c ≤ 'F' then some (c.toNat - 'A'.toNat + 10)
  else none

/-- The function `hex.DecodeString` on a byte list; `none` is its error. -/
def hexDecodeL : List Char → Option (List Char)
  | [] => some []
  | [_] => none
  | p :: q :: rest =>
    match hexDigit p, hexDigit q, hexDecodeL rest with
    | some a, some b, some bytes => some (Char.ofNat (a * 16 + b) :: bytes)
    | _, _, _ => none

/-- The function `Bytes`: the bytes of a hex string, nil (`none`) for the empty string, a
panic for invalid hex. -/
def Bytes (hex : String) : Outcome (Option String) :=
  if hex = "" then .ok none
  else
    match hexDecodeL hex.data with
    | some b => .ok (some ⟨b⟩)
    | none => .panic ("invalid hex: " ++ hex)

/-- The type `PackageOutput`; a nil byte slice is `none`. -/
structure PackageOutput where
  Path : String
  Hash : Option String
  Contents : Option String
  Standard : Bool
  Store : Bool
  deriving DecidableEq, Repr

/-- The type `CommandOutput`. -/
structure CommandOutput where
  Path : String
  Packages : List PackageOutput
  deriving DecidableEq, Repr

/-- The collaborators of `GetPackageCode`. -/
structure Renderer where
  /-- What `compiler.WritePkgCode(archive, dceSelection, minify, writer)` writes, or its
  error. -/
  WritePkgCode : Archive → List String → Bool → Except BuildError String
  /-- The digest `sha1`. -/
  sha1 : String → String
  /-- Whether `WithCancel` sees the cancellation signal while the archive is written. -/
  cancelled : Archive → Bool

/-- The method `bytes.Buffer.Truncate`: the first `n` bytes, a panic when `n` is negative
or more than the length. -/
def Truncate (buf : String) (n : Int) : Option String :=
  if n < 0 ∨ (buf.length : Int) < n then none else some ⟨buf.data.take n.toNat⟩

/-- The function `GetPackageCode`: the contents and the hash. -/
def GetPackageCode (r : Renderer) (archive : Archive) (minify initializer : Bool) :
    Outcome (String × String) :=
  let dceSelection := archive.Declarations
  let buf :=
    if initializer then
      if minify then "$load[\"" ++ archive.ImportPath ++ "\"]=function()\x7b"
      else "$load[\"" ++ archive.ImportPath ++ "\"] = function () \x7b" ++ "\n"
    else ""
  if r.cancelled archive then .error .cancelled
  else
    match r.WritePkgCode archive dceSelection minify with
    | .error e => .error e
    | .ok written =>
      let buf := buf ++ written
      match (if minify then Truncate buf ((buf.length : Int) - 1) else some buf) with
      | none => .panic "bytes.Buffer: truncation out of range"
      | some buf =>
        let buf := if initializer then buf ++ "\x7d;" else buf
        .ok (buf, r.sha1 buf)

/-- The loop `for _, pkg := range pkgs` of `GetProgramCode`. -/
def programLoop (r : Renderer) (minify initializer : Bool)
    (standard : String → Option (Bool → Option String)) (source : String → Bool) :
    List Archive → List PackageOutput → Outcome (List PackageOutput)
  | [], packageOutputs => .ok packageOutputs
  | pkg :: rest, packageOutputs =>
    let ph := standard pkg.ImportPath
    let std := ph.isSome
    if std && !source pkg.ImportPath then
      match Bytes (((ph.getD (fun _ => none)) minify).getD "") with
      | .error e => .error e
      | .panic m => .panic m
      | .ok hash =>
        programLoop r minify initializer standard source rest
          (packageOutputs ++
            [{ Path := pkg.ImportPath, Hash := hash, Contents := none, Standard := true,
               Store := false }])
    else
      match GetPackageCode r pkg minify initializer with
      | .error e => .error e
      | .panic m => .panic m
      | .ok (contents, hash) =>
        programLoop r minify initializer standard source rest
          (packageOutputs ++
            [{ Path := pkg.ImportPath, Hash := some hash, Contents := some contents,
               Standard := std, Store := true }])

/-- The function `GetProgramCode`: the command path and the package outputs. -/
def GetProgramCode (r : Renderer) (pkgs : List Archive) (initializer : Bool)
    (standard : String → Option (Bool → Option String)) (source : String → Bool) :
    Outcome (String × List PackageOutput) :=
  match pkgs.getLast? with
  | none => .panic "index out of range [-1]"
  | some mainPkg =>
    let minify := mainPkg.Minified
    match programLoop r minify initializer standard source pkgs [] with
    | .error e => .error e
    | .panic m => .panic m
    | .ok packageOutputs => .ok (mainPkg.ImportPath, packageOutputs)

/-- The importer closure of `GetDependencies`. -/
def dependencyImporter (w : World) (fuel : Nat) (path : String) (s : Session)
    (c : LocalCache) : Option (Session × LocalCache × Outcome Archive) :=
  match s.Archives path with
  | some archive => some (s, c, .ok archive)
  | none =>
    match buildImportPathWithSrcDir w fuel path "" s with
    | none => none
    | some (s1, .ok (_, archive)) => some (s1, c, .ok archive)
    | some (s1, .error e) => some (s1, c, .error e)
    | some (s1, .panic m) => some (s1, c, .panic m)

/-- The method `GetDependencies`. -/
def GetDependencies (w : World) (fuel : Nat) (archive : Archive) (s : Session) :
    Option (Session × Outcome (List Archive)) :=
  if w.cancelled s then some (s, .error .cancelled)
  else runGen (dependencyImporter w fuel) (w.ImportDependencies archive) s []

/-- The method `WriteCommandPackage`. -/
def WriteCommandPackage (w : World) (r : Renderer) (fuel : Nat) (archive : Archive)
    (s : Session) : Option (Session × Outcome CommandOutput) :=
  match GetDependencies w fuel archive s with
  | none => none
  | some (s1, .error e) => some (s1, .error e)
  | some (s1, .panic m) => some (s1, .panic m)
  | some (s1, .ok deps) =>
    match GetProgramCode r deps w.options.Initializer w.options.Standard w.options.Source with
    | .error e => some (s1, .error e)
    | .panic m => some (s1, .panic m)
    | .ok (commandPath, packages) =>
      some (s1, .ok { Path := commandPath, Packages := packages })

/-! ## Reachable sessions and their steps -/

/-- The cache write `s.Archives[key] = archive` followed by the callback. -/
def Session.installFire (w : World) (s : Session) (key : String) (archive : Archive)
    (std : Bool) : Session :=
  ((s.install key archive std).fire w archive).1

/-- The archive `d` was written to the cache at some point of the trace `t`. -/
def InstalledArchive (d : Archive) (t : List Event) : Prop :=
  ∃ key std, Event.install key d std ∈ t

/-- The external operation `g` returns `r` when every archive the importer answers with
is in `got` (the importer may also answer with errors). -/
inductive GenReturns {ρ : Type} : Gen ρ → List Archive → ρ → Prop where
  | ret (r : ρ) (got : List Archive) : GenReturns (.ret (.ok r)) got r
  | askOk (path : String) (k : Except BuildError Archive → Gen ρ) (d : Archive)
      (got : List Archive) (r : ρ) :
      d ∈ got → GenReturns (k (.ok d)) got r → GenReturns (.ask path k) got r
  | askError (path : String) (k : Except BuildError Archive → Gen ρ) (e : BuildError)
      (got : List Archive) (r : ρ) :
      GenReturns (k (.error e)) got r → GenReturns (.ask path k) got r

/-- One change of the session by the driver. -/
inductive Step (w : World) : Session → Session → Prop where
  /-- The method `ImportStandardArchive` installs a precompiled archive. -/
  | std (s : Session) (key : String) (archive : Archive) :
      Step w s (s.installFire w key archive true)
  /-- The method `BuildPackage` starts the code generator on a path that is not cached. -/
  | compile (s : Session) (key : String) :
      s.Archives key = none → Step w s { s with trace := s.trace ++ [Event.compile key] }
  /-- The method `BuildPackage` installs what the code generator returned, after the
  importer answered it with archives that had all been installed. -/
  | src (s : Session) (key : String) (archive : Archive) (got : List Archive)
      (files : List AstFile) (a0 : Archive) :
      (∀ d ∈ got, InstalledArchive d s.trace) →
      GenReturns (w.Compile key files w.options.Minify) got a0 →
      archive.Imports = a0.Imports →
      Step w s (s.installFire w key archive false)

/-- Any number of steps. -/
def Steps (w : World) : Session → Session → Prop := Relation.ReflTransGen (Step w)

/-- Every cached archive was written to the cache by an event of the trace. -/
def Recorded (s : Session) : Prop :=
  ∀ key archive, s.Archives key = some archive → ∃ std, Event.install key archive std ∈ s.trace

/-- The sessions that the driver reaches from `NewSession`. -/
inductive Reachable (w : World) : Session → Prop where
  | init : Reachable w NewSession
  | build (fuel : Nat) (pkg : PackageData) (s s1 : Session) (r : Outcome Archive) :
      Reachable w s → BuildPackage w fuel pkg s = some (s1, r) → Reachable w s1
  | standard (fuel : Nat) (path : String) (s s1 : Session) (r : Outcome (Option Archive)) :
      Reachable w s → ImportStandardArchive w fuel path s = some (s1, r) → Reachable w s1
  | importPath (fuel : Nat) (path : String) (s s1 : Session)
      (r : Outcome (PackageData × Archive)) :
      Reachable w s → BuildImportPath w fuel path s = some (s1, r) → Reachable w s1

/-- Every archive of the local cache of a `BuildPackage` call was installed. -/
def CacheInstalled (c : LocalCache) (s : Session) : Prop :=
  ∀ p d, (p, d) ∈ c → InstalledArchive d s.trace

/-- The archives a trace installed, in order. -/
def installsOf : List Event → List Archive
  | [] => []
  | Event.install _ a _ :: t => a :: installsOf t
  | _ :: t => installsOf t

/-- The archives a trace called the callback on, in order. -/
def callbacksOf : List Event → List Archive
  | [] => []
  | Event.callback a :: t => a :: callbacksOf t
  | _ :: t => callbacksOf t

/-! ## Concrete worlds -/

/-- An archive with the given import path and imports, and nothing else. -/
def archiveOf (path : String) (imports : List String) : Archive :=
  { ImportPath := path, Name := path, Imports := imports, ExportData := "", Declarations := [],
    IncJSCode := "", Minified := false }

/-- A package record with the given import path and declared imports. -/
def packageOf (path : String) (imports : List String) : PackageData :=
  { ImportPath := path, Dir := "gopath/src/" ++ path, Name := path, PkgObj := "", GoFiles := [],
    CgoFiles := [], TestGoFiles := [], Imports := imports, JSFiles := [], IsTest := false }

/-- A world without precompiled assets and without callback, in which the resolver finds
every path and the code generator compiles every package without asking for imports. -/
def quietWorld : World :=
  { options := { Unvendor := false, Initializer := false, Verbose := false, Minify := false,
                 BuildTags := [], Standard := fun _ => none, Source := fun _ => false }
    hostArch := "amd64"
    assetsArchives := none
    BImportData := fun _ _ _ => none
    Callback := none
    bctxImport := fun _ path _ => .ok (packageOf path []).toPackage
    ReadDir := fun _ => .ok []
    parseAndAugment := fun _ => .ok []
    Compile := fun path _ _ => .ret (.ok (archiveOf path []))
    readJS := fun _ _ => .ok ""
    writeLibraryPackage := fun _ _ _ => none
    cancelled := fun _ => false
    ImportDependencies := fun a => .ret (.ok [a]) }

/-- The quiet world with a callback that fails on every archive. -/
def failingCallbackWorld : World :=
  { quietWorld with Callback := some (fun _ _ => some (.message "callback failed")) }

/-- The quiet world with the `Unvendor` option set. -/
def unvendorWorld : World :=
  { quietWorld with options := { quietWorld.options with Unvendor := true } }

/-- The session after `BuildPackage` compiled the package `a` in the quiet world. -/
def builtA : Session :=
  { Archives := fun k => if k = "a" then some (archiveOf "a" []) else none
    trace := [Event.compile "a", Event.install "a" (archiveOf "a" []) false] }

/-- The session after `BuildPackage` compiled `github.com/a/b/vendor/x/y` with `Unvendor`. -/
def builtXY : Session :=
  { Archives := fun k => if k = "x/y" then some (archiveOf "x/y" []) else none
    trace := [Event.compile "x/y", Event.install "x/y" (archiveOf "x/y" []) false] }

/-- A precompiled archive of the assets. -/
def precompiled (path : String) (imports : List String) : Archive :=
  { archiveOf path imports with ExportData := "precompiled" }

/-- The quiet world with two precompiled archives: `a`, which imports `b`, and `b`. -/
def assetsWorld : World :=
  { quietWorld with
    assetsArchives := some (fun p =>
      if p = "a" then some (fun _ => some (precompiled "a" ["b"]))
      else if p = "b" then some (fun _ => some (precompiled "b" []))
      else none) }

/-- The world of the two precompiled archives, with `b` in the source set. -/
def sourceWorld : World :=
  { assetsWorld with options := { assetsWorld.options with Source := fun p => p = "b" } }

/-- The quiet world with a callback that succeeds. -/
def callbackWorld : World :=
  { quietWorld with Callback := some (fun _ _ => none) }

/-- The session after `BuildPackage` compiled the package `a` in the callback world. -/
def builtCallback : Session :=
  { Archives := fun k => if k = "a" then some (archiveOf "a" []) else none
    trace := [Event.compile "a", Event.install "a" (archiveOf "a" []) false,
              Event.callback (archiveOf "a" [])] }

/-- A code generator that asks the importer for every declared import, in order, gives up
with the error of the first import that fails, and otherwise returns an archive that
imports the archives it was answered with. -/
def askImports (path : String) : List String → List String → Gen Archive
  | [], got => .ret (.ok (archiveOf path got.reverse))
  | q :: rest, got =>
    .ask q (fun r =>
      match r with
      | .ok d => askImports path rest (d.ImportPath :: got)
      | .error e => .ret (.error e))

/-- The declared imports of the packages of the graph world: `main` imports `lib`. -/
def graphImports (path : String) : List String :=
  if path = "main" then ["lib"] else []

/-- A world without assets in which `main` imports `lib`. -/
def graphWorld : World :=
  { quietWorld with
    bctxImport := fun _ path _ => .ok (packageOf path (graphImports path)).toPackage
    Compile := fun path _ _ => askImports path (graphImports path) [] }

/-- The session after `BuildPackage` built `main` in the graph world. -/
def builtGraph : Session :=
  { Archives := fun k =>
      if k = "main" then some (archiveOf "main" ["lib"])
      else if k = "lib" then some (archiveOf "lib" []) else none
    trace := [Event.compile "main", Event.compile "lib",
              Event.install "lib" (archiveOf "lib" []) false,
              Event.install "main" (archiveOf "main" ["lib"]) false] }

/-- The declared imports of two packages that import each other. -/
def cycleImports (path : String) : List String :=
  if path = "a" then ["b"] else if path = "b" then ["a"] else []

/-- A world without assets in which `a` imports `b` and `b` imports `a`. -/
def cycleWorld : World :=
  { quietWorld with
    bctxImport := fun _ path _ => .ok (packageOf path (cycleImports path)).toPackage
    Compile := fun path _ _ => askImports path (cycleImports path) [] }

/-- The quiet world with a code generator that fails on every package. -/
def brokenWorld : World :=
  { quietWorld with Compile := fun _ _ _ => .ret (.error (.message "type error")) }

/-- The contract of the code generator that the ordering of the cache relies on: every path
in the imports of the archive it returns is the path of an archive that the importer
answered with. -/
def CompileContract (w : World) : Prop :=
  ∀ importPath files minify got a, GenReturns (w.Compile importPath files minify) got a →
    ∀ p ∈ a.Imports, ∃ d ∈ got, d.ImportPath = p

/-- Every event `e` of the trace satisfies `C e before`, for the events `before` it. -/
def EachEvent (C : Event → List Event → Prop) (t : List Event) : Prop :=
  ∀ t1 e t2, t = t1 ++ e :: t2 → C e t1

/-- For the cache write of a compiled archive: an archive was installed before for each
of its import paths. -/
def ImportsInstalledBefore (e : Event) (before : List Event) : Prop :=
  match e with
  | Event.install _ a false =>
    ∀ p ∈ a.Imports, ∃ k d std, Event.install k d std ∈ before ∧ d.ImportPath = p
  | _ => True

/-- For the start of the code generator on a path: nothing was installed under the path
before. -/
def NotInstalledBefore (e : Event) (before : List Event) : Prop :=
  match e with
  | Event.compile key => ∀ a std, Event.install key a std ∉ before
  | _ => True

/-- Every path under which the trace installed an archive is in the cache. -/
def Present (s : Session) : Prop :=
  ∀ key a std, Event.install key a std ∈ s.trace → (s.Archives key).isSome

/-- What `GetProgramCode` emits for the archive `pkg`: the entry of the standard index
when the path has one and is not in the source set, the rendered archive otherwise. -/
def Emitted (r : Renderer) (minify initializer : Bool)
    (standard : String → Option (Bool → Option String)) (source : String → Bool)
    (pkg : Archive) (out : PackageOutput) : Prop :=
  (∃ ph hash, standard pkg.ImportPath = some ph ∧ source pkg.ImportPath = false
      ∧ Bytes ((ph minify).getD "") = .ok hash
      ∧ out = { Path := pkg.ImportPath, Hash := hash, Contents := none, Standard := true,
                Store := false })
  ∨ ((standard pkg.ImportPath = none ∨ source pkg.ImportPath = true)
      ∧ ∃ contents hash, GetPackageCode r pkg minify initializer = .ok (contents, hash)
      ∧ out = { Path := pkg.ImportPath, Hash := some hash, Contents := some contents,
                Standard := (standard pkg.ImportPath).isSome, Store := true })

/-- A renderer for the examples: the package writer writes one line, and the digest is a
stand-in. -/
def lineRenderer : Renderer :=
  { WritePkgCode := fun a _ _ => .ok ("code of " ++ a.ImportPath ++ "\n")
    sha1 := fun b => "sha1:" ++ b
    cancelled := fun _ => false }

/-- A standard index with one entry, for `fmt`. -/
def fmtIndex : String → Option (Bool → Option String) :=
  fun p => if p = "fmt" then some (fun m => some (if m then "0a" else "ff")) else none

/-- The archives of a program: `fmt`, then `main`. -/
def fmtProgram : List Archive := [archiveOf "fmt" [], archiveOf "main" ["fmt"]]

/-- What `GetProgramCode` returns for the program `fmtProgram` with the index `fmtIndex`,
an empty source set and no initializer. -/
def fmtOutputs : List PackageOutput :=
  [{ Path := "fmt", Hash := some ⟨[Char.ofNat 255]⟩, Contents := none, Standard := true,
     Store := false },
   { Path := "main", Hash := some "sha1:code of main\n", Contents := some "code of main\n",
     Standard := false, Store := true }]

/-- What `GetProgramCode` returns for the program `fmtProgram` with the index `fmtIndex`,
`fmt` in the source set and no initializer. -/
def fmtSourceOutputs : List PackageOutput :=
  [{ Path := "fmt", Hash := some "sha1:code of fmt\n", Contents := some "code of fmt\n",
     Standard := true, Store := true },
   { Path := "main", Hash := some "sha1:code of main\n", Contents := some "code of main\n",
     Standard := false, Store := true }]

/-- The contents that the specification gives for a package with import path `P` whose
package writer writes `body` and a newline: the preamble when `initializer` is set (the
compact one when `minify` is set), the body, with its newline unless `minify` is set, and
the closing when `initializer` is set. -/
def renderedCode (P body : String) (minify initializer : Bool) : String :=
  (if initializer then
      (if minify then "$load[\"" ++ P ++ "\"]=function()\x7b"
       else "$load[\"" ++ P ++ "\"] = function () \x7b\n")
    else "")
  ++ (if minify then body else body ++ "\n")
  ++ (if initializer then "\x7d;" else "")

/-! ## Definitions for the claims on hashes and vendor elements -/

/-- The bytes that `GetPackageCode` leaves in its buffer when the package writer wrote
`written`: the preamble, what was written, cut by one byte when `minify` is set, and the
closing; `none` when `Truncate` panics. -/
def assembleCode (P written : String) (minify initializer : Bool) : Option String :=
  let buf :=
    (if initializer then
      if minify then "$load[\"" ++ P ++ "\"]=function()\x7b"
      else "$load[\"" ++ P ++ "\"] = function () \x7b" ++ "\n"
    else "") ++ written
  match (if minify then Truncate buf ((buf.length : Int) - 1) else some buf) with
  | none => none
  | some buf => some (if initializer then buf ++ "\x7d;" else buf)

/-- A non-terminating `vendor` path element starts at index `i` of the path `p`:
`p[i:i+7]` is `vendor/`, and `i` is 0 or `p[i-1]` is a slash. -/
def VendorAt (p : List Char) (i : Nat) : Prop :=
  vendorSlash.isPrefixOf (p.drop i) = true ∧ (i = 0 ∨ p[i - 1]? = some '/')

/-! ## Paths and the file system router -/

/-- The function `strings.Split(s, "/")` on byte lists. -/
def splitSlash : List Char → List (List Char)
  | [] => [[]]
  | c :: cs =>
    if c = '/' then [] :: splitSlash cs
    else
      match splitSlash cs with
      | [] => [[c]]
      | x :: xs => (c :: x) :: xs

/-- The function `strings.Join(elems, "/")` on byte lists. -/
def joinSlash : List (List Char) → List Char
  | [] => []
  | [x] => x
  | x :: y :: rest => x ++ '/' :: joinSlash (y :: rest)

/-- The elements that `filepath.Clean` keeps: empty elements and `.` are dropped, `..`
removes the element before it, is dropped at the root and is kept at the start of a path
that is not rooted. The elements kept so far are in `out`, the last one first. -/
def cleanElems (rooted : Bool) : List (List Char) → List (List Char) → List (List Char)
  | [], out => out.reverse
  | e :: rest, out =>
    if e = [] ∨ e = ['.'] then cleanElems rooted rest out
    else if e = ['.', '.'] then
      match out with
      | top :: below =>
        if top = ['.', '.'] then cleanElems rooted rest (e :: out)
        else cleanElems rooted rest below
      | [] => if rooted then cleanElems rooted rest [] else cleanElems rooted rest [e]
    else cleanElems rooted rest (e :: out)

/-- The function `filepath.Clean` for the separator `/`, on byte lists. -/
def cleanL (path : List Char) : List Char :=
  if path = [] then ['.']
  else
    let rooted := path.head? = some '/'
    let body := joinSlash (cleanElems rooted (splitSlash path) [])
    if rooted then '/' :: body
    else if body = [] then ['.'] else body

/-- The function `strings.TrimPrefix(p, "/")` on byte lists. -/
def trimSlash : List Char → List Char
  | '/' :: rest => rest
  | p => p

/-- The element `parts[0]` of `Session.Filesystem`: the first element of the cleaned path
without its leading separator. -/
def topDir (fpath : String) : Option (List Char) :=
  (splitSlash (trimSlash (cleanL fpath.data))).head?

/-- The method `Session.Filesystem`, for the file systems `root` and `path` of the
options and the separator `/`. -/
def Filesystem {FS : Type} (root path : FS) (fpath : String) : Outcome FS :=
  let p := cleanL fpath.data
  let p := trimSlash p
  let parts := splitSlash p
  match parts with
  | [] => .panic "index out of range [0]"
  | dir :: _ =>
    if dir = "gopath".data then .ok path
    else if dir = "goroot".data then .ok root
    else .panic ("Top dir should be goroot or gopath, got " ++ fpath)

/-- The two backing stores of the examples. -/
inductive Store where
  | rootFS
  | pathFS
  deriving DecidableEq, Repr

/-- A path that `filepath.Clean` leaves as it is and that has no leading separator: none
of its elements is empty, `.` or `..`. -/
def CleanRelative (p : List Char) : Prop :=
  ∀ e ∈ splitSlash p, e ≠ [] ∧ e ≠ ['.'] ∧ e ≠ ['.', '.']

/-- A world whose resolver finds, for every path, a vendored copy of the package
`github.com/gopherjs/gopherjs/js` that has a cgo file. -/
def vendoredJsWorld : World :=
  { quietWorld with
    bctxImport := fun _ _ _ =>
      .ok { (packageOf "a/vendor/github.com/gopherjs/gopherjs/js" []).toPackage with
            CgoFiles := ["c.go"] } }

/-- A world whose resolver finds a cgo file in every package. -/
def cgoWorld : World :=
  { quietWorld with
    bctxImport := fun _ path _ =>
      .ok { (packageOf path []).toPackage with CgoFiles := ["c.go"] } }

/-! ## Building a directory -/

/-- The method `BuildDir`; the result `ok none` is its `nil, nil`. The call
`ImportDir(packagePath, 0)` of `go/build` is `Import(".", packagePath, 0)`. -/
def BuildDir (w : World) (r : Renderer) (fuel : Nat) (packagePath _importPath _pkgObj : String)
    (s : Session) : Option (Session × Outcome (Option CommandOutput)) :=
  if w.cancelled s then some (s, .error .cancelled)
  else
    match w.bctxImport (NewBuildContext (InstallSuffix w) w.options.BuildTags) "." packagePath
    with
    | .error e => some (s, .error e)
    | .panic m => some (s, .panic m)
    | .ok buildPkg =>
      match jsFilesFromDir w buildPkg.Dir with
      | .error e => some (s, .error e)
      | .panic m => some (s, .panic m)
      | .ok jsFiles =>
        let pkg : PackageData := { toPackage := buildPkg, JSFiles := jsFiles, IsTest := false }
        match BuildPackage w fuel pkg s with
        | none => none
        | some (s1, .error e) => some (s1, .error e)
        | some (s1, .panic m) => some (s1, .panic m)
        | some (s1, .ok archive) =>
          if !pkg.IsCommand then some (s1, .ok none)
          else
            match WriteCommandPackage w r fuel archive s1 with
            | none => none
            | some (s2, .error e) => some (s2, .error e)
            | some (s2, .panic m) => some (s2, .panic m)
            | some (s2, .ok cp) => some (s2, .ok (some cp))

/-- The quiet world with a resolver that finds the package `lib` in every directory. -/
def libraryWorld : World :=
  { quietWorld with
    bctxImport := fun _ _ dir => .ok { (packageOf "lib" []).toPackage with Dir := dir } }

/-- The session after `BuildDir` built the package `lib` in the library world. -/
def builtLib : Session :=
  { Archives := fun k => if k = "lib" then some (archiveOf "lib" []) else none
    trace := [Event.compile "lib", Event.install "lib" (archiveOf "lib" []) false] }

/-! ## The loader of a program -/

/-- The digit of `"0123456789abcdef"` at index `n`, as the verb `%x` writes it. -/
def hexDigitChar (n : Nat) : Char :=
  if n < 10 then Char.ofNat (48 + n) else Char.ofNat (87 + n)

/-- The verb `%x` of `fmt` on a byte list: two lower-case digits per byte. -/
def hexEncodeL : List Char → List Char
  | [] => []
  | b :: rest =>
    hexDigitChar (b.toNat / 16 % 16) :: hexDigitChar (b.toNat % 16) :: hexEncodeL rest

/-- The call `fmt.Sprintf("%x", b)` on a byte slice; a nil slice prints as nothing. -/
def hexEncode (b : Option String) : String :=
  match b with
  | none => ""
  | some bytes => ⟨hexEncodeL bytes.data⟩

/-- The type `PkgJson`. -/
structure PkgJson where
  Path : String
  Hash : String
  deriving DecidableEq, Repr

/-- The type `MainVars`. -/
structure MainVars where
  Path : String
  Json : String
  PkgHost : String
  deriving DecidableEq, Repr

/-- A file handed to `storer.AddJs`. -/
structure StoredJs where
  Message : String
  Name : String
  Contents : String
  deriving DecidableEq, Repr

/-- The collaborators of `genMain`. -/
structure Loader where
  /-- The table `std.Prelude` of the prelude hashes, by minification mode. -/
  Prelude : Bool → String
  /-- The setting `config.PkgHost`. -/
  PkgHost : String
  /-- The function `json.Marshal` on the entries. -/
  Marshal : List PkgJson → Except BuildError String
  /-- What executing the loader template of the minification mode writes. -/
  Execute : Bool → MainVars → Except BuildError String
  /-- The SHA-1 sum of a byte string. -/
  sha1 : String → String

/-- The entries that `genMain` marshals: the slice literal with the prelude entry, then
the loop over `output.Packages` that appends one entry per package. -/
def loaderEntries (l : Loader) (output : CommandOutput) (min : Bool) : List PkgJson :=
  output.Packages.foldl
    (fun pkgs po => pkgs ++ [{ Path := po.Path, Hash := hexEncode po.Hash }])
    [{ Path := "prelude", Hash := l.Prelude min }]

/-- The function `genMain`: the hash of the loader and the file it stores. -/
def genMain (l : Loader) (output : CommandOutput) (min : Bool) :
    Except BuildError (String × StoredJs) :=
  match l.Marshal (loaderEntries l output min) with
  | .error e => .error e
  | .ok pkgJson =>
    let m : MainVars := { PkgHost := l.PkgHost, Path := output.Path, Json := pkgJson }
    match l.Execute min m with
    | .error e => .error e
    | .ok buf =>
      let hash := l.sha1 buf
      let message := if min then "Loader (minified)" else "Loader (un-minified)"
      .ok (hash, { Message := message
                   Name := output.Path ++ "." ++ hexEncode (some hash) ++ ".js"
                   Contents := buf })

/-! ## The callback of an update -/

/-- The type `messages.IndexItem`. -/
structure IndexItem where
  Hash : String
  Unchanged : Bool
  deriving DecidableEq, Repr

/-- The messages that `Update` sends from its callback: `messages.Archive`; a nil
`Contents` is `none`. -/
structure ArchiveMessage where
  Path : String
  Hash : String
  Contents : Option String
  Standard : Bool
  deriving DecidableEq, Repr

/-- What the callback of `Update` reads from its surroundings. -/
structure Updater where
  /-- The collaborators of `GetPackageCode`. -/
  renderer : Renderer
  /-- The argument `source`. -/
  source : String → Bool
  /-- The map `info.Cache` of the hashes the client holds. -/
  Cache : String → Option String
  /-- The setting `config.UseLocal`. -/
  UseLocal : Bool
  /-- The table `std.Index`. -/
  Index : String → Option (Bool → Option String)
  /-- The bytes that `compiler.WriteArchive` writes through the gzip writer, or its
  error. -/
  WriteArchive : Archive → Except BuildError String

/-- The variables `done` and `index` of `Update`, and the Archive messages sent so far. -/
structure UpdateState where
  done : String → Bool
  index : String → Option IndexItem
  sent : List ArchiveMessage

/-- The state in which `Update` sets the callback: empty maps, nothing sent. -/
def UpdateState.initial : UpdateState :=
  { done := fun _ => false, index := fun _ => none, sent := [] }

/-- The closure that `Update` assigns to `session.Callback`. -/
def updateCallback (u : Updater) (archive : Archive) (st : UpdateState) :
    UpdateState × Outcome Unit :=
  if st.done archive.ImportPath then (st, .ok ())
  else
    let st := { st with done := fun p => if p = archive.ImportPath then true else st.done p }
    if archive.ImportPath = "main" then (st, .ok ())
    else if u.source archive.ImportPath then (st, .ok ())
    else
      match GetPackageCode u.renderer archive false true with
      | .error e => (st, .error e)
      | .panic m => (st, .panic m)
      | .ok (_, hashBytes) =>
        let hash := hexEncode (some hashBytes)
        let unchanged :=
          match u.Cache archive.ImportPath with
          | some cached => cached == hash
          | none => false
        let st := { st with
          index := fun p =>
            if p = archive.ImportPath then some { Hash := hash, Unchanged := unchanged }
            else st.index p }
        if unchanged then (st, .ok ())
        else
          match (if !u.UseLocal then u.Index archive.ImportPath else none) with
          | some hashPair =>
            ({ st with sent := st.sent ++ [{ Path := archive.ImportPath
                                             Hash := (hashPair false).getD ""
                                             Contents := none
                                             Standard := true }] }, .ok ())
          | none =>
            match u.WriteArchive archive with
            | .error e => (st, .error e)
            | .ok buf =>
              ({ st with sent := st.sent ++ [{ Path := archive.ImportPath
                                               Hash := hash
                                               Contents := some buf
                                               Standard := false }] }, .ok ())

/-- A run of the callback over the archives that a session hands to it, in order; the
first error or panic ends the build, and so the run. -/
def visits (u : Updater) : List Archive → UpdateState → UpdateState × Outcome Unit
  | [], st => (st, .ok ())
  | archive :: rest, st =>
    match updateCallback u archive st with
    | (st1, .ok ()) => visits u rest st1
    | (st1, .error e) => (st1, .error e)
    | (st1, .panic m) => (st1, .panic m)

/-- The index holds no entry and no Archive message was sent for the path `p`. -/
def Unlisted (st : UpdateState) (p : String) : Prop :=
  st.index p = none ∧ ∀ m ∈ st.sent, m.Path ≠ p

/-- An updater over the line renderer, whose client holds the hash of `fmt`. -/
def fmtUpdater : Updater :=
  { renderer := lineRenderer
    source := fun p => p = "app"
    Cache := fun p =>
      if p = "fmt" then
        some (hexEncode (some (lineRenderer.sha1
          "$load[\"fmt\"] = function () \x7b\ncode of fmt\n\x7d;")))
      else none
    UseLocal := false
    Index := fmtIndex
    WriteArchive := fun a => .ok ("gzip of " ++ a.ImportPath) }

/-! ## Parsing and augmenting the files of a package -/

/-- The type `token.Position`, without the offset. -/
structure Position where
  Filename : String
  Line : Nat
  Column : Nat
  deriving DecidableEq, Repr

/-- The type `scanner.Error`. -/
structure ScanError where
  Pos : Position
  Msg : String
  deriving DecidableEq, Repr

/-- The error of `parser.ParseFile`: a `scanner.ErrorList`, which the parser returns only
when it holds at least one error, or another error. -/
inductive ParseFailure where
  | list (first : ScanError) (rest : List ScanError)
  | other (e : BuildError)
  deriving DecidableEq, Repr

/-- An entry of `compiler.ErrorList`. -/
inductive ErrEntry where
  | scan (e : ScanError)
  | other (e : BuildError)
  deriving DecidableEq, Repr

/-- What `parseAndAugment` returns: the files, the error list `errList`, the error of a
file that does not open, or a panic. -/
inductive Augmented where
  | files (files : List AstFile)
  | errList (list : List ErrEntry)
  | error (e : BuildError)
  | panic (msg : String)
  deriving DecidableEq, Repr

/-- The package that `nativesContext.Import` finds, as far as it is read. -/
structure NativesPackage where
  Dir : String
  GoFiles : List String
  TestGoFiles : List String
  XTestGoFiles : List String
  deriving DecidableEq, Repr

/-- The collaborators of `parseAndAugment`. -/
structure Sources where
  /-- The call `nativesContext.Import(importPath, "", 0)`; `none` when it returns an
  error. -/
  nativesImport : String → Option NativesPackage
  /-- The call `nativesContext.OpenFile(fullPath)`: the contents of the file. -/
  nativesOpen : String → Except BuildError String
  /-- The method `Open` of the file system `options.Root`: the contents of the file. -/
  Root : String → Except BuildError String
  /-- The method `Open` of the file system `options.Path`. -/
  Path : String → Except BuildError String
  /-- The call `parser.ParseFile(fileSet, filename, src, parser.ParseComments)`. -/
  ParseFile : String → String → Except ParseFailure AstFile
  /-- The function `strconv.Unquote`, its error dropped. -/
  Unquote : String → String

/-- The function `path.Join` (and `filepath.Join` with the separator `/`) on two
elements. -/
def pathJoin (a b : String) : String :=
  if a = "" ∧ b = "" then ""
  else if a = "" then ⟨cleanL b.data⟩
  else ⟨cleanL (a.data ++ '/' :: b.data)⟩

/-- The closure `funcName` of `parseAndAugment`; `none` is the panic of the type
assertion `recv.(*ast.Ident)`. -/
def funcName (recv : List RecvExpr) (name : String) : Option String :=
  match recv with
  | [] => some name
  | t :: _ =>
    let t := match t with
      | .star x => x
      | e => e
    match t with
    | .ident n => some (n ++ "." ++ name)
    | _ => none

/-- The names that one declaration of an overlay file adds to `replacedDeclNames`;
`none` is the panic of `funcName`. -/
def declaredNames : Decl → Option (List String)
  | .funcDecl recv name => (funcName recv name).map (fun n => [n])
  | .typeDecl names => some names
  | .valueDecl _ specs => some specs.flatten
  | .otherDecl => some []

/-- The loop `for _, decl := range file.Decls` over an overlay file; the map
`replacedDeclNames` is the list of its keys. -/
def collectNames : List Decl → List String → Option (List String)
  | [], replaced => some replaced
  | d :: rest, replaced =>
    match declaredNames d with
    | none => none
    | some names => collectNames rest (replaced ++ names)

/-- The loop `for _, name := range names` over the overlay files; an error is a panic. -/
def overlayLoop (src : Sources) (nativesDir pkgDir : String) :
    List String → List AstFile → List String → Except String (List AstFile × List String)
  | [], files, replaced => .ok (files, replaced)
  | name :: rest, files, replaced =>
    let fullPath := pathJoin nativesDir name
    match src.nativesOpen fullPath with
    | .error e => .error e.Error
    | .ok r =>
      let newPath := pathJoin pkgDir ("__" ++ name)
      match src.ParseFile newPath r with
      | .error (.list first _) => .error first.Msg
      | .error (.other e) => .error e.Error
      | .ok file =>
        match collectNames file.Decls replaced with
        | none => .error "interface conversion: ast.Expr is not *ast.Ident"
        | some replaced => overlayLoop src nativesDir pkgDir rest (files ++ [file]) replaced

/-- The names of the overlay files that `parseAndAugment` reads from the natives
package. -/
def overlayNames (nativesPkg : NativesPackage) (isTest isXTest : Bool) : List String :=
  let names := nativesPkg.GoFiles
  let names := if isTest then names ++ nativesPkg.TestGoFiles else names
  if isXTest then nativesPkg.XTestGoFiles else names

/-- The import path under which `parseAndAugment` looks for the overlay. -/
def overlayImportPath (pkg : Package) : String :=
  if HasSuffix pkg.ImportPath "_test" then
    ⟨pkg.ImportPath.data.take (pkg.ImportPath.length - 5)⟩
  else pkg.ImportPath

/-- The first half of `parseAndAugment`: the overlay files and the keys of
`replacedDeclNames` before `init` is deleted. -/
def overlayPhase (src : Sources) (pkg : Package) (isTest : Bool) :
    Except String (List AstFile × List String) :=
  let isXTest := HasSuffix pkg.ImportPath "_test"
  match src.nativesImport (overlayImportPath pkg) with
  | none => .ok ([], [])
  | some nativesPkg =>
    overlayLoop src nativesPkg.Dir pkg.Dir (overlayNames nativesPkg isTest isXTest) [] []

/-- The first statements of the loop over `pkg.GoFiles`: the path of the file, its file
system, `Open` and `parser.ParseFile`. -/
def openAndParse (src : Sources) (pkg : Package) (name : String) :
    Outcome (Except ParseFailure AstFile) :=
  let name := if !HasPrefix name "/" then pathJoin pkg.Dir name else name
  match Filesystem src.Root src.Path name with
  | .panic m => .panic m
  | .error e => .error e
  | .ok fs =>
    match fs name with
    | .error e => .error e
    | .ok r => .ok (src.ParseFile name r)

/-- The entries that a scanner error list adds to `errList`: the list, cut after ten
errors with a last entry at the position of the tenth. -/
def truncateErrors (first : ScanError) (rest : List ScanError) : List ScanError :=
  let list := first :: rest
  if list.length > 10 then
    list.take 10 ++ [{ Pos := (list.getD 9 first).Pos, Msg := "too many errors" }]
  else list

/-- The entries that a failing file adds to `errList`. -/
def failureEntries : ParseFailure → List ErrEntry
  | .list first rest => (truncateErrors first rest).map ErrEntry.scan
  | .other e => [ErrEntry.other e]

/-- The packages in which an import of `sync` is rewritten. -/
def nosyncPackages : List String :=
  ["crypto/rand", "encoding/gob", "encoding/json", "expvar", "go/token", "log", "math/big",
    "math/rand", "regexp", "testing", "time"]

/-- The rewriting of one import spec in those packages. -/
def rewriteSync (src : Sources) (spec : ImportSpec) : ImportSpec :=
  if src.Unquote spec.Path = "sync" then
    { Name := some (spec.Name.getD "sync")
      Path := "\"github.com/gopherjs/gopherjs/nosync\"" }
  else spec

/-- The `switch pkg.ImportPath` of the loop over `pkg.GoFiles`. -/
def rewriteImports (src : Sources) (pkg : Package) (file : AstFile) : AstFile :=
  if nosyncPackages.contains pkg.ImportPath then
    { file with Imports := file.Imports.map (rewriteSync src) }
  else file

/-- The new name of an identifier: `_` when `replacedDeclNames` holds its name. -/
def redactName (replaced : List String) (n : String) : String :=
  if replaced.contains n then "_" else n

/-- The `switch d := decl.(type)` of the loop over `pkg.GoFiles`; `none` is the panic of
`funcName`. -/
def redactDecl (replaced : List String) : Decl → Option Decl
  | .funcDecl recv name =>
    match funcName recv name with
    | none => none
    | some q => some (.funcDecl recv (if replaced.contains q then "_" else name))
  | .typeDecl names => some (.typeDecl (names.map (redactName replaced)))
  | .valueDecl isConst specs =>
    some (.valueDecl isConst (specs.map (fun names => names.map (redactName replaced))))
  | .otherDecl => some .otherDecl

/-- The loop `for _, decl := range file.Decls` over an original file. -/
def redactDecls (replaced : List String) : List Decl → Option (List Decl)
  | [] => some []
  | d :: rest =>
    match redactDecl replaced d with
    | none => none
    | some d1 =>
      match redactDecls replaced rest with
      | none => none
      | some rest1 => some (d1 :: rest1)

/-- The loop `for _, name := range pkg.GoFiles` with the two return statements after it. -/
def originalsLoop (src : Sources) (pkg : Package) (replaced : List String) :
    List String → List AstFile → List ErrEntry → Augmented
  | [], files, errList => if errList = [] then .files files else .errList errList
  | name :: rest, files, errList =>
    match openAndParse src pkg name with
    | .panic m => .panic m
    | .error e => .error e
    | .ok (.error failure) =>
      originalsLoop src pkg replaced rest files (errList ++ failureEntries failure)
    | .ok (.ok file) =>
      let file := rewriteImports src pkg file
      match redactDecls replaced file.Decls with
      | none => .panic "interface conversion: ast.Expr is not *ast.Ident"
      | some decls => originalsLoop src pkg replaced rest (files ++ [{ file with Decls := decls }])
          errList

/-- The method `Session.parseAndAugment`, over the collaborators `src`. -/
def parseAndAugment (src : Sources) (pkg : Package) (isTest : Bool) : Augmented :=
  match overlayPhase src pkg isTest with
  | .error m => .panic m
  | .ok (files, replacedDeclNames) =>
    let replacedDeclNames := replacedDeclNames.filter (fun n => n ≠ "init")
    originalsLoop src pkg replacedDeclNames pkg.GoFiles files []

/-! ### The redaction in the words of its description -/

/-- The declaration `d` declares the name `n` at top level; a function with a receiver
is named by receiver type, dot, name. -/
def declares (d : Decl) (n : String) : Bool :=
  match d with
  | .funcDecl recv name => funcName recv name = some n
  | .typeDecl names => names.contains n
  | .valueDecl _ specs => specs.any (fun names => names.contains n)
  | .otherDecl => false

/-- Some overlay file declares the name `n` at top level. -/
def overlayDeclares (overlay : List AstFile) (n : String) : Bool :=
  overlay.any (fun file => file.Decls.any (fun d => declares d n))

/-- The described redaction of a name. -/
def blankIfDeclared (overlay : List AstFile) (n : String) : String :=
  if overlayDeclares overlay n then "_" else n

/-- The described redaction of an original declaration: an identifier whose name an
overlay file declares becomes `_`, except for a plain function named `init`. -/
def describedRedaction (overlay : List AstFile) : Decl → Decl
  | .funcDecl recv name =>
    match funcName recv name with
    | none => .funcDecl recv name
    | some q =>
      if recv.isEmpty ∧ name = "init" then .funcDecl recv name
      else .funcDecl recv (if overlayDeclares overlay q then "_" else name)
  | .typeDecl names => .typeDecl (names.map (blankIfDeclared overlay))
  | .valueDecl isConst specs =>
    .valueDecl isConst (specs.map (fun names => names.map (blankIfDeclared overlay)))
  | .otherDecl => .otherDecl

/-- No type, variable or constant of the declaration is named `init` (Go allows that
name for functions only). -/
def noInitValue : Decl → Bool
  | .funcDecl _ _ => true
  | .typeDecl names => !names.contains "init"
  | .valueDecl _ specs => specs.all (fun names => !names.contains "init")
  | .otherDecl => true

/-- The declarations of the original file `name` as parsed, none when it does not
parse. -/
def originalDecls (src : Sources) (pkg : Package) (name : String) : List Decl :=
  match openAndParse src pkg name with
  | .ok (.ok file) => file.Decls
  | _ => []

/-- The overlay file `file` is the file `name` of the natives package, parsed under the
name `__name` in the directory of the package. -/
def OverlayFile (src : Sources) (nativesDir pkgDir : String) (name : String)
    (file : AstFile) : Prop :=
  ∃ r, src.nativesOpen (pathJoin nativesDir name) = .ok r
    ∧ src.ParseFile (pathJoin pkgDir ("__" ++ name)) r = .ok file

/-- The file `name` opens, and when it parses, every receiver of its functions is a type
name or a pointer to one. -/
def passes (src : Sources) (pkg : Package) (name : String) : Bool :=
  match openAndParse src pkg name with
  | .ok (.ok file) => file.Decls.all (fun d => (declaredNames d).isSome)
  | .ok (.error _) => true
  | _ => false

/-- The entries that the file `name` adds to the error list. -/
def contribution (src : Sources) (pkg : Package) (name : String) : List ErrEntry :=
  match openAndParse src pkg name with
  | .ok (.error failure) => failureEntries failure
  | _ => []

/-- The collaborators of an example: the package `time` has the overlay file `time.go`
and the original files `sleep.go`, which parses, and `bad.go` and `worse.go`, which do
not; no other file opens. -/
def timeSources : Sources :=
  { nativesImport := fun p =>
      if p = "time" then
        some { Dir := "/src/time", GoFiles := ["time.go"], TestGoFiles := [],
               XTestGoFiles := [] }
      else none
    nativesOpen := fun p =>
      if p = "/src/time/time.go" then .ok "overlay" else .error (.message ("open " ++ p))
    Root := fun p =>
      if p = "goroot/src/time/sleep.go" then .ok "sleep"
      else if p = "goroot/src/time/bad.go" then .ok "bad"
      else if p = "goroot/src/time/worse.go" then .ok "worse"
      else .error (.message ("open " ++ p))
    Path := fun p => .error (.message ("open " ++ p))
    ParseFile := fun name r =>
      if r = "overlay" then
        .ok { Name := name
              Decls := [.funcDecl [] "Sleep", .funcDecl [] "init", .typeDecl ["Timer"],
                        .funcDecl [.star (.ident "Timer")] "Stop"] }
      else if r = "sleep" then
        .ok { Name := name
              Imports := [{ Name := none, Path := "\"sync\"" }]
              Decls := [.funcDecl [] "Sleep", .funcDecl [] "init",
                        .typeDecl ["Timer", "Ticker"], .valueDecl false [["zero", "Timer"]],
                        .funcDecl [.star (.ident "Timer")] "Stop",
                        .funcDecl [.ident "Timer"] "Reset"] }
      else if r = "bad" then
        .error (.list { Pos := { Filename := name, Line := 1, Column := 1 }
                        Msg := "expected 'package'" } [])
      else
        .error (.list { Pos := { Filename := name, Line := 1, Column := 1 }, Msg := "e1" }
          ((List.range 11).map (fun i =>
            { Pos := { Filename := name, Line := i + 2, Column := 1 }, Msg := "e" })))
    Unquote := fun s => ⟨(s.data.drop 1).dropLast⟩ }

/-- The package `time` of the example with the given original files. -/
def timePackage (goFiles : List String) : Package :=
  { ImportPath := "time", Dir := "goroot/src/time", Name := "time", PkgObj := "",
    GoFiles := goFiles, CgoFiles := [], TestGoFiles := [], Imports := [] }

/-- The overlay file of the example. -/
def timeOverlay : AstFile :=
  { Name := "goroot/src/time/__time.go"
    Decls := [.funcDecl [] "Sleep", .funcDecl [] "init", .typeDecl ["Timer"],
              .funcDecl [.star (.ident "Timer")] "Stop"] }

/-- The original file `sleep.go` of the example after `parseAndAugment`. -/
def timeSleep : AstFile :=
  { Name := "goroot/src/time/sleep.go"
    Imports := [{ Name := some "sync", Path := "\"github.com/gopherjs/gopherjs/nosync\"" }]
    Decls := [.funcDecl [] "_", .funcDecl [] "init", .typeDecl ["_", "Ticker"],
              .valueDecl false [["zero", "_"]], .funcDecl [.star (.ident "Timer")] "_",
              .funcDecl [.ident "Timer"] "Reset"] }

/-! ## Definitions for the claim on the minified code -/

/-- A renderer whose package writer writes the bytes `out` for every archive. -/
def fixedRenderer (out : String) : Renderer :=
  { WritePkgCode := fun _ _ _ => .ok out
    sha1 := fun b => "sha1:" ++ b
    cancelled := fun _ => false }

/-- The preamble that `GetPackageCode` writes when `minify` is set: the compact opening
of the initializer for the import path `P`, nothing without `initializer`. -/
def minifiedPreamble (P : String) (initializer : Bool) : String :=
  if initializer then "$load[\"" ++ P ++ "\"]=function()\x7b" else ""

/-- The closing that `GetPackageCode` writes after the code: the end of the initializer,
nothing without `initializer`. -/
def closingOf (initializer : Bool) : String :=
  if initializer then "\x7d;" else ""

/-! ## Definitions for the claims on the callback and on cancellation -/

/-- The world of the two precompiled archives, with a callback that succeeds. -/
def stdCallbackWorld : World :=
  { assetsWorld with Callback := some (fun _ _ => none) }

/-- The session that a call of `ImportStandardArchive` leaves. -/
def afterStandard (w : World) (fuel : Nat) (path : String) (s : Session) : Session :=
  match ImportStandardArchive w fuel path s with
  | some (s1, _) => s1
  | none => s

/-- The world of the two precompiled archives under a context that is cancelled from the
start. -/
def cancelledAssetsWorld : World :=
  { assetsWorld with cancelled := fun _ => true }

/-- The quiet world under a context that is cancelled from the start. -/
def cancelledWorld : World :=
  { quietWorld with cancelled := fun _ => true }

/-- The graph world with a code generator that fails on `lib`. -/
def brokenLibWorld : World :=
  { graphWorld with
    Compile := fun path _ _ =>
      if path = "lib" then .ret (.error (.message "type error"))
      else askImports path (graphImports path) [] }

/-- The redaction of a name as `parseAndAugment` does it: `_` when an overlay file
declares the name and the name is not `init`. -/
def blankUnlessInit (overlay : List AstFile) (n : String) : String :=
  if overlayDeclares overlay n = true ∧ n ≠ "init" then "_" else n

/-- The redaction of an original declaration as `parseAndAugment` does it: an identifier
whose name an overlay file declares becomes `_`, unless the name is `init`. -/
def redactionExceptInit (overlay : List AstFile) : Decl → Decl
  | .funcDecl recv name =>
    match funcName recv name with
    | none => .funcDecl recv name
    | some q =>
      .funcDecl recv (if overlayDeclares overlay q = true ∧ q ≠ "init" then "_" else name)
  | .typeDecl names => .typeDecl (names.map (blankUnlessInit overlay))
  | .valueDecl isConst specs =>
    .valueDecl isConst (specs.map (fun names => names.map (blankUnlessInit overlay)))
  | .otherDecl => .otherDecl

/-- Whether `parseAndAugment` ended in a panic. -/
def panicked : Augmented → Bool
  | .panic _ => true
  | _ => false

/-- The collaborators of a second example: the package `time` has the overlay file
`time.go`, which declares the functions `init` and `Sleep`, and the overlay test file
`time_test.go`, which does not open; the original file `sleep.go` declares the variables
`init` and `Sleep`, `odd.go` declares a method whose receiver is no type name, `bad.go`
does not parse, and no other file opens. -/
def oddSources : Sources :=
  { nativesImport := fun p =>
      if p = "time" then
        some { Dir := "/src/time", GoFiles := ["time.go"], TestGoFiles := ["time_test.go"],
               XTestGoFiles := [] }
      else none
    nativesOpen := fun p =>
      if p = "/src/time/time.go" then .ok "overlay" else .error (.message ("open " ++ p))
    Root := fun p =>
      if p = "goroot/src/time/sleep.go" then .ok "sleep"
      else if p = "goroot/src/time/bad.go" then .ok "bad"
      else if p = "goroot/src/time/odd.go" then .ok "odd"
      else .error (.message ("open " ++ p))
    Path := fun p => .error (.message ("open " ++ p))
    ParseFile := fun name r =>
      if r = "overlay" then
        .ok { Name := name, Decls := [.funcDecl [] "init", .funcDecl [] "Sleep"] }
      else if r = "sleep" then
        .ok { Name := name, Decls := [.valueDecl false [["init", "Sleep"]]] }
      else if r = "odd" then
        .ok { Name := name, Decls := [.funcDecl [.other] "m"] }
      else
        .error (.list { Pos := { Filename := name, Line := 1, Column := 1 }
                        Msg := "expected 'package'" } [])
    Unquote := fun s => ⟨(s.data.drop 1).dropLast⟩ }

/-- The overlay file of the second example. -/
def oddOverlay : AstFile :=
  { Name := "goroot/src/time/__time.go"
    Decls := [.funcDecl [] "init", .funcDecl [] "Sleep"] }

/-! ## Properties of the session steps -/

theorem installFire_Archives (w : World) (s : Session) (key : String) (archive : Archive)
    (std : Bool) (k : String) :
    (s.installFire w key archive std).Archives k
      = if k = key then some archive else s.Archives k := by
  unfold Session.installFire Session.fire Session.install
  cases w.Callback <;> rfl

theorem installFire_trace (w : World) (s : Session) (key : String) (archive : Archive)
    (std : Bool) :
    (s.installFire w key archive std).trace
      = s.trace ++ Event.install key archive std ::
          (if w.Callback.isSome then [Event.callback archive] else []) := by
  unfold Session.installFire Session.fire Session.install
  cases w.Callback <;> simp

theorem fire_fst (w : World) (s : Session) (key : String) (archive : Archive) (std : Bool)
    (s2 : Session) (e : Option BuildError)
    (h : (s.install key archive std).fire w archive = (s2, e)) :
    s2 = s.installFire w key archive std := by
  unfold Session.installFire
  rw [h]

theorem Steps.refl (w : World) (s : Session) : Steps w s s := Relation.ReflTransGen.refl

theorem Steps.trans {w : World} {a b c : Session} (h1 : Steps w a b) (h2 : Steps w b c) :
    Steps w a c := Relation.ReflTransGen.trans h1 h2

theorem Steps.single {w : World} {a b : Session} (h : Step w a b) : Steps w a b :=
  Relation.ReflTransGen.single h

theorem Step.step_trace_extends {w : World} {a b : Session} (h : Step w a b) :
    ∃ t, b.trace = a.trace ++ t := by
  cases h with
  | std key archive => exact ⟨_, installFire_trace w a key archive true⟩
  | compile key hk => exact ⟨_, rfl⟩
  | src key archive got files a0 h1 h2 h3 => exact ⟨_, installFire_trace w a key archive false⟩

theorem Steps.trace_extends {w : World} {a b : Session} (h : Steps w a b) :
    ∃ t, b.trace = a.trace ++ t := by
  induction h with
  | refl => exact ⟨[], by simp⟩
  | tail _ hstep ih =>
    obtain ⟨t1, h1⟩ := ih
    obtain ⟨t2, h2⟩ := hstep.step_trace_extends
    exact ⟨t1 ++ t2, by rw [h2, h1, List.append_assoc]⟩

theorem Steps.installed {w : World} {a b : Session} (h : Steps w a b) {d : Archive}
    (hd : InstalledArchive d a.trace) : InstalledArchive d b.trace := by
  obtain ⟨t, ht⟩ := h.trace_extends
  obtain ⟨key, std, hmem⟩ := hd
  exact ⟨key, std, by rw [ht]; exact List.mem_append_left _ hmem⟩

theorem Step.keeps_key {w : World} {a b : Session} (h : Step w a b) {k : String}
    (hk : (a.Archives k).isSome) : (b.Archives k).isSome := by
  cases h with
  | std key archive => rw [installFire_Archives]; split <;> simp [hk]
  | compile key hkey => exact hk
  | src key archive got files a0 h1 h2 h3 => rw [installFire_Archives]; split <;> simp [hk]

theorem Steps.keeps_keys {w : World} {a b : Session} (h : Steps w a b) {k : String}
    (hk : (a.Archives k).isSome) : (b.Archives k).isSome := by
  induction h with
  | refl => exact hk
  | tail _ hstep ih => exact hstep.keeps_key ih

theorem Recorded.after_installFire {w : World} {s : Session} (h : Recorded s) (key : String)
    (archive : Archive) (std : Bool) : Recorded (s.installFire w key archive std) := by
  intro k a hk
  rw [installFire_Archives] at hk
  rw [installFire_trace]
  split at hk
  · rename_i hkk
    cases hk
    exact ⟨std, by simp [hkk]⟩
  · obtain ⟨b, hb⟩ := h k a hk
    exact ⟨b, List.mem_append_left _ hb⟩

theorem Step.recorded_one {w : World} {a b : Session} (h : Step w a b) (hr : Recorded a) :
    Recorded b := by
  cases h with
  | std key archive => exact hr.after_installFire key archive true
  | compile key hkey =>
    intro k x hk
    obtain ⟨c, hc⟩ := hr k x hk
    exact ⟨c, List.mem_append_left _ hc⟩
  | src key archive got files a0 h1 h2 h3 => exact hr.after_installFire key archive false

theorem Steps.recorded {w : World} {a b : Session} (h : Steps w a b) (hr : Recorded a) :
    Recorded b := by
  induction h with
  | refl => exact hr
  | tail _ hstep ih => exact hstep.recorded_one ih

theorem GenReturns.mono {ρ : Type} {g : Gen ρ} {got got1 : List Archive} {r : ρ}
    (h : GenReturns g got r) (hsub : ∀ d ∈ got, d ∈ got1) : GenReturns g got1 r := by
  induction h with
  | ret r got => exact GenReturns.ret r got1
  | askOk path k d got r hd _ ih => exact GenReturns.askOk path k d got1 r (hsub d hd) (ih hsub)
  | askError path k e got r _ ih => exact GenReturns.askError path k e got1 r (ih hsub)

theorem stdImports_spec (w : World)
    (rec : String → Session → Option (Session × Outcome (Option Archive)))
    (hrec : ∀ p s s1 r, rec p s = some (s1, r) →
      Steps w s s1 ∧ (∀ k, k ≠ p → (s.Archives k).isSome → s1.Archives k = s.Archives k)) :
    ∀ ps s s1 r, stdImports rec ps s = some (s1, r) →
      Steps w s s1 ∧ (∀ k, (s.Archives k).isSome → s1.Archives k = s.Archives k) := by
  intro ps
  induction ps with
  | nil =>
    intro s s1 r h
    simp only [stdImports, Option.some.injEq, Prod.mk.injEq] at h
    obtain ⟨rfl, _⟩ := h
    exact ⟨Steps.refl w s, fun _ _ => rfl⟩
  | cons p ps ih =>
    intro s s1 r h
    unfold stdImports at h
    split at h
    · exact ih s s1 r h
    · rename_i hp
      split at h
      · cases h
      · rename_i s2 x hrun
        obtain ⟨hst, hkeep⟩ := hrec p s s2 _ hrun
        obtain ⟨hst2, hkeep2⟩ := ih s2 s1 r h
        refine ⟨hst.trans hst2, ?_⟩
        intro k hk
        have hne : k ≠ p := by
          rintro rfl
          exact hp hk
        have h1 := hkeep k hne hk
        rw [hkeep2 k (by rw [h1]; exact hk), h1]
      · rename_i s2 e hrun
        simp only [Option.some.injEq, Prod.mk.injEq] at h
        obtain ⟨rfl, _⟩ := h
        obtain ⟨hst, hkeep⟩ := hrec p s s2 _ hrun
        refine ⟨hst, ?_⟩
        intro k hk
        exact hkeep k (by rintro rfl; exact hp hk) hk
      · rename_i s2 m hrun
        simp only [Option.some.injEq, Prod.mk.injEq] at h
        obtain ⟨rfl, _⟩ := h
        obtain ⟨hst, hkeep⟩ := hrec p s s2 _ hrun
        refine ⟨hst, ?_⟩
        intro k hk
        exact hkeep k (by rintro rfl; exact hp hk) hk

theorem ImportStandardArchive_spec (w : World) :
    ∀ fuel p s s1 r, ImportStandardArchive w fuel p s = some (s1, r) →
      Steps w s s1 ∧ (∀ k, k ≠ p → (s.Archives k).isSome → s1.Archives k = s.Archives k)
        ∧ (r = .ok none → s1 = s) ∧ (∀ a, r = .ok (some a) → s1.Archives p = some a) := by
  intro fuel
  induction fuel with
  | zero =>
    intro p s s1 r h
    simp [ImportStandardArchive] at h
  | succ fuel ih =>
    intro p s s1 r h
    unfold ImportStandardArchive at h
    split at h
    · simp only [Option.some.injEq, Prod.mk.injEq] at h
      obtain ⟨rfl, rfl⟩ := h
      exact ⟨Steps.refl w s, fun _ _ _ => rfl, fun _ => rfl, (fun a ha => by cases ha)⟩
    · split at h
      · simp only [Option.some.injEq, Prod.mk.injEq] at h
        obtain ⟨rfl, rfl⟩ := h
        exact ⟨Steps.refl w s, fun _ _ _ => rfl, fun _ => rfl, (fun a ha => by cases ha)⟩
      · split at h
        · simp only [Option.some.injEq, Prod.mk.injEq] at h
          obtain ⟨rfl, rfl⟩ := h
          exact ⟨Steps.refl w s, fun _ _ _ => rfl, (fun hr => by cases hr), (fun a ha => by cases ha)⟩
        · rename_i archive _
          split at h
          · simp only [Option.some.injEq, Prod.mk.injEq] at h
            obtain ⟨rfl, rfl⟩ := h
            exact ⟨Steps.refl w s, fun _ _ _ => rfl, (fun hr => by cases hr),
              (fun a ha => by cases ha)⟩
          · have hstep : Steps w s (s.installFire w p archive true) :=
              Steps.single (Step.std s p archive)
            have hkeep0 : ∀ k, k ≠ p → (s.installFire w p archive true).Archives k
                = s.Archives k := by
              intro k hk
              rw [installFire_Archives, if_neg hk]
            have hat : (s.installFire w p archive true).Archives p = some archive := by
              rw [installFire_Archives, if_pos rfl]
            split at h
            · rename_i s2 e hfire
              have hs2 := fire_fst w s p archive true s2 _ hfire
              simp only [Option.some.injEq, Prod.mk.injEq] at h
              obtain ⟨rfl, rfl⟩ := h
              subst hs2
              exact ⟨hstep, fun k hk _ => hkeep0 k hk, (fun hr => by cases hr),
                (fun a ha => by cases ha)⟩
            · rename_i s2 hfire
              have hs2 := fire_fst w s p archive true s2 _ hfire
              subst hs2
              have hloop := stdImports_spec w (ImportStandardArchive w fuel)
                (fun q t t1 x hx => ⟨(ih q t t1 x hx).1, (ih q t t1 x hx).2.1⟩)
                archive.Imports (s.installFire w p archive true)
              split at h
              · cases h
              · rename_i s3 x hrun
                simp only [Option.some.injEq, Prod.mk.injEq] at h
                obtain ⟨rfl, rfl⟩ := h
                obtain ⟨hst, hkeep⟩ := hloop s3 _ hrun
                refine ⟨hstep.trans hst, ?_, (fun hr => by cases hr), ?_⟩
                · intro k hk hsome
                  rw [hkeep k (by rw [hkeep0 k hk]; exact hsome), hkeep0 k hk]
                · intro a ha
                  cases ha
                  rw [hkeep p (by rw [hat]; rfl), hat]
              · rename_i s3 e hrun
                simp only [Option.some.injEq, Prod.mk.injEq] at h
                obtain ⟨rfl, rfl⟩ := h
                obtain ⟨hst, hkeep⟩ := hloop s3 _ hrun
                refine ⟨hstep.trans hst, ?_, (fun hr => by cases hr), (fun a ha => by cases ha)⟩
                intro k hk hsome
                rw [hkeep k (by rw [hkeep0 k hk]; exact hsome), hkeep0 k hk]
              · rename_i s3 m hrun
                simp only [Option.some.injEq, Prod.mk.injEq] at h
                obtain ⟨rfl, rfl⟩ := h
                obtain ⟨hst, hkeep⟩ := hloop s3 _ hrun
                refine ⟨hstep.trans hst, ?_, (fun hr => by cases hr), (fun a ha => by cases ha)⟩
                intro k hk hsome
                rw [hkeep k (by rw [hkeep0 k hk]; exact hsome), hkeep0 k hk]

theorem installCompiled_spec (w : World) (pkg : PackageData) (key : String) (archive : Archive)
    (s s1 : Session) (r : Outcome Archive) (h : installCompiled w pkg key archive s = (s1, r)) :
    s1 = s.installFire w key archive false ∧ (∀ x, r = .ok x → x = archive) := by
  unfold installCompiled at h
  split at h
  · rename_i s2 e hfire
    have hs2 := fire_fst w s key archive false s2 _ hfire
    simp only [Prod.mk.injEq] at h
    obtain ⟨rfl, rfl⟩ := h
    exact ⟨hs2, fun x hx => by cases hx⟩
  · rename_i s2 hfire
    have hs2 := fire_fst w s key archive false s2 _ hfire
    split at h
    · simp only [Prod.mk.injEq] at h
      obtain ⟨rfl, rfl⟩ := h
      exact ⟨hs2, fun x hx => by cases hx; rfl⟩
    · split at h
      · simp only [Prod.mk.injEq] at h
        obtain ⟨rfl, rfl⟩ := h
        exact ⟨hs2, fun x hx => by cases hx⟩
      · simp only [Prod.mk.injEq] at h
        obtain ⟨rfl, rfl⟩ := h
        exact ⟨hs2, fun x hx => by cases hx; rfl⟩

theorem appendJSFiles_Imports (w : World) (dir : String) :
    ∀ (files : List String) (a b : Archive), appendJSFiles w dir files a = .ok b →
      b.Imports = a.Imports ∧ b.ImportPath = a.ImportPath := by
  intro files
  induction files with
  | nil =>
    intro a b h
    simp only [appendJSFiles, Outcome.ok.injEq] at h
    subst h
    exact ⟨rfl, rfl⟩
  | cons f rest ih =>
    intro a b h
    unfold appendJSFiles at h
    split at h
    · cases h
    · cases h
    · obtain ⟨h1, h2⟩ := ih _ b h
      exact ⟨h1, h2⟩

/-- A successful `BuildPackage` leaves the archive it returns in the cache, under the
effective import path of the package. -/
theorem BuildPackage_ok_cached (w : World) (fuel : Nat) (pkg : PackageData) (s s1 : Session)
    (a : Archive) (h : BuildPackage w fuel pkg s = some (s1, .ok a)) :
    s1.Archives (effectivePath w pkg) = some a := by
  cases fuel with
  | zero => simp [BuildPackage] at h
  | succ fuel =>
    unfold BuildPackage at h
    simp only at h
    split at h
    · rename_i archive hhit
      simp only [Option.some.injEq, Prod.mk.injEq, Outcome.ok.injEq] at h
      obtain ⟨rfl, rfl⟩ := h
      exact hhit
    · split at h
      · cases h
      · simp at h
      · simp at h
      · rename_i s2 archive hstd
        simp only [Option.some.injEq, Prod.mk.injEq, Outcome.ok.injEq] at h
        obtain ⟨rfl, rfl⟩ := h
        split at hstd
        · exact (ImportStandardArchive_spec w fuel _ s _ _ hstd).2.2.2 _ rfl
        · simp at hstd
      · split at h
        · simp at h
        · simp at h
        · split at h
          · simp at h
          · split at h
            · cases h
            · simp at h
            · simp at h
            · split at h
              · simp at h
              · simp at h
              · rename_i s3 a0 hgen _ a1 hjs
                simp only [Option.some.injEq] at h
                obtain ⟨hs, hr⟩ := installCompiled_spec w pkg _ a1 s3 s1 _ h
                have := hr a rfl
                subst this
                rw [hs, installFire_Archives, if_pos rfl]

theorem lookup_mem {β : Type} (path : String) :
    ∀ (c : List (String × β)) (d : β), c.lookup path = some d → (path, d) ∈ c := by
  intro c
  induction c with
  | nil => intro d h; simp [List.lookup] at h
  | cons x rest ih =>
    intro d h
    obtain ⟨k, v⟩ := x
    unfold List.lookup at h
    split at h
    · rename_i heq
      have hk : path = k := by simpa using heq
      cases h
      subst hk
      exact List.mem_cons_self _ _
    · exact List.mem_cons_of_mem _ (ih d h)

theorem CacheInstalled.after_steps {w : World} {c : LocalCache} {s s1 : Session}
    (h : CacheInstalled c s) (hst : Steps w s s1) : CacheInstalled c s1 :=
  fun p d hmem => hst.installed (h p d hmem)

theorem Recorded.installed_of_cached {s : Session} (h : Recorded s) {key : String} {a : Archive}
    (hk : s.Archives key = some a) : InstalledArchive a s.trace := by
  obtain ⟨std, hmem⟩ := h key a hk
  exact ⟨key, std, hmem⟩

theorem buildImportPathWithSrcDirVia_spec (w : World)
    (build : PackageData → Session → Option (Session × Outcome Archive))
    (path dir : String) (s s1 : Session) (r : Outcome (PackageData × Archive))
    (h : buildImportPathWithSrcDirVia w build path dir s = some (s1, r)) :
    (s1 = s ∧ ∀ x, r ≠ .ok x) ∨
      ∃ pkg r0, importWithSrcDir w s path dir (InstallSuffix w) w.options.BuildTags = .ok pkg
        ∧ build pkg s = some (s1, r0) ∧ (∀ x, r = .ok x → x.1 = pkg ∧ r0 = .ok x.2)
        ∧ (∀ e, r = .error e → r0 = .error e) := by
  unfold buildImportPathWithSrcDirVia at h
  split at h
  · simp only [Option.some.injEq, Prod.mk.injEq] at h
    obtain ⟨rfl, rfl⟩ := h
    exact Or.inl ⟨rfl, fun x hx => by cases hx⟩
  · simp only [Option.some.injEq, Prod.mk.injEq] at h
    obtain ⟨rfl, rfl⟩ := h
    exact Or.inl ⟨rfl, fun x hx => by cases hx⟩
  · rename_i pkg himp
    right
    split at h
    · cases h
    · rename_i s2 archive hb
      simp only [Option.some.injEq, Prod.mk.injEq] at h
      obtain ⟨rfl, rfl⟩ := h
      exact ⟨pkg, _, himp, hb, (fun x hx => by cases hx; exact ⟨rfl, rfl⟩),
        (fun e he => by cases he)⟩
    · rename_i s2 e hb
      simp only [Option.some.injEq, Prod.mk.injEq] at h
      obtain ⟨rfl, rfl⟩ := h
      exact ⟨pkg, _, himp, hb, (fun x hx => by cases hx), (fun e he => by cases he; rfl)⟩
    · rename_i s2 m hb
      simp only [Option.some.injEq, Prod.mk.injEq] at h
      obtain ⟨rfl, rfl⟩ := h
      exact ⟨pkg, _, himp, hb, (fun x hx => by cases hx), (fun e he => by cases he)⟩

theorem importClosure_steps (w : World)
    (build : PackageData → Session → Option (Session × Outcome Archive))
    (hbuild : ∀ pkg s s1 r, Recorded s → build pkg s = some (s1, r) →
      Steps w s s1 ∧ (∀ a, r = .ok a → ∃ key, s1.Archives key = some a))
    (dir : String) :
    ∀ p s c s1 c1 r, Recorded s → CacheInstalled c s →
      importClosure w build dir p s c = some (s1, c1, r) →
      Steps w s s1 ∧ CacheInstalled c1 s1 ∧ (∀ d, r = .ok d → InstalledArchive d s1.trace) := by
  intro p s c s1 c1 r hrec hc h
  unfold importClosure at h
  split at h
  · rename_i archive hlook
    simp only [Option.some.injEq, Prod.mk.injEq] at h
    obtain ⟨rfl, rfl, rfl⟩ := h
    refine ⟨Steps.refl w s, hc, ?_⟩
    intro d hd
    cases hd
    exact hc p archive (lookup_mem p c archive hlook)
  · split at h
    · cases h
    · rename_i s2 pkg archive hvia
      simp only [Option.some.injEq, Prod.mk.injEq] at h
      obtain ⟨rfl, rfl, rfl⟩ := h
      rcases buildImportPathWithSrcDirVia_spec w build p dir s s2 _ hvia with hno | hyes
      · exact absurd rfl (hno.2 _)
      · obtain ⟨pkg1, r0, _, hb, hok, _⟩ := hyes
        obtain ⟨_, hr0⟩ := hok _ rfl
        subst hr0
        obtain ⟨hst, hcached⟩ := hbuild pkg1 s s2 _ hrec hb
        obtain ⟨key, hkey⟩ := hcached archive rfl
        have hinst : InstalledArchive archive s2.trace := (hst.recorded hrec).installed_of_cached hkey
        refine ⟨hst, ?_, ?_⟩
        · intro q d hmem
          rcases List.mem_cons.mp hmem with heq | hmem
          · cases heq
            exact hinst
          · exact hst.installed (hc q d hmem)
        · intro d hd
          cases hd
          exact hinst
    · rename_i s2 e hvia
      simp only [Option.some.injEq, Prod.mk.injEq] at h
      obtain ⟨rfl, rfl, rfl⟩ := h
      rcases buildImportPathWithSrcDirVia_spec w build p dir s s2 _ hvia with hno | hyes
      · rw [hno.1]
        exact ⟨Steps.refl w s, hc, fun d hd => by cases hd⟩
      · obtain ⟨pkg1, r0, _, hb, _, _⟩ := hyes
        obtain ⟨hst, _⟩ := hbuild pkg1 s s2 _ hrec hb
        exact ⟨hst, hc.after_steps hst, fun d hd => by cases hd⟩
    · rename_i s2 m hvia
      simp only [Option.some.injEq, Prod.mk.injEq] at h
      obtain ⟨rfl, rfl, rfl⟩ := h
      rcases buildImportPathWithSrcDirVia_spec w build p dir s s2 _ hvia with hno | hyes
      · rw [hno.1]
        exact ⟨Steps.refl w s, hc, fun d hd => by cases hd⟩
      · obtain ⟨pkg1, r0, _, hb, _, _⟩ := hyes
        obtain ⟨hst, _⟩ := hbuild pkg1 s s2 _ hrec hb
        exact ⟨hst, hc.after_steps hst, fun d hd => by cases hd⟩

theorem runGen_steps (w : World) {ρ : Type}
    (imp : String → Session → LocalCache → Option (Session × LocalCache × Outcome Archive))
    (himp : ∀ p s c s1 c1 r, Recorded s → CacheInstalled c s → imp p s c = some (s1, c1, r) →
      Steps w s s1 ∧ CacheInstalled c1 s1 ∧ (∀ d, r = .ok d → InstalledArchive d s1.trace)) :
    ∀ (g : Gen ρ) s c s1 r, Recorded s → CacheInstalled c s →
      runGen imp g s c = some (s1, r) →
      Steps w s s1 ∧ (∀ a, r = .ok a →
        ∃ got, (∀ d ∈ got, InstalledArchive d s1.trace) ∧ GenReturns g got a) := by
  intro g
  induction g with
  | ret x =>
    intro s c s1 r _ _ h
    cases x with
    | ok v =>
      simp only [runGen, Option.some.injEq, Prod.mk.injEq] at h
      obtain ⟨rfl, rfl⟩ := h
      refine ⟨Steps.refl w s, ?_⟩
      intro a ha
      cases ha
      exact ⟨[], by simp, GenReturns.ret _ _⟩
    | error e =>
      simp only [runGen, Option.some.injEq, Prod.mk.injEq] at h
      obtain ⟨rfl, rfl⟩ := h
      exact ⟨Steps.refl w s, fun a ha => by cases ha⟩
  | ask path k ih =>
    intro s c s1 r hrec hc h
    unfold runGen at h
    split at h
    · cases h
    · rename_i s2 c2 d himp2
      obtain ⟨hst, hc2, hd⟩ := himp path s c s2 c2 _ hrec hc himp2
      obtain ⟨hst2, hret⟩ := ih (.ok d) s2 c2 s1 r (hst.recorded hrec) hc2 h
      refine ⟨hst.trans hst2, ?_⟩
      intro a ha
      obtain ⟨got, hgot, hgen⟩ := hret a ha
      refine ⟨d :: got, ?_, ?_⟩
      · intro x hx
        rcases List.mem_cons.mp hx with rfl | hx
        · exact hst2.installed (hd _ rfl)
        · exact hgot x hx
      · exact GenReturns.askOk path k d _ a (List.mem_cons_self _ _)
          (hgen.mono (fun x hx => List.mem_cons_of_mem _ hx))
    · rename_i s2 c2 e himp2
      obtain ⟨hst, hc2, _⟩ := himp path s c s2 c2 _ hrec hc himp2
      obtain ⟨hst2, hret⟩ := ih (.error e) s2 c2 s1 r (hst.recorded hrec) hc2 h
      refine ⟨hst.trans hst2, ?_⟩
      intro a ha
      obtain ⟨got, hgot, hgen⟩ := hret a ha
      exact ⟨got, hgot, GenReturns.askError path k e got a hgen⟩
    · rename_i s2 c2 m himp2
      obtain ⟨hst, _, _⟩ := himp path s c s2 c2 _ hrec hc himp2
      simp only [Option.some.injEq, Prod.mk.injEq] at h
      obtain ⟨rfl, rfl⟩ := h
      exact ⟨hst, fun a ha => by cases ha⟩

theorem stdBranch_spec (w : World) (fuel : Nat) (c : Bool) (p : String) (s s2 : Session)
    (r : Outcome (Option Archive))
    (h : (if c then ImportStandardArchive w fuel p s else some (s, .ok none)) = some (s2, r)) :
    Steps w s s2 ∧ (r = .ok none → s2 = s) := by
  split at h
  · exact ⟨(ImportStandardArchive_spec w fuel p s s2 r h).1,
      (ImportStandardArchive_spec w fuel p s s2 r h).2.2.1⟩
  · simp only [Option.some.injEq, Prod.mk.injEq] at h
    obtain ⟨rfl, rfl⟩ := h
    exact ⟨Steps.refl w s, fun _ => rfl⟩

/-- Every run of `BuildPackage` changes the session by steps of the driver. -/
theorem BuildPackage_steps (w : World) :
    ∀ fuel pkg s s1 r, Recorded s → BuildPackage w fuel pkg s = some (s1, r) → Steps w s s1 := by
  intro fuel
  induction fuel with
  | zero =>
    intro pkg s s1 r _ h
    simp [BuildPackage] at h
  | succ fuel ih =>
    intro pkg s s1 r hrec h
    unfold BuildPackage at h
    simp only at h
    split at h
    · simp only [Option.some.injEq, Prod.mk.injEq] at h
      obtain ⟨rfl, _⟩ := h
      exact Steps.refl w s
    · rename_i hmiss
      split at h
      · cases h
      · rename_i s2 e hstd
        simp only [Option.some.injEq, Prod.mk.injEq] at h
        obtain ⟨rfl, _⟩ := h
        exact (stdBranch_spec w fuel _ _ s s2 _ hstd).1
      · rename_i s2 m hstd
        simp only [Option.some.injEq, Prod.mk.injEq] at h
        obtain ⟨rfl, _⟩ := h
        exact (stdBranch_spec w fuel _ _ s s2 _ hstd).1
      · rename_i s2 archive hstd
        simp only [Option.some.injEq, Prod.mk.injEq] at h
        obtain ⟨rfl, _⟩ := h
        exact (stdBranch_spec w fuel _ _ s s2 _ hstd).1
      · rename_i s2 hstd
        have hs2 : s2 = s := (stdBranch_spec w fuel _ _ s s2 _ hstd).2 rfl
        subst hs2
        split at h
        · simp only [Option.some.injEq, Prod.mk.injEq] at h
          obtain ⟨rfl, _⟩ := h
          exact Steps.refl w _
        · simp only [Option.some.injEq, Prod.mk.injEq] at h
          obtain ⟨rfl, _⟩ := h
          exact Steps.refl w _
        · rename_i files _
          split at h
          · simp only [Option.some.injEq, Prod.mk.injEq] at h
            obtain ⟨rfl, _⟩ := h
            exact Steps.refl w _
          · have hstep : Step w s2
                { s2 with trace := s2.trace ++ [Event.compile (effectivePath w pkg)] } :=
              Step.compile s2 _ hmiss
            have hrec2 := hstep.recorded_one hrec
            have hgen := runGen_steps w (importClosure w (BuildPackage w fuel) pkg.Dir)
              (importClosure_steps w (BuildPackage w fuel)
                (fun q t t1 x ht hx => ⟨ih q t t1 x ht hx,
                  fun a ha => ⟨_, BuildPackage_ok_cached w fuel q t t1 a (ha ▸ hx)⟩⟩) pkg.Dir)
              (w.Compile (effectivePath w pkg) (sortFiles files) w.options.Minify)
              { s2 with trace := s2.trace ++ [Event.compile (effectivePath w pkg)] } []
            have hnil : CacheInstalled []
                { s2 with trace := s2.trace ++ [Event.compile (effectivePath w pkg)] } := by
              intro q d hmem
              cases hmem
            split at h
            · cases h
            · rename_i s3 e hrun
              simp only [Option.some.injEq, Prod.mk.injEq] at h
              obtain ⟨rfl, _⟩ := h
              exact (Steps.single hstep).trans (hgen s3 _ hrec2 hnil hrun).1
            · rename_i s3 m hrun
              simp only [Option.some.injEq, Prod.mk.injEq] at h
              obtain ⟨rfl, _⟩ := h
              exact (Steps.single hstep).trans (hgen s3 _ hrec2 hnil hrun).1
            · rename_i s3 a0 hrun
              obtain ⟨hst3, hret⟩ := hgen s3 _ hrec2 hnil hrun
              have hto3 : Steps w s2 s3 := (Steps.single hstep).trans hst3
              split at h
              · simp only [Option.some.injEq, Prod.mk.injEq] at h
                obtain ⟨rfl, _⟩ := h
                exact hto3
              · simp only [Option.some.injEq, Prod.mk.injEq] at h
                obtain ⟨rfl, _⟩ := h
                exact hto3
              · rename_i a1 hjs
                simp only [Option.some.injEq] at h
                obtain ⟨hs, _⟩ := installCompiled_spec w pkg _ a1 s3 s1 _ h
                obtain ⟨got, hgot, hgr⟩ := hret a0 rfl
                rw [hs]
                exact hto3.trans (Steps.single (Step.src s3 _ a1 got (sortFiles files) a0 hgot hgr
                  (appendJSFiles_Imports w pkg.Dir pkg.JSFiles a0 a1 hjs).1))

/-! ## Unvendoring -/

theorem lastIndexL_none_drop (sub : List Char) :
    ∀ (l : List Char) (k : Nat), lastIndexL sub l = none → lastIndexL sub (l.drop k) = none := by
  intro l
  induction l with
  | nil => intro k h; simpa using h
  | cons c cs ih =>
    intro k h
    cases k with
    | zero => simpa using h
    | succ k =>
      simp only [List.drop_succ_cons]
      apply ih
      unfold lastIndexL at h
      split at h
      · cases h
      · assumption

theorem lastIndexL_some_drop (sub : List Char) (hsub : sub ≠ []) :
    ∀ (l : List Char) (j : Nat), lastIndexL sub l = some j →
      lastIndexL sub (l.drop (j + 1)) = none ∧ sub.isPrefixOf (l.drop j) = true := by
  intro l
  induction l with
  | nil =>
    intro j h
    unfold lastIndexL at h
    cases sub with
    | nil => exact absurd rfl hsub
    | cons x xs => simp [List.isPrefixOf] at h
  | cons c cs ih =>
    intro j h
    unfold lastIndexL at h
    split at h
    · rename_i j1 hj1
      cases h
      simpa using ih j1 hj1
    · rename_i hnone
      split at h
      · rename_i hpre
        cases h
        exact ⟨by simpa using hnone, by simpa using hpre⟩
      · cases h

theorem lastIndexL_isSome_of_isPrefixOf (sub : List Char) :
    ∀ (l : List Char), sub.isPrefixOf l = true → (lastIndexL sub l).isSome = true := by
  intro l h
  cases l with
  | nil => simp [lastIndexL, h]
  | cons c cs =>
    unfold lastIndexL
    split
    · rfl
    · simp [h]

theorem unvendorL_fixed (r : List Char) (h1 : lastIndexL slashVendorSlash r = none)
    (h2 : vendorSlash.isPrefixOf r = false) : unvendorL r = r := by
  unfold unvendorL findVendorL containsL hasPrefixL
  simp [h1, h2]

theorem unvendorL_idem (p : List Char) : unvendorL (unvendorL p) = unvendorL p := by
  have hS : slashVendorSlash ≠ [] := by simp [slashVendorSlash]
  by_cases hc : containsL p slashVendorSlash = true
  · obtain ⟨j, hj⟩ := Option.isSome_iff_exists.mp hc
    obtain ⟨hafter, hpre⟩ := lastIndexL_some_drop slashVendorSlash hS p j hj
    have hval : unvendorL p = p.drop (j + 1 + 7) := by
      unfold unvendorL findVendorL
      simp [hc, hj, vendorSlash]
    rw [hval]
    apply unvendorL_fixed
    · have := lastIndexL_none_drop slashVendorSlash (p.drop (j + 1)) 7 hafter
      rwa [List.drop_drop] at this
    · by_contra hpre2
      have hpre2 : vendorSlash.isPrefixOf (p.drop (j + 1 + 7)) = true := by simpa using hpre2
      obtain ⟨u, hu⟩ := List.isPrefixOf_iff_prefix.mp hpre
      obtain ⟨t, ht⟩ := List.isPrefixOf_iff_prefix.mp hpre2
      have h6 := lastIndexL_none_drop slashVendorSlash (p.drop (j + 1)) 6 hafter
      rw [List.drop_drop] at h6
      have hsplit : p.drop (j + 1 + 6) = slashVendorSlash ++ t := by
        have e1 : p.drop (j + 1 + 6) = (p.drop j).drop 7 := by
          rw [List.drop_drop]
        have e2 : p.drop (j + 1 + 7) = (p.drop j).drop 8 := by
          rw [List.drop_drop]
        rw [e2, ← hu] at ht
        rw [e1, ← hu]
        simp only [slashVendorSlash, vendorSlash, List.cons_append, List.nil_append,
          List.drop_succ_cons, List.drop_zero] at ht ⊢
        rw [← ht]
      have hsome := lastIndexL_isSome_of_isPrefixOf slashVendorSlash (p.drop (j + 1 + 6))
        (List.isPrefixOf_iff_prefix.mpr ⟨t, hsplit.symm⟩)
      have h6' : lastIndexL slashVendorSlash (List.drop (j + 1 + 6) p) = none := by
        rw [← h6]
      rw [h6'] at hsome
      cases hsome
  · have hnone : lastIndexL slashVendorSlash p = none := by
      unfold containsL at hc
      simpa using hc
    by_cases hp : hasPrefixL p vendorSlash = true
    · have hval : unvendorL p = p.drop 7 := by
        unfold unvendorL findVendorL
        simp only [hc, hp, ↓reduceIte]
        simp [vendorSlash]
      rw [hval]
      apply unvendorL_fixed
      · exact lastIndexL_none_drop slashVendorSlash p 7 hnone
      · by_contra hpre2
        have hpre2 : vendorSlash.isPrefixOf (p.drop 7) = true := by simpa using hpre2
        obtain ⟨u, hu⟩ := List.isPrefixOf_iff_prefix.mp hp
        obtain ⟨t, ht⟩ := List.isPrefixOf_iff_prefix.mp hpre2
        have h6 := lastIndexL_none_drop slashVendorSlash p 6 hnone
        have hsplit : p.drop 6 = slashVendorSlash ++ t := by
          rw [← hu] at ht ⊢
          simp only [slashVendorSlash, vendorSlash, List.cons_append, List.nil_append,
            List.drop_succ_cons, List.drop_zero] at ht ⊢
          rw [← ht]
        have hsome := lastIndexL_isSome_of_isPrefixOf slashVendorSlash (p.drop 6)
          (List.isPrefixOf_iff_prefix.mpr ⟨t, hsplit.symm⟩)
        rw [h6] at hsome
        cases hsome
    · have hval : unvendorL p = p := by
        unfold unvendorL findVendorL
        simp [hc, hp]
      rw [hval, hval]

theorem UnvendorPath_eq (p : String) : UnvendorPath p = ⟨unvendorL p.data⟩ := by
  unfold UnvendorPath unvendorL findVendor
  have h7 : "vendor/".length = vendorSlash.length := by decide
  rw [h7]
  split <;> rename_i h <;> simp [h]

theorem UnvendorPath_idem (p : String) : UnvendorPath (UnvendorPath p) = UnvendorPath p := by
  rw [UnvendorPath_eq (UnvendorPath p), UnvendorPath_eq p, unvendorL_idem]

/-! ## Claims C1 and C2: the cache -/

/-- C1 (as stated, refuted): in a session whose callback fails, the first `BuildPackage`
call on a package ends in an error after the archive was installed, and the second call
on the same session returns the archive: the two calls do not have the same outcome. -/
theorem buildPackage_twice_differs :
    (BuildPackage failingCallbackWorld 2 (packageOf "a" []) NewSession).map (·.2)
        = some (.error (.message "callback failed"))
      ∧ ((BuildPackage failingCallbackWorld 2 (packageOf "a" []) NewSession).bind
          (fun r => BuildPackage failingCallbackWorld 2 (packageOf "a" []) r.1)).map (·.2)
        = some (.ok (archiveOf "a" [])) := by
  decide

/-- C1 (amended): when a `BuildPackage` call returns an archive, a second call on the
resulting session is a cache hit: it returns the same archive and leaves the session as
it is. -/
theorem buildPackage_twice_same (w : World) (fuel fuel2 : Nat) (pkg : PackageData)
    (s s1 : Session) (a : Archive) (h : BuildPackage w fuel pkg s = some (s1, .ok a)) :
    BuildPackage w (fuel2 + 1) pkg s1 = some (s1, .ok a) := by
  have hcached := BuildPackage_ok_cached w fuel pkg s s1 a h
  unfold BuildPackage
  simp only [hcached]

theorem buildPackage_twice_same_witness :
    BuildPackage quietWorld 2 (packageOf "a" []) NewSession = some (builtA, .ok (archiveOf "a" []))
      ∧ BuildPackage quietWorld 1 (packageOf "a" []) builtA
          = some (builtA, .ok (archiveOf "a" [])) :=
  ⟨rfl, buildPackage_twice_same quietWorld 2 0 (packageOf "a" []) NewSession builtA
    (archiveOf "a" []) rfl⟩

/-- C2: a package that `BuildPackage` builds successfully is cached under
`UnvendorPath(p.ImportPath)` when `Unvendor` is set and under `p.ImportPath` otherwise;
with `Unvendor` set, a later `BuildPackage` request for the unvendored path is a cache hit
on that archive that leaves the session unchanged, because `UnvendorPath` is idempotent. -/
theorem buildPackage_effective_key (w : World) (fuel : Nat) (pkg : PackageData)
    (s s1 : Session) (a : Archive) (h : BuildPackage w fuel pkg s = some (s1, .ok a)) :
    s1.Archives (if w.options.Unvendor then UnvendorPath pkg.ImportPath else pkg.ImportPath)
        = some a
      ∧ (∀ q, UnvendorPath (UnvendorPath q) = UnvendorPath q)
      ∧ (w.options.Unvendor = true → ∀ (pkg2 : PackageData) (fuel2 : Nat),
          pkg2.ImportPath = UnvendorPath pkg.ImportPath →
          BuildPackage w (fuel2 + 1) pkg2 s1 = some (s1, .ok a)) := by
  have hcached := BuildPackage_ok_cached w fuel pkg s s1 a h
  refine ⟨hcached, UnvendorPath_idem, ?_⟩
  intro hu pkg2 fuel2 hp
  have hkey : effectivePath w pkg2 = effectivePath w pkg := by
    unfold effectivePath
    rw [hu, hp]
    simp only [if_true]
    exact UnvendorPath_idem _
  unfold BuildPackage
  simp only [hkey, hcached]

theorem buildPackage_effective_key_witness :
    BuildPackage unvendorWorld 2 (packageOf "github.com/a/b/vendor/x/y" []) NewSession
        = some (builtXY, .ok (archiveOf "x/y" []))
      ∧ builtXY.Archives "x/y" = some (archiveOf "x/y" [])
      ∧ BuildPackage unvendorWorld 1 (packageOf "x/y" []) builtXY
          = some (builtXY, .ok (archiveOf "x/y" [])) :=
  ⟨rfl, rfl,
    (buildPackage_effective_key unvendorWorld 2 (packageOf "github.com/a/b/vendor/x/y" [])
      NewSession builtXY (archiveOf "x/y" []) rfl).2.2 rfl (packageOf "x/y" []) 0 rfl⟩

/-! ## Invariants of the reachable sessions -/

theorem Steps.invariant {w : World} {I : Session → Prop}
    (hstep : ∀ a b, Step w a b → I a → I b) {a b : Session} (h : Steps w a b) (ha : I a) :
    I b := by
  induction h with
  | refl => exact ha
  | tail _ hs ih => exact hstep _ _ hs ih

theorem recorded_newSession : Recorded NewSession := by
  intro key archive h
  cases h

theorem Reachable.steps {w : World} {s : Session} (h : Reachable w s) :
    Steps w NewSession s ∧ Recorded s := by
  induction h with
  | init => exact ⟨Steps.refl w _, recorded_newSession⟩
  | build fuel pkg s s1 r _ hb ih =>
    have hst := BuildPackage_steps w fuel pkg s s1 r ih.2 hb
    exact ⟨ih.1.trans hst, hst.recorded ih.2⟩
  | standard fuel path s s1 r _ hb ih =>
    have hst := (ImportStandardArchive_spec w fuel path s s1 r hb).1
    exact ⟨ih.1.trans hst, hst.recorded ih.2⟩
  | importPath fuel path s s1 r _ hb ih =>
    rcases buildImportPathWithSrcDirVia_spec w (BuildPackage w fuel) path "" s s1 r hb
      with hsame | ⟨pkg, r0, _, hbuild, _, _⟩
    · rw [hsame.1]
      exact ih
    · have hst := BuildPackage_steps w fuel pkg s s1 r0 ih.2 hbuild
      exact ⟨ih.1.trans hst, hst.recorded ih.2⟩

theorem EachEvent.nil (C : Event → List Event → Prop) : EachEvent C [] := by
  intro t1 e t2 h
  simp at h

theorem EachEvent.snoc {C : Event → List Event → Prop} {t : List Event} {e : Event}
    (h : EachEvent C t) (he : C e t) : EachEvent C (t ++ [e]) := by
  intro t1 x t2 heq
  rcases List.eq_nil_or_concat t2 with rfl | ⟨L, b, rfl⟩
  · obtain ⟨h1, h2⟩ := List.append_inj' heq rfl
    cases h2
    subst h1
    exact he
  · have heq2 : t ++ [e] = (t1 ++ x :: L) ++ [b] := by simpa using heq
    obtain ⟨h1, _⟩ := List.append_inj' heq2 rfl
    exact h t1 x L h1

theorem EachEvent.after_install {C : Event → List Event → Prop} {w : World} {s : Session}
    (h : EachEvent C s.trace) (key : String) (a : Archive) (std : Bool)
    (hinst : C (Event.install key a std) s.trace) (hcb : ∀ t, C (Event.callback a) t) :
    EachEvent C (s.installFire w key a std).trace := by
  rw [installFire_trace]
  have h1 := h.snoc hinst
  split
  · have h2 := h1.snoc (hcb _)
    simpa using h2
  · simpa using h1

theorem Present.installFire {w : World} {s : Session} (h : Present s) (key : String)
    (archive : Archive) (std : Bool) : Present (s.installFire w key archive std) := by
  intro k a b hmem
  rw [installFire_Archives]
  rw [installFire_trace] at hmem
  split
  · rfl
  · rename_i hne
    rcases List.mem_append.mp hmem with hold | hnew
    · exact h k a b hold
    · exfalso
      rcases List.mem_cons.mp hnew with heq | hrest
      · cases heq
        exact hne rfl
      · split at hrest
        · simp at hrest
        · simp at hrest

theorem Step.present_inv {w : World} {a b : Session} (h : Step w a b) (hp : Present a) :
    Present b := by
  cases h with
  | std key archive => exact hp.installFire key archive true
  | compile key hkey =>
    intro k x c hmem
    rcases List.mem_append.mp hmem with hold | hnew
    · exact hp k x c hold
    · simp at hnew
  | src key archive got files a0 h1 h2 h3 => exact hp.installFire key archive false

theorem present_newSession : Present NewSession := by
  intro key a std h
  cases h

theorem Reachable.present {w : World} {s : Session} (h : Reachable w s) : Present s :=
  h.steps.1.invariant (fun _ _ hs hp => hs.present_inv hp) present_newSession

theorem Step.importsInstalledBefore {w : World} (hgen : CompileContract w) {a b : Session}
    (h : Step w a b) (hp : EachEvent ImportsInstalledBefore a.trace) :
    EachEvent ImportsInstalledBefore b.trace := by
  cases h with
  | std key archive => exact hp.after_install key archive true trivial (fun _ => trivial)
  | compile key hkey => exact hp.snoc trivial
  | src key archive got files a0 h1 h2 h3 =>
    refine hp.after_install key archive false ?_ (fun _ => trivial)
    intro p hmem
    rw [h3] at hmem
    obtain ⟨d, hd, hpath⟩ := hgen key files w.options.Minify got a0 h2 p hmem
    obtain ⟨k, std, hk⟩ := h1 d hd
    exact ⟨k, d, std, hk, hpath⟩

theorem Step.notInstalledBefore {w : World} {a b : Session}
    (h : Step w a b) (hp : Present a ∧ EachEvent NotInstalledBefore a.trace) :
    Present b ∧ EachEvent NotInstalledBefore b.trace := by
  refine ⟨h.present_inv hp.1, ?_⟩
  cases h with
  | std key archive => exact hp.2.after_install key archive true trivial (fun _ => trivial)
  | compile key hkey =>
    refine hp.2.snoc ?_
    intro x std hmem
    have := hp.1 key x std hmem
    rw [hkey] at this
    cases this
  | src key archive got files a0 h1 h2 h3 =>
    exact hp.2.after_install key archive false trivial (fun _ => trivial)

theorem installsOf_append (t u : List Event) :
    installsOf (t ++ u) = installsOf t ++ installsOf u := by
  induction t with
  | nil => rfl
  | cons e t ih => cases e <;> simp [installsOf, ih]

theorem callbacksOf_append (t u : List Event) :
    callbacksOf (t ++ u) = callbacksOf t ++ callbacksOf u := by
  induction t with
  | nil => rfl
  | cons e t ih => cases e <;> simp [callbacksOf, ih]

theorem Step.callbacks {w : World} (hcb : w.Callback.isSome = true) {a b : Session}
    (h : Step w a b) (hp : callbacksOf a.trace = installsOf a.trace) :
    callbacksOf b.trace = installsOf b.trace := by
  cases h with
  | std key archive =>
    rw [installFire_trace, callbacksOf_append, installsOf_append, hp]
    simp [hcb, callbacksOf, installsOf]
  | compile key hkey =>
    show callbacksOf (a.trace ++ _) = installsOf (a.trace ++ _)
    rw [callbacksOf_append, installsOf_append, hp]
    simp [callbacksOf, installsOf]
  | src key archive got files a0 h1 h2 h3 =>
    rw [installFire_trace, callbacksOf_append, installsOf_append, hp]
    simp [hcb, callbacksOf, installsOf]

theorem mem_installsOf {t : List Event} {key : String} {a : Archive} {std : Bool}
    (h : Event.install key a std ∈ t) : a ∈ installsOf t := by
  induction t with
  | nil => cases h
  | cons e t ih =>
    rcases List.mem_cons.mp h with heq | hrest
    · subst heq
      simp [installsOf]
    · have := ih hrest
      cases e <;> simp [installsOf, this]

/-! ## Claims C3, C4 and C5: what is installed, and when -/

/-- C3 (the code at the failing input): with `b` in the source set, `BuildPackage` on the
precompiled package `a`, which imports `b`, caches the precompiled archive of `b`: the
loop of `ImportStandardArchive` does not look at the source set. A later `BuildPackage`
for `b` then returns that precompiled archive. -/
theorem source_path_cached_as_standard :
    sourceWorld.options.Source "b" = true
      ∧ (BuildPackage sourceWorld 3 (packageOf "a" ["b"]) NewSession).map
          (fun r => (r.2, r.1.Archives "b", r.1.trace))
        = some (.ok (precompiled "a" ["b"]), some (precompiled "b" []),
            [Event.install "a" (precompiled "a" ["b"]) true,
             Event.install "b" (precompiled "b" []) true])
      ∧ ((BuildPackage sourceWorld 3 (packageOf "a" ["b"]) NewSession).bind
          (fun r => BuildPackage sourceWorld 3 (packageOf "b" []) r.1)).map (·.2)
        = some (.ok (precompiled "b" [])) := by
  decide

/-- C4 (as stated, refuted): `BuildPackage` on the precompiled package `a`, which imports
`b`, leaves both in the cache, and `a` was installed before its import `b`. -/
theorem standard_archive_before_its_import :
    "b" ∈ (precompiled "a" ["b"]).Imports
      ∧ (BuildPackage assetsWorld 3 (packageOf "a" ["b"]) NewSession).map
          (fun r => (r.1.Archives "a", r.1.Archives "b", installsOf r.1.trace))
        = some (some (precompiled "a" ["b"]), some (precompiled "b" []),
            [precompiled "a" ["b"], precompiled "b" []]) := by
  decide

/-- C4 (amended): in every reachable session, when an archive compiled from source was
installed, an archive had been installed before it for each of its import paths, and the
path of that archive is still in the cache. The code generator is taken to list as
imports only import paths of archives that the importer answered with. -/
theorem compiled_archive_after_imports (w : World) (hgen : CompileContract w) (s : Session)
    (hs : Reachable w s) (t1 t2 : List Event) (key : String) (a : Archive)
    (ht : s.trace = t1 ++ Event.install key a false :: t2) (p : String) (hp : p ∈ a.Imports) :
    ∃ k d std, Event.install k d std ∈ t1 ∧ d.ImportPath = p ∧ (s.Archives k).isSome = true := by
  have hinv : EachEvent ImportsInstalledBefore s.trace :=
    hs.steps.1.invariant (I := fun x => EachEvent ImportsInstalledBefore x.trace)
      (fun _ _ hstep hx => hstep.importsInstalledBefore hgen hx) (EachEvent.nil _)
  obtain ⟨k, d, std, hmem, hpath⟩ := hinv t1 _ t2 ht p hp
  refine ⟨k, d, std, hmem, hpath, hs.present k d std ?_⟩
  rw [ht]
  exact List.mem_append_left _ hmem

theorem askImports_contract (path : String) :
    ∀ (qs acc : List String) (got : List Archive) (a : Archive),
      GenReturns (askImports path qs acc) got a →
      ∀ p ∈ a.Imports, p ∈ acc ∨ ∃ d ∈ got, d.ImportPath = p := by
  intro qs
  induction qs with
  | nil =>
    intro acc got a h p hp
    unfold askImports at h
    cases h
    left
    simpa [archiveOf] using hp
  | cons q rest ih =>
    intro acc got a h p hp
    unfold askImports at h
    cases h with
    | askOk _ _ d _ _ hd hrest =>
      rcases ih _ got a hrest p hp with hacc | hgot
      · rcases List.mem_cons.mp hacc with rfl | hacc
        · exact Or.inr ⟨d, hd, rfl⟩
        · exact Or.inl hacc
      · exact Or.inr hgot
    | askError _ _ e _ _ hrest => cases hrest

theorem graphWorld_contract : CompileContract graphWorld := by
  intro importPath files minify got a h p hp
  rcases askImports_contract importPath _ [] got a h p hp with hacc | hgot
  · cases hacc
  · exact hgot

theorem compiled_archive_after_imports_witness :
    ∃ k d std,
      Event.install k d std ∈ [Event.compile "main", Event.compile "lib",
        Event.install "lib" (archiveOf "lib" []) false]
      ∧ d.ImportPath = "lib" ∧ (builtGraph.Archives k).isSome = true :=
  compiled_archive_after_imports graphWorld graphWorld_contract builtGraph
    (Reachable.build 3 (packageOf "main" ["lib"]) NewSession builtGraph
      (.ok (archiveOf "main" ["lib"])) Reachable.init rfl)
    [Event.compile "main", Event.compile "lib", Event.install "lib" (archiveOf "lib" []) false]
    [] "main" (archiveOf "main" ["lib"]) rfl "lib" (by decide)

/-- C5 (as stated, refuted): `ImportStandardArchive` does not look up its own path in the
cache. Called twice on the path `b`, it writes the one archive of `b` to the cache twice
and invokes the callback on it twice, the second time on an archive that is cached. -/
theorem callback_twice_for_cached_archive :
    (afterStandard stdCallbackWorld 2 "b" NewSession).Archives "b"
        = some (precompiled "b" [])
      ∧ callbacksOf (afterStandard stdCallbackWorld 2 "b"
          (afterStandard stdCallbackWorld 2 "b" NewSession)).trace
        = [precompiled "b" [], precompiled "b" []]
      ∧ (afterStandard stdCallbackWorld 2 "b"
          (afterStandard stdCallbackWorld 2 "b" NewSession)).Archives "b"
        = some (precompiled "b" []) := by
  decide

/-- C5 (amended): in every reachable session with a callback set, the archives the
callback was invoked on are, in order, the archives written to the cache, one invocation
for each write; every cached archive has had its callback invoked; and a `BuildPackage`
call that hits the cache leaves the session, and so the callback invocations, as they
are. -/
theorem callback_once_per_install (w : World) (hcb : w.Callback.isSome = true) (s : Session)
    (hs : Reachable w s) :
    callbacksOf s.trace = installsOf s.trace
      ∧ (∀ key a, s.Archives key = some a → a ∈ callbacksOf s.trace)
      ∧ (∀ fuel pkg a, s.Archives (effectivePath w pkg) = some a →
          BuildPackage w (fuel + 1) pkg s = some (s, .ok a)) := by
  have heq : callbacksOf s.trace = installsOf s.trace :=
    hs.steps.1.invariant (I := fun x => callbacksOf x.trace = installsOf x.trace)
      (fun _ _ hstep hx => hstep.callbacks hcb hx) rfl
  refine ⟨heq, ?_, ?_⟩
  · intro key a hk
    obtain ⟨std, hmem⟩ := hs.steps.2 key a hk
    rw [heq]
    exact mem_installsOf hmem
  · intro fuel pkg a hk
    unfold BuildPackage
    simp only [hk]

theorem callback_once_per_install_witness :
    callbacksOf (afterStandard stdCallbackWorld 3 "a"
        (afterStandard stdCallbackWorld 3 "a" NewSession)).trace
      = installsOf (afterStandard stdCallbackWorld 3 "a"
        (afterStandard stdCallbackWorld 3 "a" NewSession)).trace
      ∧ installsOf (afterStandard stdCallbackWorld 3 "a"
          (afterStandard stdCallbackWorld 3 "a" NewSession)).trace
        = [precompiled "a" ["b"], precompiled "b" [], precompiled "a" ["b"]] :=
  ⟨(callback_once_per_install stdCallbackWorld rfl
      (afterStandard stdCallbackWorld 3 "a" (afterStandard stdCallbackWorld 3 "a" NewSession))
      (Reachable.standard 3 "a" (afterStandard stdCallbackWorld 3 "a" NewSession) _
        (.ok (some (precompiled "a" ["b"])))
        (Reachable.standard 3 "a" NewSession _ (.ok (some (precompiled "a" ["b"])))
          Reachable.init rfl) rfl)).1,
    by decide⟩

/-! ## Claim C6: import cycles -/

theorem ImportStandardArchive_no_assets (w : World) (hassets : w.assetsArchives = none)
    (fuel : Nat) (p : String) (s : Session) :
    ImportStandardArchive w (fuel + 1) p s = some (s, .ok none) := by
  unfold ImportStandardArchive
  simp only [hassets]

/-- A `BuildPackage` call does not return when the first import that the code generator
asks for is a package whose `BuildPackage` call does not return. -/
theorem BuildPackage_none_of_import (w : World) (fuel : Nat) (pkg pkg2 : PackageData)
    (s : Session) (files : List AstFile) (q : String)
    (k : Except BuildError Archive → Gen Archive)
    (hmiss : s.Archives (effectivePath w pkg) = none)
    (hassets : w.assetsArchives = none)
    (hparse : w.parseAndAugment pkg = .ok files)
    (hcancel : w.cancelled s = false)
    (hgen : w.Compile (effectivePath w pkg) (sortFiles files) w.options.Minify = .ask q k)
    (himp : importWithSrcDir w
        { s with trace := s.trace ++ [Event.compile (effectivePath w pkg)] } q pkg.Dir
        (InstallSuffix w) w.options.BuildTags = .ok pkg2)
    (hrec : BuildPackage w fuel pkg2
        { s with trace := s.trace ++ [Event.compile (effectivePath w pkg)] } = none) :
    BuildPackage w (fuel + 1) pkg s = none := by
  cases fuel with
  | zero =>
    unfold BuildPackage
    simp only [hmiss]
    split
    · rfl
    · rename_i h; simp [ImportStandardArchive] at h
    · rename_i h; simp [ImportStandardArchive] at h
    · rename_i h; simp [ImportStandardArchive] at h
    · rename_i s1 h
      have hs1 : s1 = s := by
        split at h
        · simp [ImportStandardArchive] at h
        · simp only [Option.some.injEq, Prod.mk.injEq] at h
          exact h.1.symm
      subst hs1
      simp only [hparse, hcancel, hgen, runGen, importClosure, List.lookup,
        buildImportPathWithSrcDirVia, himp, hrec]
      simp
  | succ fuel =>
    unfold BuildPackage
    simp only [hmiss, ImportStandardArchive_no_assets w hassets, ite_self, hparse, hcancel,
      hgen, runGen, importClosure, List.lookup, buildImportPathWithSrcDirVia, himp, hrec]
    simp

theorem cycle_never_returns :
    ∀ (fuel : Nat) (s : Session), s.Archives "a" = none → s.Archives "b" = none →
      BuildPackage cycleWorld fuel (packageOf "a" ["b"]) s = none
        ∧ BuildPackage cycleWorld fuel (packageOf "b" ["a"]) s = none := by
  intro fuel
  induction fuel with
  | zero => intro s _ _; exact ⟨rfl, rfl⟩
  | succ fuel ih =>
    intro s ha hb
    constructor
    · exact BuildPackage_none_of_import cycleWorld fuel (packageOf "a" ["b"])
        (packageOf "b" ["a"]) s [] "b" _ ha rfl rfl rfl rfl rfl
        (ih { Archives := s.Archives, trace := s.trace ++ [Event.compile "a"] } ha hb).2
    · exact BuildPackage_none_of_import cycleWorld fuel (packageOf "b" ["a"])
        (packageOf "a" ["b"]) s [] "a" _ hb rfl rfl rfl rfl rfl
        (ih { Archives := s.Archives, trace := s.trace ++ [Event.compile "b"] } ha hb).1

/-- C6 (as stated, refuted): when `a` imports `b` and `b` imports `a`, both compiled from
source, and the code generator asks for each declared import, no amount of fuel lets
`BuildPackage` return on `a`: the recursion does not end, and no error is surfaced. And
without any cycle, a package whose compilation fails is compiled again by the next
`BuildPackage` call of the session. -/
theorem import_cycle_never_returns :
    (¬ ∃ fuel, (BuildPackage cycleWorld fuel (packageOf "a" ["b"]) NewSession).isSome = true)
      ∧ ((BuildPackage brokenWorld 2 (packageOf "a" []) NewSession).bind
          (fun r => BuildPackage brokenWorld 2 (packageOf "a" []) r.1)).map
            (fun r => (r.2, r.1.trace))
        = some (.error (.message "type error"), [Event.compile "a", Event.compile "a"]) := by
  constructor
  · rintro ⟨fuel, h⟩
    rw [(cycle_never_returns fuel NewSession rfl rfl).1] at h
    cases h
  · decide

/-- C6 (amended): when `buildImportPathWithSrcDir` fails on an import that the code
generator asks for and that the local cache of the call does not hold, the importer of
`BuildPackage` answers with the error wrapped as a `pathErr` whose `Path()` is that import
path, in the session that the failed build left; every error that the importer answers
with is such a wrapped error of `buildImportPathWithSrcDir`; and in every reachable
session the code generator was never started on a path after an archive had been
installed under that path. An import cycle among packages compiled from source is not
detected. -/
theorem import_error_carries_path (w : World) (s : Session) (hs : Reachable w s) :
    (∀ fuel dir path s0 c s1 e0, c.lookup path = none →
        buildImportPathWithSrcDir w fuel path dir s0 = some (s1, .error e0) →
        importClosure w (BuildPackage w fuel) dir path s0 c
            = some (s1, c, .error (.pathErr e0 path))
          ∧ (BuildError.pathErr e0 path).Path = some path)
      ∧ (∀ fuel dir path s0 c s1 c1 e,
        importClosure w (BuildPackage w fuel) dir path s0 c = some (s1, c1, .error e) →
        ∃ e0, e = BuildError.pathErr e0 path ∧ e.Path = some path
          ∧ buildImportPathWithSrcDir w fuel path dir s0 = some (s1, .error e0))
      ∧ (∀ t1 t2 key, s.trace = t1 ++ Event.compile key :: t2 →
          ∀ a std, Event.install key a std ∉ t1) := by
  refine ⟨?_, ?_, ?_⟩
  · intro fuel dir path s0 c s1 e0 hc hfail
    unfold buildImportPathWithSrcDir at hfail
    unfold importClosure
    rw [hc]
    dsimp only
    rw [hfail]
    exact ⟨rfl, rfl⟩
  · intro fuel dir path s0 c s1 c1 e h
    unfold importClosure at h
    split at h
    · simp at h
    · split at h
      · cases h
      · simp at h
      · rename_i s2 e0 hvia
        simp only [Option.some.injEq, Prod.mk.injEq, Outcome.error.injEq] at h
        obtain ⟨rfl, _, rfl⟩ := h
        exact ⟨e0, rfl, rfl, hvia⟩
      · simp at h
  · have hinv : Present s ∧ EachEvent NotInstalledBefore s.trace :=
      hs.steps.1.invariant (I := fun x => Present x ∧ EachEvent NotInstalledBefore x.trace)
        (fun _ _ hstep hx => hstep.notInstalledBefore hx)
        ⟨present_newSession, EachEvent.nil _⟩
    intro t1 t2 key ht
    exact hinv.2 t1 _ t2 ht

theorem import_error_carries_path_witness :
    (importClosure brokenLibWorld (BuildPackage brokenLibWorld 2) "gopath/src/main" "lib"
          { Archives := fun _ => none, trace := [Event.compile "main"] } []
        = some ({ Archives := fun _ => none,
                  trace := [Event.compile "main", Event.compile "lib"] }, [],
            .error (.pathErr (.message "type error") "lib"))
      ∧ (BuildError.pathErr (.message "type error") "lib").Path = some "lib")
      ∧ (BuildPackage brokenLibWorld 3 (packageOf "main" ["lib"]) NewSession).map (fun r => r.2)
        = some (.error (.pathErr (.message "type error") "lib"))
      ∧ Event.install "lib" (archiveOf "lib" []) false ∉ [Event.compile "main"] :=
  ⟨(import_error_carries_path brokenLibWorld NewSession Reachable.init).1 2 "gopath/src/main"
      "lib" { Archives := fun _ => none, trace := [Event.compile "main"] } []
      { Archives := fun _ => none, trace := [Event.compile "main", Event.compile "lib"] }
      (.message "type error") rfl rfl,
    by decide,
    (import_error_carries_path graphWorld builtGraph
      (Reachable.build 3 (packageOf "main" ["lib"]) NewSession builtGraph
        (.ok (archiveOf "main" ["lib"])) Reachable.init rfl)).2.2
      [Event.compile "main"]
      [Event.install "lib" (archiveOf "lib" []) false,
       Event.install "main" (archiveOf "main" ["lib"]) false]
      "lib" rfl (archiveOf "lib" []) false⟩

/-! ## Claims C7 to C10: rendering -/

theorem programLoop_spec (r : Renderer) (minify initializer : Bool)
    (standard : String → Option (Bool → Option String)) (source : String → Bool) :
    ∀ (pkgs : List Archive) (outs res : List PackageOutput),
      programLoop r minify initializer standard source pkgs outs = .ok res →
      ∃ news, res = outs ++ news
        ∧ List.Forall₂ (Emitted r minify initializer standard source) pkgs news := by
  intro pkgs
  induction pkgs with
  | nil =>
    intro outs res h
    simp only [programLoop, Outcome.ok.injEq] at h
    exact ⟨[], by simp [h], List.Forall₂.nil⟩
  | cons pkg rest ih =>
    intro outs res h
    unfold programLoop at h
    simp only at h
    split at h
    · rename_i hcond
      simp only [Bool.and_eq_true, Bool.not_eq_true', Option.isSome_iff_exists] at hcond
      obtain ⟨⟨ph, hph⟩, hsrc⟩ := hcond
      split at h
      · cases h
      · cases h
      · rename_i hash hbytes
        obtain ⟨news, hres, hall⟩ := ih _ res h
        refine ⟨{ Path := pkg.ImportPath, Hash := hash, Contents := none, Standard := true,
                  Store := false } :: news, by rw [hres]; simp, List.Forall₂.cons ?_ hall⟩
        left
        refine ⟨ph, hash, hph, hsrc, ?_, rfl⟩
        rw [hph] at hbytes
        exact hbytes
    · rename_i hcond
      have hnot : standard pkg.ImportPath = none ∨ source pkg.ImportPath = true := by
        cases hs : standard pkg.ImportPath with
        | none => exact Or.inl rfl
        | some ph =>
          right
          simp only [hs, Option.isSome_some, Bool.true_and, Bool.not_eq_true',
            Bool.not_eq_false] at hcond
          exact hcond
      split at h
      · cases h
      · cases h
      · rename_i contents hash hcode
        obtain ⟨news, hres, hall⟩ := ih _ res h
        refine ⟨{ Path := pkg.ImportPath, Hash := some hash, Contents := some contents,
                  Standard := (standard pkg.ImportPath).isSome, Store := true } :: news,
          by rw [hres]; simp, List.Forall₂.cons ?_ hall⟩
        right
        exact ⟨hnot, contents, hash, hcode, rfl⟩

theorem GetProgramCode_spec (r : Renderer) (pkgs : List Archive) (initializer : Bool)
    (standard : String → Option (Bool → Option String)) (source : String → Bool)
    (commandPath : String) (outs : List PackageOutput)
    (h : GetProgramCode r pkgs initializer standard source = .ok (commandPath, outs)) :
    ∃ mainPkg, pkgs.getLast? = some mainPkg ∧ commandPath = mainPkg.ImportPath
      ∧ List.Forall₂ (Emitted r mainPkg.Minified initializer standard source) pkgs outs := by
  unfold GetProgramCode at h
  split at h
  · cases h
  · rename_i mainPkg hlast
    simp only at h
    split at h
    · cases h
    · cases h
    · rename_i packageOutputs hloop
      simp only [Outcome.ok.injEq, Prod.mk.injEq] at h
      obtain ⟨rfl, rfl⟩ := h
      obtain ⟨news, hres, hall⟩ := programLoop_spec r _ initializer standard source pkgs []
        packageOutputs hloop
      simp only [List.nil_append] at hres
      subst hres
      exact ⟨mainPkg, hlast, rfl, hall⟩

theorem forall₂_getElem? {α β : Type} {R : α → β → Prop} :
    ∀ {l : List α} {m : List β}, List.Forall₂ R l m → ∀ (i : Nat) (a : α), l[i]? = some a →
      ∃ b, m[i]? = some b ∧ R a b := by
  intro l m h
  induction h with
  | nil => intro i a ha; simp at ha
  | cons hab _ ih =>
    intro i a ha
    cases i with
    | zero =>
      simp only [List.getElem?_cons_zero, Option.some.injEq] at ha
      subst ha
      exact ⟨_, by simp, hab⟩
    | succ i =>
      simp only [List.getElem?_cons_succ] at ha
      obtain ⟨b, hb, hr⟩ := ih i a ha
      exact ⟨b, by simpa using hb, hr⟩

theorem forall₂_map_eq {α β γ : Type} {R : α → β → Prop} (f : α → γ) (g : β → γ)
    (hfg : ∀ a b, R a b → g b = f a) :
    ∀ {l : List α} {m : List β}, List.Forall₂ R l m → m.map g = l.map f := by
  intro l m h
  induction h with
  | nil => rfl
  | cons hab _ ih => simp [hfg _ _ hab, ih]

theorem Emitted.path {r : Renderer} {minify initializer : Bool}
    {standard : String → Option (Bool → Option String)} {source : String → Bool}
    {pkg : Archive} {out : PackageOutput}
    (h : Emitted r minify initializer standard source pkg out) : out.Path = pkg.ImportPath := by
  rcases h with ⟨_, _, _, _, _, rfl⟩ | ⟨_, _, _, _, rfl⟩ <;> rfl

/-- C7: when `GetProgramCode` returns, the output for an archive whose import path has an
entry in the standard index and is not in the source set has `Standard = true`,
`Store = false`, nil contents and, as hash, the bytes of the hex string that the index
holds for the minify mode of the last archive; it is built without `GetPackageCode`. -/
theorem standard_package_output (r : Renderer) (pkgs : List Archive) (initializer : Bool)
    (standard : String → Option (Bool → Option String)) (source : String → Bool)
    (commandPath : String) (outs : List PackageOutput)
    (h : GetProgramCode r pkgs initializer standard source = .ok (commandPath, outs))
    (i : Nat) (p : Archive) (hp : pkgs[i]? = some p) (ph : Bool → Option String)
    (hstd : standard p.ImportPath = some ph) (hsrc : source p.ImportPath = false) :
    ∃ mainPkg hash, pkgs.getLast? = some mainPkg
      ∧ Bytes ((ph mainPkg.Minified).getD "") = .ok hash
      ∧ outs[i]? = some { Path := p.ImportPath, Hash := hash, Contents := none,
                          Standard := true, Store := false } := by
  obtain ⟨mainPkg, hlast, _, hall⟩ := GetProgramCode_spec r pkgs initializer standard source
    commandPath outs h
  obtain ⟨out, hout, hem⟩ := forall₂_getElem? hall i p hp
  rcases hem with ⟨ph1, hash, hph1, _, hbytes, rfl⟩ | ⟨hnot, _⟩
  · rw [hstd] at hph1
    cases hph1
    exact ⟨mainPkg, hash, hlast, hbytes, hout⟩
  · rcases hnot with hnone | htrue
    · rw [hstd] at hnone
      cases hnone
    · rw [hsrc] at htrue
      cases htrue

theorem standard_package_output_witness :
    ∃ mainPkg hash, fmtProgram.getLast? = some mainPkg
      ∧ Bytes (((fun m => some (if m then "0a" else "ff") : Bool → Option String)
          mainPkg.Minified).getD "") = .ok hash
      ∧ fmtOutputs[0]? = some { Path := "fmt", Hash := hash, Contents := none,
                                Standard := true, Store := false } :=
  standard_package_output lineRenderer fmtProgram false fmtIndex (fun _ => false) "main"
    fmtOutputs (by decide) 0 (archiveOf "fmt" []) rfl _ rfl rfl

/-- C8 (as stated, refuted): `fmt` has an entry in the standard index and is in the source
set, so it is rendered and stored, yet its output has `Standard = true`. -/
theorem rendered_source_package_is_standard :
    GetProgramCode lineRenderer fmtProgram false fmtIndex (fun p => p = "fmt")
        = .ok ("main", fmtSourceOutputs)
      ∧ fmtSourceOutputs.map (fun o => (o.Path, o.Store, o.Standard))
        = [("fmt", true, true), ("main", true, false)] := by
  decide

/-- C8 (amended): when `GetProgramCode` returns, the output for an archive that has no
entry in the standard index, or is in the source set, carries the contents and the hash
that `GetPackageCode` renders for it and has `Store = true`; its `Standard` flag tells
whether its import path has an entry in the standard index. -/
theorem rendered_package_output (r : Renderer) (pkgs : List Archive) (initializer : Bool)
    (standard : String → Option (Bool → Option String)) (source : String → Bool)
    (commandPath : String) (outs : List PackageOutput)
    (h : GetProgramCode r pkgs initializer standard source = .ok (commandPath, outs))
    (i : Nat) (p : Archive) (hp : pkgs[i]? = some p)
    (hnot : standard p.ImportPath = none ∨ source p.ImportPath = true) :
    ∃ mainPkg contents hash, pkgs.getLast? = some mainPkg
      ∧ GetPackageCode r p mainPkg.Minified initializer = .ok (contents, hash)
      ∧ outs[i]? = some { Path := p.ImportPath, Hash := some hash, Contents := some contents,
                          Standard := (standard p.ImportPath).isSome, Store := true } := by
  obtain ⟨mainPkg, hlast, _, hall⟩ := GetProgramCode_spec r pkgs initializer standard source
    commandPath outs h
  obtain ⟨out, hout, hem⟩ := forall₂_getElem? hall i p hp
  rcases hem with ⟨ph1, hash, hph1, hsrc, _, _⟩ | ⟨_, contents, hash, hcode, rfl⟩
  · rcases hnot with hnone | htrue
    · rw [hph1] at hnone
      cases hnone
    · rw [hsrc] at htrue
      cases htrue
  · exact ⟨mainPkg, contents, hash, hlast, hcode, hout⟩

theorem rendered_package_output_witness :
    ∃ mainPkg contents hash, fmtProgram.getLast? = some mainPkg
      ∧ GetPackageCode lineRenderer (archiveOf "fmt" []) mainPkg.Minified false
          = .ok (contents, hash)
      ∧ fmtSourceOutputs[0]? =
          some { Path := "fmt", Hash := some hash, Contents := some contents,
                 Standard := (fmtIndex "fmt").isSome, Store := true } :=
  rendered_package_output lineRenderer fmtProgram false fmtIndex (fun p => p = "fmt") "main"
    fmtSourceOutputs (by decide) 0 (archiveOf "fmt" []) rfl (Or.inr (by decide))

theorem programLoop_complete (r : Renderer) (minify initializer : Bool)
    (standard : String → Option (Bool → Option String)) (source : String → Bool) :
    ∀ (pkgs : List Archive) (outs : List PackageOutput),
      (∀ p ∈ pkgs, ∃ out, Emitted r minify initializer standard source p out) →
      ∃ news, programLoop r minify initializer standard source pkgs outs = .ok (outs ++ news) := by
  intro pkgs
  induction pkgs with
  | nil =>
    intro outs _
    exact ⟨[], by simp [programLoop]⟩
  | cons pkg rest ih =>
    intro outs hall
    obtain ⟨out, hout⟩ := hall pkg (List.mem_cons_self _ _)
    have hrest : ∀ p ∈ rest, ∃ o, Emitted r minify initializer standard source p o :=
      fun p hp => hall p (List.mem_cons_of_mem _ hp)
    unfold programLoop
    rcases hout with ⟨ph, hash, hph, hsrc, hbytes, _⟩ | ⟨hnot, contents, hash, hcode, _⟩
    · obtain ⟨news, hnews⟩ :=
        ih (outs ++ [PackageOutput.mk pkg.ImportPath hash none true false]) hrest
      refine ⟨PackageOutput.mk pkg.ImportPath hash none true false :: news, ?_⟩
      simp only [hph, hsrc, Option.isSome_some, Bool.not_false, Bool.and_self, if_true,
        Option.getD_some, hbytes]
      rw [hnews]
      simp
    · obtain ⟨news, hnews⟩ :=
        ih (outs ++ [PackageOutput.mk pkg.ImportPath (some hash) (some contents)
          (standard pkg.ImportPath).isSome true]) hrest
      refine ⟨PackageOutput.mk pkg.ImportPath (some hash) (some contents)
        (standard pkg.ImportPath).isSome true :: news, ?_⟩
      have hcond : ((standard pkg.ImportPath).isSome && !source pkg.ImportPath) = false := by
        rcases hnot with hnone | htrue
        · simp [hnone]
        · simp [htrue]
      simp only [hcond, Bool.false_eq_true, if_false, hcode]
      rw [hnews]
      simp

/-- C9: for a non-empty archive list with last archive `mainPkg` in which every archive
renders (its standard-index entry decodes, or `GetPackageCode` returns its code),
`GetProgramCode` returns the import path of `mainPkg` as command path and one package
output for each archive, in the order of the archives and with their import paths, so
that the last output is the one of `mainPkg`; `WriteCommandPackage` returns that command
path and those outputs for the archives that `GetDependencies` lists. -/
theorem program_outputs_in_order (r : Renderer) (pkgs : List Archive) (initializer : Bool)
    (standard : String → Option (Bool → Option String)) (source : String → Bool)
    (mainPkg : Archive) (hlast : pkgs.getLast? = some mainPkg)
    (hren : ∀ p ∈ pkgs, ∃ out, Emitted r mainPkg.Minified initializer standard source p out) :
    ∃ outs, GetProgramCode r pkgs initializer standard source = .ok (mainPkg.ImportPath, outs)
      ∧ outs.length = pkgs.length
      ∧ outs.map (·.Path) = pkgs.map (·.ImportPath)
      ∧ (outs.getLast?).map (·.Path) = some mainPkg.ImportPath
      ∧ (∀ (w : World) (fuel : Nat) (archive : Archive) (s s1 : Session) (c : CommandOutput),
          WriteCommandPackage w r fuel archive s = some (s1, .ok c) →
          ∃ deps, GetDependencies w fuel archive s = some (s1, .ok deps)
            ∧ GetProgramCode r deps w.options.Initializer w.options.Standard w.options.Source
                = .ok (c.Path, c.Packages)) := by
  obtain ⟨outs, houts⟩ := programLoop_complete r mainPkg.Minified initializer standard source
    pkgs [] hren
  simp only [List.nil_append] at houts
  have hcode : GetProgramCode r pkgs initializer standard source
      = .ok (mainPkg.ImportPath, outs) := by
    unfold GetProgramCode
    simp only [hlast, houts]
  obtain ⟨m2, hlast2, _, hall⟩ := GetProgramCode_spec r pkgs initializer standard source
    mainPkg.ImportPath outs hcode
  have hmap : outs.map (·.Path) = pkgs.map (·.ImportPath) :=
    forall₂_map_eq (fun a => a.ImportPath) (fun o => o.Path) (fun _ _ hab => hab.path) hall
  refine ⟨outs, hcode, hall.length_eq.symm, hmap, ?_, ?_⟩
  · rw [← List.getLast?_map, hmap, List.getLast?_map, hlast]
    rfl
  · intro w fuel archive s s1 c hw
    unfold WriteCommandPackage at hw
    split at hw
    · cases hw
    · simp at hw
    · simp at hw
    · rename_i s2 deps hdeps
      split at hw
      · simp at hw
      · simp at hw
      · rename_i cp packages hcode2
        simp only [Option.some.injEq, Prod.mk.injEq, Outcome.ok.injEq] at hw
        obtain ⟨rfl, rfl⟩ := hw
        exact ⟨deps, hdeps, hcode2⟩

theorem fmtProgram_renders :
    ∀ p ∈ fmtProgram, ∃ out,
      Emitted lineRenderer (archiveOf "main" ["fmt"]).Minified false fmtIndex (fun _ => false)
        p out := by
  intro p hp
  simp only [fmtProgram, List.mem_cons, List.mem_singleton, List.not_mem_nil, or_false] at hp
  rcases hp with rfl | rfl
  · exact ⟨_, Or.inl ⟨fun m => some (if m then "0a" else "ff"), some ⟨[Char.ofNat 255]⟩, rfl,
      rfl, by decide, rfl⟩⟩
  · exact ⟨_, Or.inr ⟨Or.inl rfl, "code of main\n", "sha1:code of main\n", by decide, rfl⟩⟩

theorem program_outputs_in_order_witness :
    ∃ outs, GetProgramCode lineRenderer fmtProgram false fmtIndex (fun _ => false)
        = .ok ("main", outs)
      ∧ outs.length = fmtProgram.length
      ∧ outs.map (·.Path) = fmtProgram.map (·.ImportPath)
      ∧ (outs.getLast?).map (·.Path) = some "main" :=
  have h := program_outputs_in_order lineRenderer fmtProgram false fmtIndex (fun _ => false)
    (archiveOf "main" ["fmt"]) rfl fmtProgram_renders
  h.elim (fun outs ho => ⟨outs, ho.1, ho.2.1, ho.2.2.1, ho.2.2.2.1⟩)

theorem Truncate_newline (x : String) :
    Truncate (x ++ "\n") (((x ++ "\n").length : Int) - 1) = some x := by
  unfold Truncate
  have hlen : ((x ++ "\n").length : Int) - 1 = (x.length : Int) := by
    rw [String.length_append]
    have : "\n".length = 1 := by decide
    rw [this]
    push_cast
    omega
  rw [hlen]
  have h1 : ¬ ((x.length : Int) < 0 ∨ ((x ++ "\n").length : Int) < (x.length : Int)) := by
    rw [String.length_append]
    push_cast
    omega
  rw [if_neg h1]
  congr 1
  apply String.ext
  show List.take (x.length : Int).toNat (x.data ++ "\n".data) = x.data
  rw [Int.toNat_ofNat]
  exact List.take_left' rfl

theorem Truncate_written (pre body : String) :
    Truncate (pre ++ (body ++ "\n")) (((pre ++ (body ++ "\n")).length : Int) - 1)
      = some (pre ++ body) := by
  rw [← String.append_assoc]
  exact Truncate_newline _

/-- C10: for an archive with import path `P` on which the package writer writes `body`
followed by a newline, `GetPackageCode` returns as contents the preamble, then the body,
with its newline unless `minify` is set, then the closing, and as hash the digest of these
contents; the preamble and the closing are empty unless `initializer` is set, and the
preamble is the compact one when `minify` is set. -/
theorem package_code_layout (r : Renderer) (archive : Archive) (minify initializer : Bool)
    (body : String) (hc : r.cancelled archive = false)
    (hw : r.WritePkgCode archive archive.Declarations minify = .ok (body ++ "\n")) :
    GetPackageCode r archive minify initializer =
      .ok (renderedCode archive.ImportPath body minify initializer,
           r.sha1 (renderedCode archive.ImportPath body minify initializer)) := by
  unfold GetPackageCode renderedCode
  simp only [hc, hw]
  cases minify <;> cases initializer <;>
    simp only [Truncate_written, Bool.false_eq_true, if_true, if_false] <;>
    simp [String.append_assoc]

theorem package_code_layout_witness :
    GetPackageCode lineRenderer (archiveOf "main" []) true true =
      .ok ("$load[\"main\"]=function()\x7bcode of main\x7d;",
           "sha1:$load[\"main\"]=function()\x7bcode of main\x7d;") :=
  package_code_layout lineRenderer (archiveOf "main" []) true true "code of main" rfl rfl

/-! ## Claims C11 and C12: the hash, and the vendor element -/

theorem GetPackageCode_eq (r : Renderer) (archive : Archive) (minify initializer : Bool) :
    GetPackageCode r archive minify initializer =
      if r.cancelled archive then .error .cancelled
      else
        match r.WritePkgCode archive archive.Declarations minify with
        | .error e => .error e
        | .ok written =>
          match assembleCode archive.ImportPath written minify initializer with
          | none => .panic "bytes.Buffer: truncation out of range"
          | some buf => .ok (buf, r.sha1 buf) := by
  unfold GetPackageCode assembleCode
  dsimp only
  by_cases hc : r.cancelled archive = true
  · simp only [hc, if_true]
  · simp only [hc, if_false]
    cases r.WritePkgCode archive archive.Declarations minify with
    | error e => rfl
    | ok written =>
      dsimp only
      cases minify <;> cases initializer <;> simp only [Bool.false_eq_true, if_true, if_false]
        <;> split <;> rfl

theorem GetPackageCode_ok (r : Renderer) (archive : Archive) (minify initializer : Bool)
    (contents hash : String)
    (h : GetPackageCode r archive minify initializer = .ok (contents, hash)) :
    ∃ written, r.WritePkgCode archive archive.Declarations minify = .ok written
      ∧ assembleCode archive.ImportPath written minify initializer = some contents
      ∧ hash = r.sha1 contents := by
  rw [GetPackageCode_eq] at h
  split at h
  · cases h
  · split at h
    · cases h
    · rename_i written hw
      split at h
      · cases h
      · rename_i buf hbuf
        simp only [Outcome.ok.injEq, Prod.mk.injEq] at h
        obtain ⟨rfl, rfl⟩ := h
        exact ⟨written, hw, hbuf, rfl⟩

/-- C11: when `GetPackageCode` succeeds, the hash it returns is the digest of exactly the
contents it returns, and has 20 bytes when the digest has; a second run with the same
digest on the same archive, with the same output of the package writer and the same
`minify` and `initializer`, returns the same contents and the same hash. -/
theorem package_hash_of_contents (r : Renderer) (archive : Archive)
    (minify initializer : Bool) (contents hash : String)
    (h : GetPackageCode r archive minify initializer = .ok (contents, hash)) :
    hash = r.sha1 contents
      ∧ ((∀ b, (r.sha1 b).length = 20) → hash.length = 20)
      ∧ (∀ (r2 : Renderer) (contents2 hash2 : String), r2.sha1 = r.sha1 →
          r2.WritePkgCode archive archive.Declarations minify
            = r.WritePkgCode archive archive.Declarations minify →
          GetPackageCode r2 archive minify initializer = .ok (contents2, hash2) →
          contents2 = contents ∧ hash2 = hash) := by
  obtain ⟨written, hw, hbuf, hhash⟩ := GetPackageCode_ok r archive minify initializer
    contents hash h
  refine ⟨hhash, fun h20 => by rw [hhash]; exact h20 _, ?_⟩
  intro r2 contents2 hash2 hsha hwrite h2
  obtain ⟨written2, hw2, hbuf2, hhash2⟩ := GetPackageCode_ok r2 archive minify initializer
    contents2 hash2 h2
  rw [hwrite, hw] at hw2
  cases hw2
  rw [hbuf] at hbuf2
  cases hbuf2
  exact ⟨rfl, by rw [hhash2, hsha, hhash]⟩

theorem package_hash_of_contents_witness :
    "sha1:$load[\"main\"]=function()\x7bcode of main\x7d;"
      = lineRenderer.sha1 "$load[\"main\"]=function()\x7bcode of main\x7d;" :=
  (package_hash_of_contents lineRenderer (archiveOf "main" []) true true
    "$load[\"main\"]=function()\x7bcode of main\x7d;"
    "sha1:$load[\"main\"]=function()\x7bcode of main\x7d;" (by decide)).1

theorem slash_vendor_at (p : List Char) (j : Nat) :
    slashVendorSlash.isPrefixOf (p.drop j) = true ↔ VendorAt p (j + 1) := by
  unfold VendorAt
  simp only [Nat.add_sub_cancel, Nat.succ_ne_zero, false_or]
  by_cases hj : j < p.length
  · rw [List.drop_eq_getElem_cons hj, List.getElem?_eq_getElem hj]
    simp only [slashVendorSlash, List.isPrefixOf, Bool.and_eq_true, beq_iff_eq,
      Option.some.injEq]
    constructor
    · rintro ⟨h1, h2⟩
      exact ⟨by simpa [vendorSlash, List.isPrefixOf] using h2, h1.symm⟩
    · rintro ⟨h1, h2⟩
      exact ⟨h2.symm, by simpa [vendorSlash, List.isPrefixOf] using h1⟩
  · have hle : p.length ≤ j := Nat.le_of_not_lt hj
    rw [List.drop_eq_nil_of_le hle, List.getElem?_eq_none hle]
    simp [slashVendorSlash, List.isPrefixOf]

theorem lastIndexL_none_no_occurrence (sub : List Char) (l : List Char)
    (h : lastIndexL sub l = none) (k : Nat) : sub.isPrefixOf (l.drop k) = false := by
  have hk := lastIndexL_none_drop sub l k h
  cases hpre : sub.isPrefixOf (l.drop k) with
  | false => rfl
  | true =>
    have := lastIndexL_isSome_of_isPrefixOf sub (l.drop k) hpre
    rw [hk] at this
    cases this

theorem lastIndexL_some_last (sub : List Char) (hsub : sub ≠ []) (l : List Char) (j : Nat)
    (h : lastIndexL sub l = some j) (k : Nat) (hk : j < k) :
    sub.isPrefixOf (l.drop k) = false := by
  have hafter := (lastIndexL_some_drop sub hsub l j h).1
  have := lastIndexL_none_no_occurrence sub (l.drop (j + 1)) hafter (k - (j + 1))
  rw [List.drop_drop] at this
  have hidx : k - (j + 1) + (j + 1) = k := by omega
  have hidx2 : j + 1 + (k - (j + 1)) = k := by omega
  first
    | rwa [hidx] at this
    | rwa [hidx2] at this

theorem findVendorL_spec (p : List Char) :
    ((∃ i, VendorAt p i) →
        ∃ i, findVendorL p = (i, true) ∧ VendorAt p i ∧ (∀ j, VendorAt p j → j ≤ i)
          ∧ unvendorL p = p.drop (i + 7))
      ∧ ((¬ ∃ i, VendorAt p i) → findVendorL p = (0, false) ∧ unvendorL p = p) := by
  have hS : slashVendorSlash ≠ [] := by simp [slashVendorSlash]
  by_cases hc : containsL p slashVendorSlash = true
  · obtain ⟨j, hj⟩ := Option.isSome_iff_exists.mp hc
    have hpre := (lastIndexL_some_drop slashVendorSlash hS p j hj).2
    have hat : VendorAt p (j + 1) := (slash_vendor_at p j).mp hpre
    have hfind : findVendorL p = (j + 1, true) := by
      unfold findVendorL
      simp [hc, hj]
    have hmax : ∀ k, VendorAt p k → k ≤ j + 1 := by
      intro k hk
      cases k with
      | zero => omega
      | succ k =>
        have h1 := (slash_vendor_at p k).mpr hk
        by_contra hgt
        have h2 := lastIndexL_some_last slashVendorSlash hS p j hj k (by omega)
        rw [h1] at h2
        cases h2
    constructor
    · intro _
      refine ⟨j + 1, hfind, hat, hmax, ?_⟩
      unfold unvendorL
      rw [hfind]
      simp [vendorSlash]
    · intro hno
      exact absurd ⟨j + 1, hat⟩ hno
  · have hnone : lastIndexL slashVendorSlash p = none := by
      unfold containsL at hc
      simpa using hc
    have hnoslash : ∀ k, ¬ VendorAt p (k + 1) := by
      intro k hk
      have h1 := (slash_vendor_at p k).mpr hk
      rw [lastIndexL_none_no_occurrence slashVendorSlash p hnone k] at h1
      cases h1
    by_cases hp : hasPrefixL p vendorSlash = true
    · have hfind : findVendorL p = (0, true) := by
        unfold findVendorL
        simp only [hc, hp, if_true, if_false]
        rfl
      have hat : VendorAt p 0 := ⟨by simpa [hasPrefixL] using hp, Or.inl rfl⟩
      constructor
      · intro _
        refine ⟨0, hfind, hat, ?_, ?_⟩
        · intro k hk
          cases k with
          | zero => exact Nat.le_refl _
          | succ k => exact absurd hk (hnoslash k)
        · unfold unvendorL
          rw [hfind]
          simp [vendorSlash]
      · intro hno
        exact absurd ⟨0, hat⟩ hno
    · have hfind : findVendorL p = (0, false) := by
        unfold findVendorL
        simp only [hc, hp, if_false]
        rfl
      constructor
      · rintro ⟨i, hi⟩
        cases i with
        | zero =>
          exfalso
          apply hp
          unfold hasPrefixL
          simpa using hi.1
        | succ k => exact absurd hi (hnoslash k)
      · intro _
        refine ⟨hfind, ?_⟩
        unfold unvendorL
        rw [hfind]

/-- C12: when the path has a non-terminating `vendor` element, `findVendor` returns `true`
and the index of the last one, and `UnvendorPath` returns the path after the `vendor/` of
that element; when it has none, `findVendor` returns `false` and `UnvendorPath` returns the
path as it is. -/
theorem findVendor_last_element (p : String) :
    ((∃ i, VendorAt p.data i) →
        ∃ i, findVendor p = (i, true) ∧ VendorAt p.data i ∧ (∀ j, VendorAt p.data j → j ≤ i)
          ∧ UnvendorPath p = ⟨p.data.drop (i + 7)⟩)
      ∧ ((¬ ∃ i, VendorAt p.data i) → findVendor p = (0, false) ∧ UnvendorPath p = p) := by
  obtain ⟨hyes, hno⟩ := findVendorL_spec p.data
  constructor
  · intro h
    obtain ⟨i, hfind, hat, hmax, hun⟩ := hyes h
    exact ⟨i, hfind, hat, hmax, by rw [UnvendorPath_eq, hun]⟩
  · intro h
    obtain ⟨hfind, hun⟩ := hno h
    exact ⟨hfind, by rw [UnvendorPath_eq, hun]⟩

theorem findVendor_last_element_witness :
    ∃ i, findVendor "a/vendor/b/vendor/x" = (i, true)
      ∧ VendorAt "a/vendor/b/vendor/x".data i
      ∧ (∀ j, VendorAt "a/vendor/b/vendor/x".data j → j ≤ i)
      ∧ UnvendorPath "a/vendor/b/vendor/x" = ⟨"a/vendor/b/vendor/x".data.drop (i + 7)⟩ :=
  (findVendor_last_element "a/vendor/b/vendor/x").1 ⟨2, ⟨by decide, Or.inr (by decide)⟩⟩

/-! ## Claim C17: the file system router -/

theorem splitSlash_ne_nil (p : List Char) : splitSlash p ≠ [] := by
  cases p with
  | nil => simp [splitSlash]
  | cons c cs =>
    unfold splitSlash
    split
    · simp
    · split <;> simp

theorem joinSlash_cons (c : Char) (x : List Char) (xs : List (List Char)) :
    joinSlash ((c :: x) :: xs) = c :: joinSlash (x :: xs) := by
  cases xs with
  | nil => rfl
  | cons y rest => rfl

theorem joinSlash_splitSlash (p : List Char) : joinSlash (splitSlash p) = p := by
  induction p with
  | nil => rfl
  | cons c cs ih =>
    unfold splitSlash
    split
    · rename_i hc
      cases hs : splitSlash cs with
      | nil => exact absurd hs (splitSlash_ne_nil cs)
      | cons y rest =>
        rw [hs] at ih
        show [] ++ '/' :: joinSlash (y :: rest) = c :: cs
        rw [ih, hc]
        rfl
    · split
      · rename_i hs
        exact absurd hs (splitSlash_ne_nil cs)
      · rename_i x xs hs
        rw [hs] at ih
        rw [joinSlash_cons, ih]

theorem cleanElems_plain (rooted : Bool) :
    ∀ (elems out : List (List Char)),
      (∀ e ∈ elems, e ≠ [] ∧ e ≠ ['.'] ∧ e ≠ ['.', '.']) →
      cleanElems rooted elems out = out.reverse ++ elems := by
  intro elems
  induction elems with
  | nil => intro out _; simp [cleanElems]
  | cons e rest ih =>
    intro out h
    obtain ⟨h1, h2, h3⟩ := h e (List.mem_cons_self _ _)
    unfold cleanElems
    rw [if_neg (by simp [h1, h2]), if_neg h3,
      ih (e :: out) (fun x hx => h x (List.mem_cons_of_mem _ hx))]
    simp

theorem cleanL_plain (p : List Char) (h : CleanRelative p) :
    trimSlash (cleanL p) = p := by
  have hne : p ≠ [] := by
    rintro rfl
    exact (h [] (by simp [splitSlash])).1 rfl
  have hhead : p.head? ≠ some '/' := by
    intro hh
    cases p with
    | nil => exact hne rfl
    | cons c cs =>
      simp only [List.head?_cons, Option.some.injEq] at hh
      subst hh
      exact (h [] (by simp [splitSlash])).1 rfl
  have hclean : cleanL p = p := by
    unfold cleanL
    rw [if_neg hne]
    simp only [hhead, decide_False, Bool.false_eq_true, if_false]
    rw [cleanElems_plain false (splitSlash p) [] h]
    simp only [List.reverse_nil, List.nil_append, joinSlash_splitSlash]
    rw [if_neg hne]
  rw [hclean]
  cases p with
  | nil => rfl
  | cons c cs =>
    have hc : c ≠ '/' := by
      intro hc
      exact hhead (by simp [hc])
    unfold trimSlash
    split
    · rename_i heq
      cases heq
      exact absurd rfl hc
    · rfl

/-- C17 (as stated, refuted): the first element of `/goroot/src` split on the separator is
empty and `Session.Filesystem` returns the root file system for it; the first element of
`gopath/../goroot/src` is `gopath` and `Session.Filesystem` returns the root file system
for it. -/
theorem filesystem_not_by_raw_first_element :
    (splitSlash "/goroot/src".data).head? = some "".data
      ∧ Filesystem Store.rootFS Store.pathFS "/goroot/src" = .ok Store.rootFS
      ∧ (splitSlash "gopath/../goroot/src".data).head? = some "gopath".data
      ∧ Filesystem Store.rootFS Store.pathFS "gopath/../goroot/src" = .ok Store.rootFS := by
  decide

/-- C17 (amended): `Session.Filesystem` selects the backing store by the first element of
the path after `filepath.Clean` and the removal of one leading separator: the root file
system for `goroot`, the path file system for `gopath`, a panic for every other element;
for a path whose elements are neither empty nor `.` nor `..` that element is the first
element of the path as it is given. -/
theorem filesystem_by_top_dir {FS : Type} (root path : FS) (fpath : String) :
    (topDir fpath = some "goroot".data → Filesystem root path fpath = .ok root)
      ∧ (topDir fpath = some "gopath".data → Filesystem root path fpath = .ok path)
      ∧ (topDir fpath ≠ some "goroot".data → topDir fpath ≠ some "gopath".data →
          ∃ msg, Filesystem root path fpath = .panic msg)
      ∧ (CleanRelative fpath.data → topDir fpath = (splitSlash fpath.data).head?) := by
  have heq : Filesystem root path fpath =
      match topDir fpath with
      | none => .panic "index out of range [0]"
      | some dir =>
        if dir = "gopath".data then .ok path
        else if dir = "goroot".data then .ok root
        else .panic ("Top dir should be goroot or gopath, got " ++ fpath) := by
    unfold Filesystem topDir
    dsimp only
    generalize splitSlash (trimSlash (cleanL fpath.data)) = parts
    cases parts <;> rfl
  refine ⟨?_, ?_, ?_, ?_⟩
  · intro h
    rw [heq, h]
    rfl
  · intro h
    rw [heq, h]
    rfl
  · intro h1 h2
    rw [heq]
    cases hd : topDir fpath with
    | none => exact ⟨_, rfl⟩
    | some dir =>
      rw [hd] at h1 h2
      simp only [ne_eq, Option.some.injEq] at h1 h2
      simp only
      rw [if_neg h2, if_neg h1]
      exact ⟨_, rfl⟩
  · intro h
    unfold topDir
    rw [cleanL_plain fpath.data h]

/-! ## Claim C15: packages with cgo files -/

theorem fixGoFiles_CgoFiles (bctx : BuildContext) (path : String) (pkg : Package) :
    (fixGoFiles bctx path pkg).CgoFiles = pkg.CgoFiles := by
  unfold fixGoFiles
  split_ifs <;> rfl

/-- C15 (as stated, refuted): the resolver finds a package with a cgo file whose import
path ends in `/vendor/github.com/gopherjs/gopherjs/js`; `importWithSrcDir` returns the
error of the vendoring check, which comes first, and not an `ImportCError`. -/
theorem vendored_js_error_before_cgo_error :
    (match vendoredJsWorld.bctxImport (importBuildContext vendoredJsWorld "x" "" []) "x" "" with
      | .ok pkg => pkg.CgoFiles
      | _ => []) = ["c.go"]
      ∧ importWithSrcDir vendoredJsWorld NewSession "x" "" "" [] =
        .error (.message "vendoring github.com/gopherjs/gopherjs/js package is not supported, see https://github.com/gopherjs/gopherjs/issues/415") := by
  decide

/-- C15 (amended): when the resolution is not cancelled and the resolved package has a
cgo file and an import path that does not end in `/vendor/github.com/gopherjs/gopherjs/js`,
`importWithSrcDir` returns no package record and the `ImportCError` of the requested path,
whose message is the path followed by `: importing "C" is not supported by GopherJS`;
`Import` does so too, and `BuildImportPath` returns that error without a call of
`BuildPackage` and leaves the session as it is. -/
theorem cgo_package_rejected (w : World) (s : Session) (path srcDir installSuffix : String)
    (buildTags : List String) (pkg : Package) (hcancel : w.cancelled s = false)
    (hres : w.bctxImport (importBuildContext w path installSuffix buildTags) path srcDir
      = .ok pkg)
    (hcgo : pkg.CgoFiles ≠ [])
    (hjs : HasSuffix pkg.ImportPath "/vendor/github.com/gopherjs/gopherjs/js" = false) :
    importWithSrcDir w s path srcDir installSuffix buildTags = .error (.importC path)
      ∧ (BuildError.importC path).Error
          = path ++ ": importing \"C\" is not supported by GopherJS"
      ∧ (srcDir = "" → Import w s path installSuffix buildTags = .error (.importC path))
      ∧ (srcDir = "" → installSuffix = InstallSuffix w → buildTags = w.options.BuildTags →
          ∀ fuel, BuildImportPath w fuel path s = some (s, .error (.importC path))) := by
  have himp : importWithSrcDir w s path srcDir installSuffix buildTags
      = .error (.importC path) := by
    unfold importWithSrcDir
    simp only [hcancel, hres, hjs, Bool.false_eq_true, if_false, fixGoFiles_CgoFiles]
    have hlen : pkg.CgoFiles.length > 0 := by
      cases hc : pkg.CgoFiles with
      | nil => exact absurd hc hcgo
      | cons x xs => simp
    rw [if_pos hlen]
  refine ⟨himp, rfl, ?_, ?_⟩
  · intro hsrc
    subst hsrc
    exact himp
  · intro hsrc hsuffix htags fuel
    subst hsrc hsuffix htags
    unfold BuildImportPath buildImportPathWithSrcDir buildImportPathWithSrcDirVia
    rw [himp]

theorem cgo_package_rejected_witness :
    importWithSrcDir cgoWorld NewSession "net" "" "" [] = .error (.importC "net")
      ∧ (BuildError.importC "net").Error = "net: importing \"C\" is not supported by GopherJS"
      ∧ BuildImportPath cgoWorld 0 "net" NewSession = some (NewSession, .error (.importC "net")) :=
  have h := cgo_package_rejected cgoWorld NewSession "net" "" "" []
    { (packageOf "net" []).toPackage with CgoFiles := ["c.go"] } rfl rfl (by decide) (by decide)
  ⟨h.1, h.2.1, h.2.2.2 rfl rfl rfl 0⟩

/-! ## Claim C16: building a directory that is not a command -/

/-- C16 (as stated, refuted): the directory holds the package `lib`, which builds;
`BuildDir` returns `nil, nil`: no command output, and no error. -/
theorem buildDir_library_no_error :
    BuildDir libraryWorld lineRenderer 2 "gopath/src/lib" "lib" "" NewSession
      = some (builtLib, .ok none) := by
  rfl

/-- C16 (amended): when the package of the directory builds and its name is not `main`,
`BuildDir` returns neither a command output nor an error, in the session that
`BuildPackage` left, in which the archive of the package is cached. -/
theorem buildDir_not_main (w : World) (r : Renderer) (fuel : Nat)
    (packagePath importPath pkgObj : String) (s s1 : Session) (buildPkg : Package)
    (jsFiles : List String) (archive : Archive) (hcancel : w.cancelled s = false)
    (hres : w.bctxImport (NewBuildContext (InstallSuffix w) w.options.BuildTags) "."
      packagePath = .ok buildPkg)
    (hjs : jsFilesFromDir w buildPkg.Dir = .ok jsFiles)
    (hbuild : BuildPackage w fuel { toPackage := buildPkg, JSFiles := jsFiles, IsTest := false }
      s = some (s1, .ok archive))
    (hname : buildPkg.Name ≠ "main") :
    BuildDir w r fuel packagePath importPath pkgObj s = some (s1, .ok none)
      ∧ s1.Archives (effectivePath w
          { toPackage := buildPkg, JSFiles := jsFiles, IsTest := false }) = some archive := by
  refine ⟨?_, BuildPackage_ok_cached w fuel _ s s1 archive hbuild⟩
  unfold BuildDir
  simp only [hcancel, hres, hjs, hbuild, Bool.false_eq_true, if_false]
  have hcmd : PackageData.IsCommand
      { toPackage := buildPkg, JSFiles := jsFiles, IsTest := false } = false := by
    unfold PackageData.IsCommand
    simpa using hname
  simp [hcmd]

theorem buildDir_not_main_witness :
    BuildDir libraryWorld lineRenderer 2 "gopath/src/lib" "lib" "" NewSession
        = some (builtLib, .ok none)
      ∧ builtLib.Archives "lib" = some (archiveOf "lib" []) :=
  buildDir_not_main libraryWorld lineRenderer 2 "gopath/src/lib" "lib" "" NewSession builtLib
    { (packageOf "lib" []).toPackage with Dir := "gopath/src/lib" } [] (archiveOf "lib" [])
    rfl rfl rfl rfl (by decide)

/-! ## Claim C18: the entries of the loader -/

theorem hexDigit_hexDigitChar : ∀ n, n < 16 → hexDigit (hexDigitChar n) = some n := by
  decide

theorem hexDigitChar_lower : ∀ n, n < 16 → hexDigitChar n ∈ "0123456789abcdef".data := by
  decide

theorem hexEncodeL_length (b : List Char) : (hexEncodeL b).length = 2 * b.length := by
  induction b with
  | nil => rfl
  | cons c rest ih => simp only [hexEncodeL, List.length_cons, ih]; omega

theorem hexEncodeL_lower (b : List Char) :
    ∀ c ∈ hexEncodeL b, c ∈ "0123456789abcdef".data := by
  induction b with
  | nil => intro c hc; simp [hexEncodeL] at hc
  | cons x rest ih =>
    intro c hc
    simp only [hexEncodeL, List.mem_cons] at hc
    rcases hc with hc | hc | hc
    · rw [hc]; exact hexDigitChar_lower _ (Nat.mod_lt _ (by decide))
    · rw [hc]; exact hexDigitChar_lower _ (Nat.mod_lt _ (by decide))
    · exact ih c hc

theorem hexDecodeL_hexEncodeL (b : List Char) (hb : ∀ c ∈ b, c.toNat < 256) :
    hexDecodeL (hexEncodeL b) = some b := by
  induction b with
  | nil => rfl
  | cons x rest ih =>
    have hx : x.toNat < 256 := hb x (List.mem_cons_self _ _)
    have hrest := ih (fun c hc => hb c (List.mem_cons_of_mem _ hc))
    simp only [hexEncodeL, hexDecodeL,
      hexDigit_hexDigitChar _ (Nat.mod_lt (x.toNat / 16) (by decide : 0 < 16)),
      hexDigit_hexDigitChar _ (Nat.mod_lt x.toNat (by decide : 0 < 16)), hrest]
    have hsum : x.toNat / 16 % 16 * 16 + x.toNat % 16 = x.toNat := by omega
    rw [hsum, Char.ofNat_toNat]

theorem foldl_append_singleton {α β : Type} (f : α → β) (xs : List α) (acc : List β) :
    xs.foldl (fun pkgs po => pkgs ++ [f po]) acc = acc ++ xs.map f := by
  induction xs generalizing acc with
  | nil => simp
  | cons x rest ih => simp [List.foldl_cons, ih]

theorem loaderEntries_eq (l : Loader) (output : CommandOutput) (min : Bool) :
    loaderEntries l output min
      = { Path := "prelude", Hash := l.Prelude min }
        :: output.Packages.map (fun po => { Path := po.Path, Hash := hexEncode po.Hash }) := by
  unfold loaderEntries
  rw [foldl_append_singleton (fun po : PackageOutput =>
    ({ Path := po.Path, Hash := hexEncode po.Hash } : PkgJson))]
  rfl

/-- C18: the list of entries that `genMain` marshals has one more entry than the program
has packages; its first entry has the path `prelude` and the prelude hash of the
minification mode; the entry after the first `i` package entries has the path of the
package at index `i` and the lower-case hex encoding of its hash (two digits per byte,
which `hex.DecodeString` reads back); the list is a function of the paths and hashes of
the packages and of the mode only; and it is this list that is marshalled into the
loader. -/
theorem loader_entries_after_prelude (l : Loader) (output : CommandOutput) (min : Bool) :
    (loaderEntries l output min).length = output.Packages.length + 1
      ∧ (loaderEntries l output min)[0]? = some { Path := "prelude", Hash := l.Prelude min }
      ∧ (∀ i po, output.Packages[i]? = some po →
          (loaderEntries l output min)[i + 1]?
            = some { Path := po.Path, Hash := hexEncode po.Hash })
      ∧ (∀ bytes : String, (hexEncode (some bytes)).length = 2 * bytes.length
          ∧ (∀ c ∈ (hexEncode (some bytes)).data, c ∈ "0123456789abcdef".data)
          ∧ ((∀ c ∈ bytes.data, c.toNat < 256) →
              hexDecodeL (hexEncode (some bytes)).data = some bytes.data))
      ∧ (∀ output2 : CommandOutput,
          output2.Packages.map (fun po => (po.Path, po.Hash))
              = output.Packages.map (fun po => (po.Path, po.Hash)) →
            loaderEntries l output2 min = loaderEntries l output min)
      ∧ (∀ pkgJson buf, l.Marshal (loaderEntries l output min) = .ok pkgJson →
          l.Execute min { PkgHost := l.PkgHost, Path := output.Path, Json := pkgJson }
              = .ok buf →
            ∃ stored, genMain l output min = .ok (l.sha1 buf, stored)
              ∧ stored.Contents = buf) := by
  rw [loaderEntries_eq]
  refine ⟨by simp, by simp, ?_, ?_, ?_, ?_⟩
  · intro i po hpo
    simp [List.getElem?_map, hpo]
  · intro bytes
    refine ⟨?_, ?_, ?_⟩
    · show (hexEncodeL bytes.data).length = 2 * bytes.data.length
      exact hexEncodeL_length _
    · exact hexEncodeL_lower _
    · exact hexDecodeL_hexEncodeL _
  · intro output2 h
    rw [loaderEntries_eq]
    congr 1
    have h1 := congrArg (List.map (fun p : String × Option String =>
      ({ Path := p.1, Hash := hexEncode p.2 } : PkgJson))) h
    simpa [List.map_map, Function.comp_def] using h1
  · intro pkgJson buf hm he
    unfold genMain
    rw [loaderEntries_eq, hm]
    dsimp only
    rw [he]
    exact ⟨_, rfl, rfl⟩

/-! ## Claim C19: the index and the messages of an update -/

theorem updateCallback_unlisted (u : Updater) (archive : Archive) (st : UpdateState)
    (p : String) (hp : p = "main" ∨ u.source p = true) (h : Unlisted st p) :
    Unlisted (updateCallback u archive st).1 p := by
  unfold updateCallback
  by_cases hdone : st.done archive.ImportPath = true
  · rw [if_pos hdone]; exact h
  rw [if_neg hdone]
  dsimp only
  by_cases hmain : archive.ImportPath = "main"
  · rw [if_pos hmain]; exact h
  rw [if_neg hmain]
  by_cases hsrc : u.source archive.ImportPath = true
  · rw [if_pos hsrc]; exact h
  rw [if_neg hsrc]
  have hne : p ≠ archive.ImportPath := by
    rintro rfl
    rcases hp with hp | hp
    · exact hmain hp
    · exact hsrc hp
  have hne2 : archive.ImportPath ≠ p := fun e => hne e.symm
  cases hcode : GetPackageCode u.renderer archive false true with
  | error e => exact h
  | panic m => exact h
  | ok res =>
    obtain ⟨contents, hashBytes⟩ := res
    dsimp only
    split
    · exact ⟨by simp only [if_neg hne]; exact h.1, h.2⟩
    · split
      · refine ⟨by simp only [if_neg hne]; exact h.1, ?_⟩
        intro m hm
        rcases List.mem_append.1 hm with hm | hm
        · exact h.2 m hm
        · rw [List.mem_singleton.1 hm]; exact hne2
      · cases u.WriteArchive archive with
        | error e => exact ⟨by simp only [if_neg hne]; exact h.1, h.2⟩
        | ok buf =>
          refine ⟨by simp only [if_neg hne]; exact h.1, ?_⟩
          intro m hm
          rcases List.mem_append.1 hm with hm | hm
          · exact h.2 m hm
          · rw [List.mem_singleton.1 hm]; exact hne2

theorem visits_unlisted (u : Updater) (archives : List Archive) (st : UpdateState)
    (p : String) (hp : p = "main" ∨ u.source p = true) (h : Unlisted st p) :
    Unlisted (visits u archives st).1 p := by
  induction archives generalizing st with
  | nil => exact h
  | cons archive rest ih =>
    have hstep := updateCallback_unlisted u archive st p hp h
    unfold visits
    split
    · rename_i st1 heq
      rw [heq] at hstep
      exact ih st1 hstep
    · rename_i st1 e heq
      rw [heq] at hstep
      exact hstep
    · rename_i st1 m heq
      rw [heq] at hstep
      exact hstep

/-- C19: when the callback of an update visits an archive for the first time, the import
path of the archive is neither `main` nor in the source set, and rendering it
(not minified, with the initializer) gives the hash `hashBytes`: the index then holds,
for the import path, the hex of that hash, with `Unchanged` true exactly when the cache
of the client holds that hex for the import path; when it does, no message is sent and
the callback returns no error, and when it does not, the only message the callback can
add is one Archive message for that import path. And after any run of the callback
from the initial state, a path that is `main` or in the source set has no entry in the
index and no Archive message. -/
theorem update_index_and_messages (u : Updater) (archive : Archive) (st : UpdateState)
    (contents hashBytes : String) (hfirst : st.done archive.ImportPath = false)
    (hmain : archive.ImportPath ≠ "main") (hsrc : u.source archive.ImportPath = false)
    (hcode : GetPackageCode u.renderer archive false true = .ok (contents, hashBytes)) :
    (∃ unchanged : Bool,
        (updateCallback u archive st).1.index archive.ImportPath
            = some { Hash := hexEncode (some hashBytes), Unchanged := unchanged }
          ∧ (unchanged = true
              ↔ u.Cache archive.ImportPath = some (hexEncode (some hashBytes)))
          ∧ (unchanged = true →
              (updateCallback u archive st).1.sent = st.sent
                ∧ (updateCallback u archive st).2 = .ok ())
          ∧ (unchanged = false →
              (updateCallback u archive st).1.sent = st.sent
                ∨ ∃ m, m.Path = archive.ImportPath
                    ∧ (updateCallback u archive st).1.sent = st.sent ++ [m]))
      ∧ hashBytes = u.renderer.sha1 contents
      ∧ (∀ archives p, (p = "main" ∨ u.source p = true) →
          Unlisted (visits u archives UpdateState.initial).1 p) := by
  refine ⟨?_, ?_, ?_⟩
  · refine ⟨(match u.Cache archive.ImportPath with
        | some cached => cached == hexEncode (some hashBytes)
        | none => false), ?_, ?_, ?_, ?_⟩
    · unfold updateCallback
      simp only [hfirst, hmain, hsrc, hcode, Bool.false_eq_true, if_false]
      split
      · simp
      · split
        · simp
        · cases u.WriteArchive archive <;> simp
    · cases hc : u.Cache archive.ImportPath with
      | none => simp
      | some cached => simp
    · intro hun
      unfold updateCallback
      simp only [hfirst, hmain, hsrc, hcode, Bool.false_eq_true, if_false]
      rw [if_pos hun]
      exact ⟨rfl, rfl⟩
    · intro hun
      unfold updateCallback
      simp only [hfirst, hmain, hsrc, hcode, Bool.false_eq_true, if_false]
      rw [if_neg (by rw [hun]; exact Bool.false_ne_true)]
      split
      · exact Or.inr ⟨_, rfl, rfl⟩
      · cases u.WriteArchive archive with
        | error e => exact Or.inl rfl
        | ok buf => exact Or.inr ⟨_, rfl, rfl⟩
  · obtain ⟨_, _, _, hhash⟩ := GetPackageCode_ok _ _ _ _ _ _ hcode
    exact hhash
  · intro archives p hp
    exact visits_unlisted u archives _ p hp ⟨rfl, fun m hm => by cases hm⟩

theorem update_index_and_messages_witness :
    (∃ unchanged : Bool,
        (updateCallback fmtUpdater (archiveOf "fmt" []) UpdateState.initial).1.index "fmt"
            = some { Hash := hexEncode (some ("sha1:"
                ++ "$load[\"fmt\"] = function () \x7b\ncode of fmt\n\x7d;")),
                     Unchanged := unchanged }
          ∧ (unchanged = true
              ↔ fmtUpdater.Cache "fmt" = some (hexEncode (some ("sha1:"
                ++ "$load[\"fmt\"] = function () \x7b\ncode of fmt\n\x7d;"))))
          ∧ (unchanged = true →
              (updateCallback fmtUpdater (archiveOf "fmt" []) UpdateState.initial).1.sent = []
                ∧ (updateCallback fmtUpdater (archiveOf "fmt" []) UpdateState.initial).2
                    = .ok ())
          ∧ (unchanged = false →
              (updateCallback fmtUpdater (archiveOf "fmt" []) UpdateState.initial).1.sent = []
                ∨ ∃ m, m.Path = "fmt"
                    ∧ (updateCallback fmtUpdater (archiveOf "fmt" []) UpdateState.initial).1.sent
                        = [] ++ [m]))
      ∧ "sha1:" ++ "$load[\"fmt\"] = function () \x7b\ncode of fmt\n\x7d;"
          = lineRenderer.sha1 "$load[\"fmt\"] = function () \x7b\ncode of fmt\n\x7d;"
      ∧ (∀ archives p, (p = "main" ∨ fmtUpdater.source p = true) →
          Unlisted (visits fmtUpdater archives UpdateState.initial).1 p) :=
  update_index_and_messages fmtUpdater (archiveOf "fmt" []) UpdateState.initial
    "$load[\"fmt\"] = function () \x7b\ncode of fmt\n\x7d;"
    ("sha1:" ++ "$load[\"fmt\"] = function () \x7b\ncode of fmt\n\x7d;")
    rfl (by decide) rfl rfl

/-! ## Claim C13: the names that an overlay replaces -/

theorem declaredNames_mem (d : Decl) (names : List String) (n : String)
    (h : declaredNames d = some names) : n ∈ names ↔ declares d n = true := by
  cases d with
  | funcDecl recv name =>
    simp only [declaredNames] at h
    simp only [declares]
    cases hq : funcName recv name with
    | none => rw [hq] at h; cases h
    | some q =>
      rw [hq] at h
      simp only [Option.map_some', Option.some.injEq] at h
      subst h
      simp only [List.mem_singleton, decide_eq_true_eq, Option.some.injEq]
      exact eq_comm
  | typeDecl ns =>
    simp only [declaredNames] at h
    cases h
    simp [declares]
  | valueDecl c specs =>
    simp only [declaredNames] at h
    cases h
    simp [declares]
  | otherDecl =>
    simp only [declaredNames] at h
    cases h
    simp [declares]

theorem collectNames_mem (decls : List Decl) (replaced replaced1 : List String)
    (h : collectNames decls replaced = some replaced1) (n : String) :
    n ∈ replaced1 ↔ n ∈ replaced ∨ decls.any (fun d => declares d n) = true := by
  induction decls generalizing replaced with
  | nil =>
    unfold collectNames at h
    cases h
    simp
  | cons d rest ih =>
    unfold collectNames at h
    cases hd : declaredNames d with
    | none => rw [hd] at h; cases h
    | some names =>
      rw [hd] at h
      rw [ih _ h, List.mem_append, declaredNames_mem d names n hd, List.any_cons,
        Bool.or_eq_true, or_assoc]

theorem overlayLoop_spec (src : Sources) (nativesDir pkgDir : String) (names : List String)
    (files files1 : List AstFile) (replaced replaced1 : List String)
    (h : overlayLoop src nativesDir pkgDir names files replaced = .ok (files1, replaced1)) :
    ∃ new, files1 = files ++ new
      ∧ List.Forall₂ (OverlayFile src nativesDir pkgDir) names new
      ∧ ∀ n, n ∈ replaced1 ↔ n ∈ replaced ∨ overlayDeclares new n = true := by
  induction names generalizing files replaced with
  | nil =>
    unfold overlayLoop at h
    cases h
    exact ⟨[], by simp, List.Forall₂.nil, fun n => by simp [overlayDeclares]⟩
  | cons name rest ih =>
    unfold overlayLoop at h
    dsimp only at h
    cases ho : src.nativesOpen (pathJoin nativesDir name) with
    | error e => rw [ho] at h; cases h
    | ok r =>
      rw [ho] at h
      dsimp only at h
      cases hp : src.ParseFile (pathJoin pkgDir ("__" ++ name)) r with
      | error e => rw [hp] at h; cases e <;> cases h
      | ok file =>
        rw [hp] at h
        dsimp only at h
        cases hc : collectNames file.Decls replaced with
        | none => rw [hc] at h; cases h
        | some replaced2 =>
          rw [hc] at h
          dsimp only at h
          obtain ⟨new, hnew, hall, hmem⟩ := ih _ _ h
          refine ⟨file :: new, by rw [hnew]; simp, List.Forall₂.cons ⟨r, ho, hp⟩ hall, ?_⟩
          intro n
          rw [hmem n, collectNames_mem _ _ _ hc n]
          simp only [overlayDeclares, List.any_cons, Bool.or_eq_true, or_assoc]

theorem funcName_recv_ne_init (t : RecvExpr) (recv : List RecvExpr) (name q : String)
    (h : funcName (t :: recv) name = some q) : q ≠ "init" := by
  unfold funcName at h
  dsimp only at h
  split at h
  · rename_i n _
    simp only [Option.some.injEq] at h
    intro hq
    rw [hq] at h
    have hmem : '.' ∈ (n ++ "." ++ name).data := by
      simp [String.data_append]
    rw [h] at hmem
    revert hmem
    decide
  · cases h

theorem redactDecl_exact (overlay : List AstFile) (replaced : List String)
    (hrep : ∀ n, replaced.contains n = true ↔ (overlayDeclares overlay n = true ∧ n ≠ "init"))
    (d d1 : Decl) (h : redactDecl replaced d = some d1) :
    d1 = redactionExceptInit overlay d := by
  have hname : ∀ n, redactName replaced n = blankUnlessInit overlay n := by
    intro n
    unfold redactName blankUnlessInit
    by_cases hc : replaced.contains n = true
    · rw [if_pos hc, if_pos ((hrep n).1 hc)]
    · rw [if_neg hc, if_neg (fun ho => hc ((hrep n).2 ho))]
  cases d with
  | funcDecl recv name =>
    simp only [redactDecl] at h
    simp only [redactionExceptInit]
    cases hq : funcName recv name with
    | none => rw [hq] at h; cases h
    | some q =>
      rw [hq] at h
      simp only [Option.some.injEq] at h
      subst h
      dsimp only
      by_cases hc : replaced.contains q = true
      · rw [if_pos hc, if_pos ((hrep q).1 hc)]
      · rw [if_neg hc, if_neg (fun ho => hc ((hrep q).2 ho))]
  | typeDecl names =>
    simp only [redactDecl] at h
    cases h
    simp only [redactionExceptInit]
    congr 1
    exact List.map_congr_left (fun n _ => hname n)
  | valueDecl c specs =>
    simp only [redactDecl] at h
    cases h
    simp only [redactionExceptInit]
    congr 1
    exact List.map_congr_left (fun names _ => List.map_congr_left (fun n _ => hname n))
  | otherDecl =>
    simp only [redactDecl] at h
    cases h
    rfl

theorem redactDecls_exact (overlay : List AstFile) (replaced : List String)
    (hrep : ∀ n, replaced.contains n = true ↔ (overlayDeclares overlay n = true ∧ n ≠ "init"))
    (decls decls1 : List Decl) (h : redactDecls replaced decls = some decls1) :
    decls1 = decls.map (redactionExceptInit overlay) := by
  induction decls generalizing decls1 with
  | nil =>
    unfold redactDecls at h
    cases h
    rfl
  | cons d rest ih =>
    unfold redactDecls at h
    cases hd : redactDecl replaced d with
    | none => rw [hd] at h; cases h
    | some d1 =>
      rw [hd] at h
      dsimp only at h
      cases hr : redactDecls replaced rest with
      | none => rw [hr] at h; cases h
      | some rest1 =>
        rw [hr] at h
        cases h
        rw [List.map_cons, ← redactDecl_exact overlay replaced hrep d d1 hd, ← ih rest1 hr]

/-- For a declaration that names no type, variable or constant `init`, the redaction of
the code is the described one. -/
theorem redactionExceptInit_described (overlay : List AstFile) (d : Decl)
    (hinit : noInitValue d = true) :
    redactionExceptInit overlay d = describedRedaction overlay d := by
  have hname : ∀ n, n ≠ "init" → blankUnlessInit overlay n = blankIfDeclared overlay n := by
    intro n hn
    unfold blankUnlessInit blankIfDeclared
    by_cases hc : overlayDeclares overlay n = true
    · rw [if_pos ⟨hc, hn⟩, if_pos hc]
    · rw [if_neg (fun ho => hc ho.1), if_neg hc]
  cases d with
  | funcDecl recv name =>
    simp only [redactionExceptInit, describedRedaction]
    cases hq : funcName recv name with
    | none => rfl
    | some q =>
      dsimp only
      by_cases hplain : recv.isEmpty = true ∧ name = "init"
      · rw [if_pos hplain]
        have hrecv : recv = [] := List.isEmpty_iff.1 hplain.1
        subst hrecv
        have hqn : q = name := by
          unfold funcName at hq
          simp only [Option.some.injEq] at hq
          exact hq.symm
        rw [if_neg (fun ho => ho.2 (hqn.trans hplain.2))]
      · rw [if_neg hplain]
        have hqi : q ≠ "init" := by
          cases recv with
          | nil =>
            unfold funcName at hq
            simp only [Option.some.injEq] at hq
            intro hq2
            exact hplain ⟨rfl, hq.trans hq2⟩
          | cons t rest => exact funcName_recv_ne_init t rest name q hq
        by_cases hc : overlayDeclares overlay q = true
        · rw [if_pos ⟨hc, hqi⟩, if_pos hc]
        · rw [if_neg (fun ho => hc ho.1), if_neg hc]
  | typeDecl names =>
    simp only [redactionExceptInit, describedRedaction]
    congr 1
    apply List.map_congr_left
    intro n hn
    apply hname
    rintro rfl
    simp [noInitValue] at hinit
    exact hinit hn
  | valueDecl c specs =>
    simp only [redactionExceptInit, describedRedaction]
    congr 1
    apply List.map_congr_left
    intro names hnames
    apply List.map_congr_left
    intro n hn
    apply hname
    rintro rfl
    simp [noInitValue] at hinit
    exact hinit names hnames hn
  | otherDecl => rfl

theorem rewriteImports_Decls (src : Sources) (pkg : Package) (file : AstFile) :
    (rewriteImports src pkg file).Decls = file.Decls
      ∧ (rewriteImports src pkg file).Name = file.Name := by
  unfold rewriteImports
  split <;> exact ⟨rfl, rfl⟩

theorem failureEntries_ne_nil (failure : ParseFailure) : failureEntries failure ≠ [] := by
  cases failure with
  | list first rest =>
    unfold failureEntries truncateErrors
    dsimp only
    split
    · cases rest with
      | nil => simp
      | cons x xs => simp
    · simp
  | other e => simp [failureEntries]

theorem originalsLoop_files (src : Sources) (pkg : Package) (replaced : List String)
    (names : List String) (files : List AstFile) (errList : List ErrEntry)
    (result : List AstFile)
    (h : originalsLoop src pkg replaced names files errList = .files result) :
    errList = [] ∧ ∃ outs, result = files ++ outs
      ∧ List.Forall₂ (fun name out => ∃ parsed decls,
          openAndParse src pkg name = .ok (.ok parsed)
            ∧ redactDecls replaced parsed.Decls = some decls
            ∧ out = { rewriteImports src pkg parsed with Decls := decls }) names outs := by
  induction names generalizing files errList with
  | nil =>
    unfold originalsLoop at h
    by_cases he : errList = []
    · rw [if_pos he] at h
      cases h
      exact ⟨he, [], by simp, List.Forall₂.nil⟩
    · rw [if_neg he] at h
      cases h
  | cons name rest ih =>
    unfold originalsLoop at h
    cases ho : openAndParse src pkg name with
    | panic m => rw [ho] at h; cases h
    | error e => rw [ho] at h; cases h
    | ok res =>
      cases res with
      | error failure =>
        rw [ho] at h
        dsimp only at h
        have := (ih _ _ h).1
        exact absurd (List.append_eq_nil.1 this).2 (failureEntries_ne_nil failure)
      | ok parsed =>
        rw [ho] at h
        dsimp only at h
        rw [(rewriteImports_Decls src pkg parsed).1] at h
        cases hr : redactDecls replaced parsed.Decls with
        | none => rw [hr] at h; cases h
        | some decls =>
          rw [hr] at h
          dsimp only at h
          obtain ⟨herr, outs, hres, hall⟩ := ih _ _ h
          refine ⟨herr, _ :: outs, by rw [hres]; simp, List.Forall₂.cons ⟨parsed, decls, ho, hr, rfl⟩ hall⟩

/-- C13 (as stated, refuted): the overlay of the package declares the functions `init`
and `Sleep`, and an original file declares the variables `init` and `Sleep`. After
`parseAndAugment` the variable `Sleep` has the identifier `_` and the variable `init`
keeps its name, although the overlay declares that name and the described redaction
gives `_` for it. -/
theorem original_variable_init_kept :
    parseAndAugment oddSources (timePackage ["sleep.go"]) false
        = .files [oddOverlay,
            { Name := "goroot/src/time/sleep.go"
              Decls := [.valueDecl false [["init", "_"]]] }]
      ∧ overlayDeclares [oddOverlay] "init" = true
      ∧ describedRedaction [oddOverlay] (.valueDecl false [["init", "Sleep"]])
        = .valueDecl false [["_", "_"]] := by
  decide

/-- C13 (amended): when `parseAndAugment` returns the files of a package, they are the
overlay files, as parsed, followed by one file for each original source file, in order,
with the name of the parsed file; in it, every top-level function (named by receiver
type, dot, name when it has a receiver), type, variable and constant whose name some
overlay file declares at top level and is not `init` has the identifier `_`, and every
other declaration keeps its name: nothing named `init` is redacted, a plain function in
particular. For a declaration that names no type, variable or constant `init`, this is
the described redaction. -/
theorem overlay_names_redacted (src : Sources) (pkg : Package) (isTest : Bool)
    (result : List AstFile) (hfiles : parseAndAugment src pkg isTest = .files result) :
    ∃ overlay originals, result = overlay ++ originals
      ∧ (match src.nativesImport (overlayImportPath pkg) with
          | none => overlay = []
          | some nativesPkg =>
            List.Forall₂ (OverlayFile src nativesPkg.Dir pkg.Dir)
              (overlayNames nativesPkg isTest (HasSuffix pkg.ImportPath "_test")) overlay)
      ∧ List.Forall₂ (fun name out => ∃ parsed,
          openAndParse src pkg name = .ok (.ok parsed)
            ∧ out.Name = parsed.Name
            ∧ out.Decls = parsed.Decls.map (redactionExceptInit overlay)) pkg.GoFiles originals
      ∧ (∀ d, noInitValue d = true →
          redactionExceptInit overlay d = describedRedaction overlay d)
      ∧ redactionExceptInit overlay (.funcDecl [] "init") = .funcDecl [] "init"
      ∧ (∀ isConst, redactionExceptInit overlay (.valueDecl isConst [["init"]])
          = .valueDecl isConst [["init"]])
      ∧ redactionExceptInit overlay (.typeDecl ["init"]) = .typeDecl ["init"] := by
  unfold parseAndAugment at hfiles
  cases hov : overlayPhase src pkg isTest with
  | error m => rw [hov] at hfiles; cases hfiles
  | ok res =>
    obtain ⟨overlay, replaced0⟩ := res
    rw [hov] at hfiles
    dsimp only at hfiles
    obtain ⟨_, originals, hres, hall⟩ := originalsLoop_files _ _ _ _ _ _ _ hfiles
    have hphase : (match src.nativesImport (overlayImportPath pkg) with
          | none => overlay = []
          | some nativesPkg =>
            List.Forall₂ (OverlayFile src nativesPkg.Dir pkg.Dir)
              (overlayNames nativesPkg isTest (HasSuffix pkg.ImportPath "_test")) overlay)
        ∧ ∀ n, n ∈ replaced0 ↔ overlayDeclares overlay n = true := by
      unfold overlayPhase at hov
      dsimp only at hov
      cases hn : src.nativesImport (overlayImportPath pkg) with
      | none =>
        rw [hn] at hov
        cases hov
        exact ⟨rfl, fun n => by simp [overlayDeclares]⟩
      | some nativesPkg =>
        rw [hn] at hov
        obtain ⟨new, hnew, hf, hmem⟩ := overlayLoop_spec _ _ _ _ _ _ _ _ hov
        simp only [List.nil_append] at hnew
        subst hnew
        exact ⟨hf, fun n => by rw [hmem n]; simp⟩
    have hrep : ∀ n, (replaced0.filter (fun n => n ≠ "init")).contains n = true
        ↔ (overlayDeclares overlay n = true ∧ n ≠ "init") := by
      intro n
      simp [List.mem_filter, hphase.2 n]
    refine ⟨overlay, originals, hres, hphase.1, ?_,
      fun d hd => redactionExceptInit_described overlay d hd, ?_, ?_, ?_⟩
    · have hmono : ∀ {names : List String} {outs : List AstFile},
          List.Forall₂ (fun name out => ∃ parsed decls,
            openAndParse src pkg name = .ok (.ok parsed)
              ∧ redactDecls (replaced0.filter (fun n => n ≠ "init")) parsed.Decls = some decls
              ∧ out = { rewriteImports src pkg parsed with Decls := decls }) names outs →
          List.Forall₂ (fun name out => ∃ parsed,
            openAndParse src pkg name = .ok (.ok parsed)
              ∧ out.Name = parsed.Name
              ∧ out.Decls = parsed.Decls.map (redactionExceptInit overlay)) names outs := by
        intro names outs hf
        induction hf with
        | nil => exact List.Forall₂.nil
        | cons hhead _ ih =>
          obtain ⟨parsed, decls, hop, hred, hout⟩ := hhead
          refine List.Forall₂.cons ⟨parsed, hop, ?_, ?_⟩ ih
          · rw [hout]
            exact (rewriteImports_Decls src pkg parsed).2
          · rw [hout]
            exact redactDecls_exact overlay _ hrep _ _ hred
      exact hmono hall
    · simp [redactionExceptInit, funcName]
    · intro isConst
      simp [redactionExceptInit, blankUnlessInit]
    · simp [redactionExceptInit, blankUnlessInit]

theorem overlay_names_redacted_witness :
    parseAndAugment timeSources (timePackage ["sleep.go"]) false
        = .files [timeOverlay, timeSleep]
      ∧ ∃ overlay originals, [timeOverlay, timeSleep] = overlay ++ originals
        ∧ (match timeSources.nativesImport (overlayImportPath (timePackage ["sleep.go"])) with
            | none => overlay = []
            | some nativesPkg =>
              List.Forall₂
                (OverlayFile timeSources nativesPkg.Dir (timePackage ["sleep.go"]).Dir)
                (overlayNames nativesPkg false
                  (HasSuffix (timePackage ["sleep.go"]).ImportPath "_test")) overlay)
        ∧ List.Forall₂ (fun name out => ∃ parsed,
            openAndParse timeSources (timePackage ["sleep.go"]) name = .ok (.ok parsed)
              ∧ out.Name = parsed.Name
              ∧ out.Decls = parsed.Decls.map (redactionExceptInit overlay))
            (timePackage ["sleep.go"]).GoFiles originals
        ∧ (∀ d, noInitValue d = true →
            redactionExceptInit overlay d = describedRedaction overlay d)
        ∧ redactionExceptInit overlay (.funcDecl [] "init") = .funcDecl [] "init"
        ∧ (∀ isConst, redactionExceptInit overlay (.valueDecl isConst [["init"]])
            = .valueDecl isConst [["init"]])
        ∧ redactionExceptInit overlay (.typeDecl ["init"]) = .typeDecl ["init"] :=
  ⟨by decide, overlay_names_redacted timeSources (timePackage ["sleep.go"]) false
    [timeOverlay, timeSleep] (by decide)⟩

/-! ## Claim C14: the error list of a package -/

theorem redactDecls_isSome (replaced : List String) (decls : List Decl)
    (h : decls.all (fun d => (declaredNames d).isSome) = true) :
    ∃ decls1, redactDecls replaced decls = some decls1 := by
  induction decls with
  | nil => exact ⟨[], rfl⟩
  | cons d rest ih =>
    rw [List.all_cons, Bool.and_eq_true] at h
    obtain ⟨rest1, hrest⟩ := ih h.2
    have hd : ∃ d1, redactDecl replaced d = some d1 := by
      cases d with
      | funcDecl recv name =>
        have h1 := h.1
        simp only [declaredNames] at h1
        simp only [redactDecl]
        cases hq : funcName recv name with
        | none => rw [hq] at h1; cases h1
        | some q => exact ⟨_, rfl⟩
      | typeDecl names => exact ⟨_, rfl⟩
      | valueDecl c specs => exact ⟨_, rfl⟩
      | otherDecl => exact ⟨_, rfl⟩
    obtain ⟨d1, hd1⟩ := hd
    refine ⟨d1 :: rest1, ?_⟩
    unfold redactDecls
    rw [hd1]
    dsimp only
    rw [hrest]

theorem originalsLoop_passes (src : Sources) (pkg : Package) (replaced : List String)
    (names : List String) (files : List AstFile) (errList : List ErrEntry)
    (h : names.all (passes src pkg) = true) :
    ∃ fs, originalsLoop src pkg replaced names files errList
      = if errList ++ (names.map (contribution src pkg)).flatten = [] then .files fs
        else .errList (errList ++ (names.map (contribution src pkg)).flatten) := by
  induction names generalizing files errList with
  | nil =>
    refine ⟨files, ?_⟩
    unfold originalsLoop
    simp
  | cons name rest ih =>
    rw [List.all_cons, Bool.and_eq_true] at h
    have hp := h.1
    unfold passes at hp
    unfold originalsLoop
    have hc : contribution src pkg name
        = (match openAndParse src pkg name with
          | .ok (.error failure) => failureEntries failure
          | _ => []) := rfl
    rw [List.map_cons, List.flatten_cons, hc]
    cases ho : openAndParse src pkg name with
    | panic m => rw [ho] at hp; cases hp
    | error e => rw [ho] at hp; cases hp
    | ok res =>
      cases res with
      | error failure =>
        dsimp only
        obtain ⟨fs, hfs⟩ := ih files (errList ++ failureEntries failure) h.2
        refine ⟨fs, ?_⟩
        rw [hfs, List.append_assoc]
      | ok parsed =>
        rw [ho] at hp
        dsimp only at hp
        dsimp only
        rw [(rewriteImports_Decls src pkg parsed).1]
        obtain ⟨decls, hdecls⟩ := redactDecls_isSome replaced parsed.Decls hp
        rw [hdecls]
        dsimp only
        obtain ⟨fs, hfs⟩ := ih (files ++ [{ rewriteImports src pkg parsed with Decls := decls }])
          errList h.2
        refine ⟨fs, ?_⟩
        rw [hfs, List.nil_append]

theorem flatten_contribution_eq_nil (src : Sources) (pkg : Package) (names : List String) :
    (names.map (contribution src pkg)).flatten = []
      ↔ ¬ ∃ name ∈ names, ∃ failure, openAndParse src pkg name = .ok (.error failure) := by
  induction names with
  | nil => simp
  | cons name rest ih =>
    rw [List.map_cons, List.flatten_cons, List.append_eq_nil, ih]
    constructor
    · rintro ⟨hc, hrest⟩ ⟨n, hn, failure, hf⟩
      rcases List.mem_cons.1 hn with rfl | hn
      · unfold contribution at hc
        rw [hf] at hc
        exact failureEntries_ne_nil failure hc
      · exact hrest ⟨n, hn, failure, hf⟩
    · intro hno
      refine ⟨?_, fun ⟨n, hn, failure, hf⟩ => hno ⟨n, List.mem_cons_of_mem _ hn, failure, hf⟩⟩
      unfold contribution
      cases ho : openAndParse src pkg name with
      | panic m => rfl
      | error e => rfl
      | ok res =>
        cases res with
        | error failure => exact absurd ⟨name, List.mem_cons_self _ _, failure, ho⟩ hno
        | ok parsed => rfl

theorem originalsLoop_open_error (src : Sources) (pkg : Package) (replaced : List String)
    (before : List String) (name : String) (rest : List String) (e : BuildError)
    (files : List AstFile) (errList : List ErrEntry)
    (hbefore : before.all (passes src pkg) = true)
    (hopen : openAndParse src pkg name = .error e) :
    originalsLoop src pkg replaced (before ++ name :: rest) files errList = .error e := by
  induction before generalizing files errList with
  | nil =>
    rw [List.nil_append]
    unfold originalsLoop
    rw [hopen]
  | cons first more ih =>
    rw [List.all_cons, Bool.and_eq_true] at hbefore
    have hp := hbefore.1
    unfold passes at hp
    rw [List.cons_append]
    unfold originalsLoop
    cases ho : openAndParse src pkg first with
    | panic m => rw [ho] at hp; cases hp
    | error e1 => rw [ho] at hp; cases hp
    | ok res =>
      cases res with
      | error failure =>
        dsimp only
        exact ih _ _ hbefore.2
      | ok parsed =>
        rw [ho] at hp
        dsimp only at hp
        dsimp only
        rw [(rewriteImports_Decls src pkg parsed).1]
        obtain ⟨decls, hdecls⟩ := redactDecls_isSome replaced parsed.Decls hp
        rw [hdecls]
        dsimp only
        exact ih _ _ hbefore.2

/-- C14 (as stated, refuted): the file `bad.go` has a parse error. In a package whose next
file does not open, `parseAndAugment` returns the error of the file that does not open
and not the error list; in a package whose next file declares a method whose receiver
is no type name, and in a test build whose overlay test file does not open, it panics. -/
theorem open_error_drops_error_list :
    contribution oddSources (timePackage ["bad.go", "missing.go"]) "bad.go"
        = [ErrEntry.scan { Pos := { Filename := "goroot/src/time/bad.go", Line := 1,
                                    Column := 1 }
                           Msg := "expected 'package'" }]
      ∧ parseAndAugment oddSources (timePackage ["bad.go", "missing.go"]) false
        = .error (.message "open goroot/src/time/missing.go")
      ∧ panicked (parseAndAugment oddSources (timePackage ["bad.go", "odd.go"]) false) = true
      ∧ panicked (parseAndAugment oddSources (timePackage ["bad.go"]) true) = true := by
  decide

/-- C14 (amended): when the overlay of a package is read without a panic. If every
original source file opens (and no parsed file has a function whose receiver is not a
type name), the error list of `parseAndAugment` is the concatenation, in the order of
the source files, of the entries of each failing file; a file whose scanner error list
has at most ten errors gives all of them, one with more gives its first ten and then one
entry with the message `too many errors` at the position of the tenth; a file that
parses gives none, so parsing goes on past a failing file; and `parseAndAugment` returns
that list as its error when at least one file failed to parse, and returns files when
none did. If a source file does not open, the files before it having opened,
`parseAndAugment` returns the error of that file, without the list. -/
theorem parse_errors_aggregated (src : Sources) (pkg : Package) (isTest : Bool)
    (overlay : List AstFile) (replaced : List String)
    (hoverlay : overlayPhase src pkg isTest = .ok (overlay, replaced)) :
    (pkg.GoFiles.all (passes src pkg) = true →
        ((∃ name ∈ pkg.GoFiles, ∃ failure,
            openAndParse src pkg name = .ok (.error failure)) →
          parseAndAugment src pkg isTest
            = .errList (pkg.GoFiles.map (contribution src pkg)).flatten)
        ∧ ((¬ ∃ name ∈ pkg.GoFiles, ∃ failure,
              openAndParse src pkg name = .ok (.error failure)) →
            ∃ fs, parseAndAugment src pkg isTest = .files fs))
      ∧ (∀ name first rest, openAndParse src pkg name = .ok (.error (.list first rest)) →
          ((first :: rest).length ≤ 10 →
              contribution src pkg name = (first :: rest).map ErrEntry.scan)
            ∧ (10 < (first :: rest).length →
                ∃ tenth, (first :: rest)[9]? = some tenth
                  ∧ contribution src pkg name
                    = ((first :: rest).take 10).map ErrEntry.scan
                      ++ [ErrEntry.scan { Pos := tenth.Pos, Msg := "too many errors" }]))
      ∧ (∀ name e, openAndParse src pkg name = .ok (.error (.other e)) →
          contribution src pkg name = [ErrEntry.other e])
      ∧ (∀ name file, openAndParse src pkg name = .ok (.ok file) →
          contribution src pkg name = [])
      ∧ (∀ before name rest e, pkg.GoFiles = before ++ name :: rest →
          before.all (passes src pkg) = true → openAndParse src pkg name = .error e →
          parseAndAugment src pkg isTest = .error e) := by
  refine ⟨?_, ?_, ?_, ?_, ?_⟩
  · intro hpass
    obtain ⟨fs, hfs⟩ := originalsLoop_passes src pkg (replaced.filter (fun n => n ≠ "init"))
      pkg.GoFiles overlay [] hpass
    rw [List.nil_append] at hfs
    have hrun : parseAndAugment src pkg isTest
        = if (pkg.GoFiles.map (contribution src pkg)).flatten = [] then .files fs
          else .errList (pkg.GoFiles.map (contribution src pkg)).flatten := by
      unfold parseAndAugment
      rw [hoverlay]
      exact hfs
    constructor
    · intro hfail
      rw [hrun, if_neg (fun hnil => (flatten_contribution_eq_nil src pkg _).1 hnil hfail)]
    · intro hnone
      rw [hrun, if_pos ((flatten_contribution_eq_nil src pkg _).2 hnone)]
      exact ⟨fs, rfl⟩
  · intro name first rest ho
    unfold contribution
    rw [ho]
    dsimp only
    unfold failureEntries truncateErrors
    dsimp only
    constructor
    · intro hle
      rw [if_neg (by omega)]
    · intro hlt
      rw [if_pos hlt]
      have h9 : 9 < (first :: rest).length := by omega
      refine ⟨(first :: rest)[9], List.getElem?_eq_getElem h9, ?_⟩
      rw [List.map_append, List.map_singleton, List.getD_eq_getElem _ _ h9]
  · intro name e ho
    unfold contribution
    rw [ho]
    rfl
  · intro name file ho
    unfold contribution
    rw [ho]
  · intro before name rest e hfiles hbefore hopen
    unfold parseAndAugment
    rw [hoverlay]
    dsimp only
    rw [hfiles]
    exact originalsLoop_open_error src pkg _ before name rest e overlay [] hbefore hopen

theorem parse_errors_aggregated_witness :
    parseAndAugment timeSources (timePackage ["bad.go", "sleep.go", "worse.go"]) false
        = .errList ((timePackage ["bad.go", "sleep.go", "worse.go"]).GoFiles.map
            (contribution timeSources
              (timePackage ["bad.go", "sleep.go", "worse.go"]))).flatten
      ∧ ((timePackage ["bad.go", "sleep.go", "worse.go"]).GoFiles.map
          (fun name => (contribution timeSources
            (timePackage ["bad.go", "sleep.go", "worse.go"]) name).length)) = [1, 0, 11]
      ∧ parseAndAugment timeSources (timePackage ["bad.go", "missing.go", "sleep.go"]) false
        = .error (.message "open goroot/src/time/missing.go") :=
  ⟨((parse_errors_aggregated timeSources (timePackage ["bad.go", "sleep.go", "worse.go"])
      false [timeOverlay] ["Sleep", "init", "Timer", "Timer.Stop"] rfl).1 (by decide)).1
      ⟨"bad.go", List.mem_cons_self _ _,
        .list { Pos := { Filename := "goroot/src/time/bad.go", Line := 1, Column := 1 }
                Msg := "expected 'package'" } [], rfl⟩,
    by decide,
    (parse_errors_aggregated timeSources (timePackage ["bad.go", "missing.go", "sleep.go"])
      false [timeOverlay] ["Sleep", "init", "Timer", "Timer.Stop"] rfl).2.2.2.2
      ["bad.go"] "missing.go" ["sleep.go"] (.message "open goroot/src/time/missing.go")
      rfl (by decide) rfl⟩

/-! ## Claim C20: cancellation before the code generator -/

theorem ImportStandardArchive_none_unchanged (w : World) (fuel : Nat) (path : String)
    (s s1 : Session) (h : ImportStandardArchive w fuel path s = some (s1, .ok none)) :
    s1 = s := by
  cases fuel with
  | zero => simp [ImportStandardArchive] at h
  | succ fuel =>
    unfold ImportStandardArchive at h
    split at h
    · simp only [Option.some.injEq, Prod.mk.injEq] at h
      exact h.1.symm
    · split at h
      · simp only [Option.some.injEq, Prod.mk.injEq] at h
        exact h.1.symm
      · split at h
        · simp at h
        · split at h
          · simp at h
          · split at h
            · simp at h
            · split at h <;> simp at h

/-- C20 (as stated, refuted): the context is cancelled from the start and the package `a`
has a precompiled archive. `BuildPackage` does not return the error of the context: it
returns the archive, and the archives of `a` and of its import `b` are written to the
cache. -/
theorem cancelled_build_of_standard_package :
    (BuildPackage cancelledAssetsWorld 3 (packageOf "a" []) NewSession).map (fun r => r.2)
        = some (.ok (precompiled "a" ["b"]))
      ∧ (BuildPackage cancelledAssetsWorld 3 (packageOf "a" []) NewSession).map
          (fun r => (r.1.Archives "a", r.1.Archives "b"))
        = some (some (precompiled "a" ["b"]), some (precompiled "b" []))
      ∧ (∀ s, cancelledAssetsWorld.cancelled s = true) := by
  refine ⟨by decide, by decide, fun _ => rfl⟩

/-- C20 (amended): when the archive of a package is not cached, no standard archive is
found for it, its files parse, and the context is cancelled when `BuildPackage` reaches
the code generator: `BuildPackage` returns the error of the context and leaves the
session as it was before the call, without a compile step and without an
installation. -/
theorem BuildPackage_cancelled_before_compile (w : World) (fuel : Nat) (pkg : PackageData)
    (s s1 : Session) (files : List AstFile)
    (hmiss : s.Archives (effectivePath w pkg) = none)
    (hstd : (if !w.options.Source (effectivePath w pkg) then
        ImportStandardArchive w fuel (effectivePath w pkg) s
      else some (s, .ok none)) = some (s1, .ok none))
    (hparse : w.parseAndAugment pkg = .ok files) (hcancel : w.cancelled s = true) :
    BuildPackage w (fuel + 1) pkg s = some (s, .error .cancelled)
      ∧ (∀ key, s.Archives key = none →
          ∀ r, BuildPackage w (fuel + 1) pkg s = some r → r.1.Archives key = none)
      ∧ (∀ r, BuildPackage w (fuel + 1) pkg s = some r → r.1.trace = s.trace) := by
  have hs1 : s1 = s := by
    split at hstd
    · exact ImportStandardArchive_none_unchanged w fuel _ s s1 hstd
    · simp only [Option.some.injEq, Prod.mk.injEq] at hstd
      exact hstd.1.symm
  subst hs1
  have hrun : BuildPackage w (fuel + 1) pkg s1 = some (s1, .error .cancelled) := by
    unfold BuildPackage
    simp only [hmiss, hstd, hparse, hcancel, if_true]
  refine ⟨hrun, ?_, ?_⟩
  · intro key hkey r hr
    rw [hrun] at hr
    cases hr
    exact hkey
  · intro r hr
    rw [hrun] at hr
    cases hr
    rfl

theorem BuildPackage_cancelled_before_compile_witness :
    BuildPackage cancelledWorld 2 (packageOf "a" []) NewSession
      = some (NewSession, .error .cancelled) :=
  (BuildPackage_cancelled_before_compile cancelledWorld 1 (packageOf "a" []) NewSession
    NewSession [] rfl rfl rfl rfl).1

/-! ## Claim C21: what the minified mode removes -/

theorem assembleCode_minify_newline (P body : String) (initializer : Bool) :
    assembleCode P (body ++ "\n") true initializer
      = some (minifiedPreamble P initializer ++ body ++ closingOf initializer) := by
  unfold assembleCode minifiedPreamble closingOf
  cases initializer <;>
    simp only [Bool.false_eq_true, if_true, if_false, Truncate_written, String.append_empty]

theorem assembleCode_minify (P written : String) (initializer : Bool) :
    assembleCode P written true initializer
      = if minifiedPreamble P initializer ++ written = "" then none
        else some (⟨(minifiedPreamble P initializer ++ written).data.dropLast⟩
          ++ closingOf initializer) := by
  have hT : ∀ buf : String, Truncate buf ((buf.length : Int) - 1)
      = if buf = "" then none else some ⟨buf.data.dropLast⟩ := by
    intro buf
    unfold Truncate
    by_cases he : buf = ""
    · subst he
      rw [if_pos rfl, if_pos (Or.inl (by decide))]
    · have hpos : 0 < buf.length := by
        rcases Nat.eq_zero_or_pos buf.length with h0 | hp
        · exact absurd (String.ext (List.length_eq_zero.1 h0)) he
        · exact hp
      rw [if_neg he, if_neg (by omega)]
      congr 1
      apply String.ext
      show List.take ((buf.length : Int) - 1).toNat buf.data = buf.data.dropLast
      have hn : ((buf.length : Int) - 1).toNat = buf.data.length - 1 := by
        show ((buf.data.length : Int) - 1).toNat = buf.data.length - 1
        omega
      rw [hn, List.dropLast_eq_take]
  unfold assembleCode
  dsimp only
  have hpre : (if initializer = true then
        if true = true then "$load[\"" ++ P ++ "\"]=function()\x7b"
        else "$load[\"" ++ P ++ "\"] = function () \x7b" ++ "\n"
      else "") = minifiedPreamble P initializer := by
    unfold minifiedPreamble
    cases initializer <;> rfl
  rw [hpre, if_pos rfl, hT]
  by_cases he : minifiedPreamble P initializer ++ written = ""
  · rw [if_pos he, if_pos he]
  · rw [if_neg he, if_neg he]
    unfold closingOf
    cases initializer <;> simp

/-- C21 (as stated, refuted): with `minify` set, for a package writer that writes nothing
`GetPackageCode` panics when `initializer` is not set and cuts the brace that ends the
preamble when it is, and for a package writer that writes `a;` it cuts the semicolon. -/
theorem minify_cuts_what_is_no_newline :
    GetPackageCode (fixedRenderer "") (archiveOf "main" []) true false
        = .panic "bytes.Buffer: truncation out of range"
      ∧ GetPackageCode (fixedRenderer "") (archiveOf "main" []) true true
        = .ok ("$load[\"main\"]=function()\x7d;", "sha1:$load[\"main\"]=function()\x7d;")
      ∧ GetPackageCode (fixedRenderer "a;") (archiveOf "main" []) true false
        = .ok ("a", "sha1:a") := by
  decide

/-- C21 (amended): for an archive on which the package writer writes `body` followed by
a newline, `GetPackageCode` with `minify` set does not panic and returns the preamble,
then `body`, then the closing: one byte less than was put in the buffer, the newline
that the package writer wrote last. -/
theorem minify_removes_trailing_newline (r : Renderer) (archive : Archive)
    (initializer : Bool) (body : String) (hc : r.cancelled archive = false)
    (hw : r.WritePkgCode archive archive.Declarations true = .ok (body ++ "\n")) :
    GetPackageCode r archive true initializer
        = .ok (minifiedPreamble archive.ImportPath initializer ++ body ++ closingOf initializer,
            r.sha1 (minifiedPreamble archive.ImportPath initializer ++ body
              ++ closingOf initializer))
      ∧ (∀ msg, GetPackageCode r archive true initializer ≠ .panic msg)
      ∧ (minifiedPreamble archive.ImportPath initializer ++ body
            ++ closingOf initializer).length + 1
          = (minifiedPreamble archive.ImportPath initializer ++ (body ++ "\n")
            ++ closingOf initializer).length := by
  have hrun : GetPackageCode r archive true initializer
      = .ok (minifiedPreamble archive.ImportPath initializer ++ body ++ closingOf initializer,
          r.sha1 (minifiedPreamble archive.ImportPath initializer ++ body
            ++ closingOf initializer)) := by
    rw [GetPackageCode_eq]
    simp only [hc, hw, assembleCode_minify_newline, Bool.false_eq_true, if_false]
  refine ⟨hrun, ?_, ?_⟩
  · intro msg hmsg
    rw [hrun] at hmsg
    cases hmsg
  · simp only [String.length_append]
    have : "\n".length = 1 := by decide
    omega

theorem minify_removes_trailing_newline_witness :
    GetPackageCode lineRenderer (archiveOf "main" []) true true
        = .ok (minifiedPreamble (archiveOf "main" []).ImportPath true ++ "code of main"
              ++ closingOf true,
            lineRenderer.sha1 (minifiedPreamble (archiveOf "main" []).ImportPath true
              ++ "code of main" ++ closingOf true))
      ∧ (∀ msg, GetPackageCode lineRenderer (archiveOf "main" []) true true ≠ .panic msg)
      ∧ (minifiedPreamble (archiveOf "main" []).ImportPath true ++ "code of main"
            ++ closingOf true).length + 1
          = (minifiedPreamble (archiveOf "main" []).ImportPath true
            ++ ("code of main" ++ "\n") ++ closingOf true).length :=
  minify_removes_trailing_newline lineRenderer (archiveOf "main" []) true "code of main"
    rfl rfl

end Jsgo
